import Mathlib

set_option maxHeartbeats 1000000

/-!
Shallow embedding of the Mlembot outbound-message pipeline
(`utils/discord_utils.py`), the conversation persistence layer
(`utils/conversation.py`, `bot/commands/chat.py`) and the error classifier
(`shared/error_handler.py`).  Text is modelled as `List Char`; the Discord
transport, the OpenAI client and the filesystem are abstracted by pure
values and result parameters, everything else is translated statement by
statement from the Python source.
-/

/-- Python whitespace test: the characters recognised by `str.strip()` and
by the regex class `\s` (ASCII range). -/
def isPySpace (c : Char) : Bool :=
  c = ' ' || c = '\t' || c = '\n' || c = '\r' || c = '\x0b' || c = '\x0c'

/-- Python `str.strip()` on a character list. -/
def pyStrip (s : List Char) : List Char :=
  ((s.dropWhile isPySpace).reverse.dropWhile isPySpace).reverse

/-- Python substring test `pat in hay` (true for the empty pattern). -/
def containsSeq (pat : List Char) : List Char → Bool
  | [] => pat.isEmpty
  | h :: t => pat.isPrefixOf (h :: t) || containsSeq pat t

/-- ASCII lower-casing of a message, as `error_message.lower()`. -/
def lowerList (s : List Char) : List Char := s.map Char.toLower

/-- The error categories of `shared/error_handler.py` (`class ErrorCategory`). -/
inductive ErrorCategory where
  | api
  | network
  | database
  | permission
  | validation
  | rate_limit
  | critical
  | unknown
  deriving DecidableEq

/-- The error severities of `shared/error_handler.py` (`class ErrorSeverity`). -/
inductive ErrorSeverity where
  | low
  | medium
  | high
  | critical
  deriving DecidableEq

/-- `ErrorHandler._determine_error_category`: keyword matching on the
lower-cased error message. -/
def determine_error_category (error_message : List Char) : ErrorCategory :=
  let m := lowerList error_message
  if containsSeq "api".data m || containsSeq "openai".data m then .api
  else if containsSeq "network".data m || containsSeq "connection".data m then .network
  else if containsSeq "database".data m || containsSeq "sql".data m then .database
  else if containsSeq "permission".data m || containsSeq "access".data m then .permission
  else if containsSeq "validation".data m || containsSeq "invalid".data m then .validation
  else if containsSeq "rate limit".data m || containsSeq "too many requests".data m then .rate_limit
  else .unknown

/-- `ErrorHandler._determine_error_severity` (context reduced to its only
read field `critical_operation`). -/
def determine_error_severity (category : ErrorCategory) (criticalOperation : Bool) :
    ErrorSeverity :=
  if category = .critical then .critical
  else if criticalOperation then .high
  else if category = .rate_limit then .high
  else if category = .api then .medium
  else if category = .network then .medium
  else if category = .database then .high
  else if category = .permission then .medium
  else if category = .validation then .low
  else .medium

/-- The analysis record assembled by `ErrorHandler.analyze_error` and written
to the log by `log_error` (fields relevant to classification). -/
structure ErrorRecord where
  error_type : List Char
  error_message : List Char
  category : ErrorCategory
  severity : ErrorSeverity
  deriving DecidableEq

/-- `ErrorHandler.analyze_error`: classify, grade, and assemble the record. -/
def analyze_error (errorType errorMessage : List Char) (criticalOperation : Bool) :
    ErrorRecord :=
  let category := determine_error_category errorMessage
  { error_type := errorType
    error_message := errorMessage
    category := category
    severity := determine_error_severity category criticalOperation }

/-- A chat message as stored by `utils/conversation.py` (`@dataclass Message`). -/
structure Message where
  role : List Char
  content : List Char
  timestamp : List Char
  metadata : List (List Char × List Char)
  deriving DecidableEq

/-- The per-conversation settings dictionary (`ConversationManager.default_settings`
fixes its keys). -/
structure ConversationSettings where
  max_history : Nat
  auto_summarize : Bool
  language : List Char
  temperature : ℚ
  max_tokens : Nat
  model : List Char
  system_prompt : List Char
  deriving DecidableEq

/-- `ConversationManager.default_settings`. -/
def default_settings : ConversationSettings :=
  { max_history := 10
    auto_summarize := false
    language := "en".data
    temperature := 7 / 10
    max_tokens := 1000
    model := "gpt-4o-mini".data
    system_prompt := "You are a helpful AI assistant. Your responses should be clear and concise.".data }

/-- The conversation metadata dictionary: settings, topic, sentiment and the
`participants` set of role names. -/
structure ConversationMetadata where
  settings : ConversationSettings
  topic : Option (List Char)
  sentiment : Option (List Char)
  participants : Finset (List Char)
  deriving DecidableEq

/-- A conversation document (`@dataclass Conversation`). -/
structure Conversation where
  messages : List Message
  context : List (List Char × List Char)
  metadata : ConversationMetadata
  created_at : List Char
  updated_at : List Char
  deriving DecidableEq

/-- The on-disk dictionary produced by `_serialize_conversation`: identical to
the conversation except that the participants set is encoded as a list. -/
structure SerializedConversation where
  messages : List Message
  context : List (List Char × List Char)
  settings : ConversationSettings
  topic : Option (List Char)
  sentiment : Option (List Char)
  participants : List (List Char)
  created_at : List Char
  updated_at : List Char
  deriving DecidableEq

/-- `ConversationManager._serialize_conversation`: fields pass through
verbatim, `participants` becomes `list(participants)` (some enumeration
order of the set; the embedding picks the sorted one). -/
def serialize_conversation (c : Conversation) : SerializedConversation :=
  { messages := c.messages
    context := c.context
    settings := c.metadata.settings
    topic := c.metadata.topic
    sentiment := c.metadata.sentiment
    participants := c.metadata.participants.sort (· ≤ ·)
    created_at := c.created_at
    updated_at := c.updated_at }

/-- `ConversationManager._deserialize_conversation`: fields pass through
verbatim, `participants` becomes `set(participants)`. -/
def deserialize_conversation (d : SerializedConversation) : Conversation :=
  { messages := d.messages
    context := d.context
    metadata :=
      { settings := d.settings
        topic := d.topic
        sentiment := d.sentiment
        participants := d.participants.toFinset }
    created_at := d.created_at
    updated_at := d.updated_at }

/-- A fresh conversation document, as created inside `add_message` /
`create_conversation` when none exists for the key. -/
def newConversation (now : List Char) : Conversation :=
  { messages := []
    context := []
    metadata :=
      { settings := default_settings
        topic := none
        sentiment := none
        participants := ∅ }
    created_at := now
    updated_at := now }

/-- `ConversationManager.add_message` (success path): load or create, update
the system prompt when a non-empty override is given, append the new message,
record the role in `participants`, bump `updated_at`. -/
def add_message (stored : Option Conversation) (user_id channel_id content role : List Char)
    (system_prompt : Option (List Char)) (now : List Char) : Conversation :=
  let conversation := stored.getD (newConversation now)
  let conversation :=
    match system_prompt with
    | some sp =>
        if sp.isEmpty then conversation
        else
          { conversation with
              metadata :=
                { conversation.metadata with
                    settings := { conversation.metadata.settings with system_prompt := sp } } }
    | none => conversation
  let message : Message :=
    { role := role
      content := content
      timestamp := now
      metadata :=
        [("user_id".data, user_id), ("channel_id".data, channel_id),
         ("message_type".data, "text".data)] }
  { conversation with
      messages := conversation.messages ++ [message]
      metadata :=
        { conversation.metadata with
            participants := insert role conversation.metadata.participants }
      updated_at := now }

/-- The fixed apology string returned by `_generate_ai_response` when the
provider call raises. -/
def apologyText : List Char :=
  "I\x27m sorry, I encountered an error while generating a response.".data

/-- A `{role, content}` entry of the prompt sent to the provider. -/
structure RoleContent where
  role : List Char
  content : List Char
  deriving DecidableEq

/-- The argument list of the `openai.ChatCompletion.create` call made by
`_generate_ai_response`. -/
structure ProviderRequest where
  model : List Char
  messages : List RoleContent
  temperature : ℚ
  max_tokens : Nat
  deriving DecidableEq

/-- The prompt construction of `ConversationManager._generate_ai_response`:
the system prompt (when non-empty) followed by `conversation.messages[-5:]`,
with the settings' model, temperature and max_tokens. -/
def build_provider_request (conversation : Conversation) : ProviderRequest :=
  let recent_messages := conversation.messages.drop (conversation.messages.length - 5)
  let settings := conversation.metadata.settings
  let sysMsgs : List RoleContent :=
    if settings.system_prompt = [] then []
    else [{ role := "system".data, content := settings.system_prompt }]
  { model := settings.model
    messages := sysMsgs ++ recent_messages.map (fun m => { role := m.role, content := m.content })
    temperature := settings.temperature
    max_tokens := settings.max_tokens }

/-- `ConversationManager._generate_ai_response`: the provider result on
success, the fixed apology string when the call raises. -/
def generate_ai_response (providerResult : Except Unit (List Char)) : List Char :=
  match providerResult with
  | .ok t => t
  | .error _ => apologyText

/-- `ConversationManager.generate_response`: append the user turn, obtain the
provider reply (or the apology), append it as the assistant turn, persist,
and return the reply text. -/
def generate_response (conversation : Conversation) (message : List Char)
    (providerResult : Except Unit (List Char)) (now : List Char) :
    Conversation × Option (List Char) :=
  let userMessage : Message :=
    { role := "user".data, content := message, timestamp := now, metadata := [] }
  let conversation :=
    { conversation with
        messages := conversation.messages ++ [userMessage]
        metadata :=
          { conversation.metadata with
              participants := insert "user".data conversation.metadata.participants }
        updated_at := now }
  let response_text := generate_ai_response providerResult
  let aiMessage : Message :=
    { role := "assistant".data, content := response_text, timestamp := now, metadata := [] }
  let conversation :=
    { conversation with
        messages := conversation.messages ++ [aiMessage]
        metadata :=
          { conversation.metadata with
              participants := insert "assistant".data conversation.metadata.participants }
        updated_at := now }
  (conversation, some response_text)

/-- The `/ask` handler body (`Chat.ask`, also the mention handler
`Chat.on_message`): store the user turn via `add_message`, then call
`generate_response` with that same conversation object. -/
def chat_ask_flow (stored : Option Conversation) (user_id channel_id prompt : List Char)
    (system_prompt : List Char) (providerResult : Except Unit (List Char)) (now : List Char) :
    Conversation × Option (List Char) :=
  let conversation := add_message stored user_id channel_id prompt "user".data
    (some system_prompt) now
  generate_response conversation prompt providerResult now

/-- Count of leading occurrences of `c` (the greedy match of `c*` at the
start of the text). -/
def countRun (c : Char) : List Char → Nat
  | [] => 0
  | d :: t => if d = c then countRun c t + 1 else 0

/-- One emphasis-collapsing rule of `fix_discord_formatting`:
`re.sub(c{minRun,}([^c]+?)c{minRun,}, c^repLen\1c^repLen, text)`, scanning
left to right.  A candidate opening run is the maximal run at the current
position; the lazy group cannot cross a `c`, so a candidate either matches
with the very next maximal run or fails for good.  In the recursive calls
`t.drop (n - 1)` equals `(d :: t).drop n` because the consumed prefix is
never empty. -/
def collapseRuns (c : Char) (minRun repLen : Nat) (s : List Char) : List Char :=
  match s with
  | [] => []
  | d :: t =>
      let r1 := countRun c (d :: t)
      if r1 = 0 then
        let g := (d :: t).takeWhile (fun x => x != c)
        g ++ collapseRuns c minRun repLen (t.drop (g.length - 1))
      else if r1 < minRun then
        List.replicate r1 c ++ collapseRuns c minRun repLen (t.drop (r1 - 1))
      else
        let afterRun := (d :: t).drop r1
        let g := afterRun.takeWhile (fun x => x != c)
        if g.length = 0 then d :: t
        else
          let r2 := countRun c (afterRun.drop g.length)
          if minRun ≤ r2 then
            List.replicate repLen c ++ g ++ List.replicate repLen c ++
              collapseRuns c minRun repLen (t.drop (r1 + g.length + r2 - 1))
          else
            List.replicate r1 c ++ g ++
              collapseRuns c minRun repLen (t.drop (r1 + g.length - 1))
termination_by s.length
decreasing_by
  all_goals simp only [List.length_drop, List.length_cons]
  all_goals omega

/-- The match of `^(#{4,})\s+(.+?)$` (with `re.MULTILINE`) at a line start:
returns the captured group 2 together with the length of the whole match.
`\s+` is greedy and may cross newlines; `.+?` cannot, so group 2 runs to the
end of the line, except that when the whitespace run reaches the end of the
input the engine backtracks: group 2 becomes the last non-newline whitespace
character of the run (the remaining trailing newlines are left unmatched),
provided at least one whitespace character is left for `\s+`. -/
def matchHeading4 (s : List Char) : Option (List Char × Nat) :=
  let k := countRun '#' s
  if k < 4 then none
  else
    let rest := s.drop k
    let w := rest.takeWhile isPySpace
    if w.length = 0 then none
    else
      let afterW := rest.drop w.length
      if afterW.length = 0 then
        let wKeep := w.take (w.length - (w.reverse.takeWhile (fun x => x == '\n')).length)
        if 2 ≤ wKeep.length then
          some (wKeep.drop (wKeep.length - 1), k + wKeep.length)
        else none
      else
        let content := afterW.takeWhile (fun x => x != '\n')
        some (content, k + w.length + content.length)

/-- `re.sub(r'^(#{4,})\s+(.+?)$', r'**\2**', text, flags=re.MULTILINE)`:
try the heading match at every line start; a match ends at an end of line,
so scanning resumes at the following newline character. -/
def fixHeadings (s : List Char) : List Char :=
  match s with
  | [] => []
  | d :: t =>
      match matchHeading4 (d :: t) with
      | some (g2, mlen) =>
          "**".data ++ g2 ++ "**".data ++
            (match (d :: t).drop mlen with
             | [] => []
             | c :: _ => c :: fixHeadings (t.drop mlen))
      | none =>
          let ln := (d :: t).takeWhile (fun x => x != '\n')
          match (d :: t).drop ln.length with
          | [] => ln
          | c :: _ => ln ++ c :: fixHeadings (t.drop ln.length)
termination_by s.length
decreasing_by
  all_goals simp only [List.length_drop, List.length_cons]
  all_goals omega

/-- One line of `re.sub(r'^(#{1,3})([^\s#].+?)$', r'\1 \2', ...)`: a run of
one to three hashes directly followed by at least two characters, the first
neither whitespace nor `#`, gets a space inserted after the hashes. -/
def fixHashLine (ln : List Char) : List Char :=
  let k := countRun '#' ln
  if 1 ≤ k ∧ k ≤ 3 then
    match ln.drop k with
    | c :: e :: rest =>
        if isPySpace c || c = '#' then ln
        else List.replicate k '#' ++ ' ' :: c :: e :: rest
    | _ => ln
  else ln

/-- `re.sub(r'^(#{1,3})([^\s#].+?)$', r'\1 \2', text, flags=re.MULTILINE)`:
the pattern cannot cross a newline, so it is applied line by line. -/
def fixHashSpacing (s : List Char) : List Char :=
  match s with
  | [] => []
  | d :: t =>
      let ln := (d :: t).takeWhile (fun x => x != '\n')
      match (d :: t).drop ln.length with
      | [] => fixHashLine ln
      | c :: _ => fixHashLine ln ++ c :: fixHashSpacing (t.drop ln.length)
termination_by s.length
decreasing_by
  simp only [List.length_drop, List.length_cons]
  omega

/-- `fix_discord_formatting`: the five `re.sub` rules in source order (the
hash rules, then the `*`, `_` and `~` collapsing rules). -/
def fix_discord_formatting (s : List Char) : List Char :=
  collapseRuns '~' 3 2 (collapseRuns '_' 3 2 (collapseRuns '*' 4 3
    (fixHashSpacing (fixHeadings s))))

/-- Python regex `\w` over ASCII: letters, digits and underscore. -/
def isWordChar (c : Char) : Bool := c.isAlphanum || c = '_'

/-- Index of the leftmost occurrence of `pat` in the text, if any. -/
def findSubIdx (pat : List Char) : List Char → Option Nat
  | [] => if pat.isEmpty then some 0 else none
  | h :: t =>
      if pat.isPrefixOf (h :: t) then some 0
      else (findSubIdx pat t).map (· + 1)

/-- The fence pattern ``` `([\w]*)\n.*?` ``` bounded by triple backticks,
anchored at the start of `s`: the language tag and the total match length.
The lazy body ends at the first closing triple backtick. -/
def matchFenceAt (s : List Char) : Option (List Char × Nat) :=
  if ("```".data).isPrefixOf s then
    let lang := (s.drop 3).takeWhile isWordChar
    match s.drop (3 + lang.length) with
    | '\n' :: body =>
        match findSubIdx "```".data body with
        | some i => some (lang, 3 + lang.length + 1 + i + 3)
        | none => none
    | _ => none
  else none

/-- The placeholder `__CODE_BLOCK_k__` used by `send_discord_safe` while
formatting the text around code blocks. -/
def placeholderFor (k : Nat) : List Char :=
  "__CODE_BLOCK_".data ++ (Nat.repr k).data ++ "__".data

/-- The extraction pass of `send_discord_safe`: replace every fenced code
block by its placeholder and collect the blocks in order.  A successful
match has positive length, so `t.drop (len - 1)` equals
`(d :: t).drop len`. -/
def extractBlocks (s : List Char) (k : Nat) : List Char × List (List Char) :=
  match s with
  | [] => ([], [])
  | d :: t =>
      match matchFenceAt (d :: t) with
      | some (_, len) =>
          let res := extractBlocks (t.drop (len - 1)) (k + 1)
          (placeholderFor k ++ res.1, (d :: t).take len :: res.2)
      | none =>
          let res := extractBlocks t k
          (d :: res.1, res.2)
termination_by s.length
decreasing_by
  all_goals simp only [List.length_drop, List.length_cons]
  all_goals omega

/-- Python `str.replace(pat, rep)`: replace every non-overlapping occurrence
left to right (the guard on an empty pattern only serves termination; the
placeholders substituted here are never empty). -/
def replaceAll (pat rep : List Char) (s : List Char) : List Char :=
  match s with
  | [] => []
  | d :: t =>
      if pat.isPrefixOf (d :: t) && !pat.isEmpty then
        rep ++ replaceAll pat rep (t.drop (pat.length - 1))
      else d :: replaceAll pat rep t
termination_by s.length
decreasing_by
  all_goals simp only [List.length_drop, List.length_cons]
  all_goals omega

/-- Restore the extracted code blocks into the formatted text: one
`str.replace` per placeholder, in insertion order. -/
def restoreBlocks (txt : List Char) (blocks : List (List Char)) (k : Nat) : List Char :=
  match blocks with
  | [] => txt
  | b :: rest => restoreBlocks (replaceAll (placeholderFor k) b txt) rest (k + 1)

/-- `re.finditer` over the fence pattern: the `(start, end, language)`
triples of all code blocks, left to right. -/
def findRangesFrom (s : List Char) (pos : Nat) : List (Nat × Nat × List Char) :=
  match s with
  | [] => []
  | d :: t =>
      match matchFenceAt (d :: t) with
      | some (lang, len) =>
          (pos, pos + len, lang) :: findRangesFrom (t.drop (len - 1)) (pos + len)
      | none => findRangesFrom t (pos + 1)
termination_by s.length
decreasing_by
  all_goals simp only [List.length_drop, List.length_cons]
  all_goals omega

/-- All code-block ranges of the text (`re.finditer(...)` in
`send_discord_safe`). -/
def findCodeBlockRanges (s : List Char) : List (Nat × Nat × List Char) :=
  findRangesFrom s 0

/-- The search for `(^|\n)-\s` in `looks_like_clean_markdown`; the flag
records whether the current position is a line start. -/
def hasDashAt (atLineStart : Bool) : List Char → Bool
  | [] => false
  | d :: t =>
      (atLineStart && (d == '-') &&
        (match t with
         | x :: _ => isPySpace x
         | [] => false)) ||
      hasDashAt (d == '\n') t

/-- The match of `\d+\.\s` at the current position. -/
def numDotSpace (l : List Char) : Bool :=
  let ds := l.takeWhile Char.isDigit
  !ds.isEmpty &&
    (match l.drop ds.length with
     | '.' :: x :: _ => isPySpace x
     | _ => false)

/-- The search for `(^|\n)\d+\.\s` in `looks_like_clean_markdown`. -/
def hasNumAt (atLineStart : Bool) : List Char → Bool
  | [] => false
  | d :: t => (atLineStart && numDotSpace (d :: t)) || hasNumAt (d == '\n') t

/-- `looks_like_clean_markdown` inside `send_discord_safe`. -/
def looksLikeCleanMarkdown (s : List Char) : Bool :=
  containsSeq "**Ingredients:**".data s || containsSeq "**Instructions:**".data s ||
    hasDashAt true s || hasNumAt true s

/-- Python `"x".split("\n")` (never returns an empty list; splitting the
empty string gives one empty line). -/
def splitNL : List Char → List (List Char)
  | [] => [[]]
  | d :: t =>
      if d == '\n' then [] :: splitNL t
      else
        match splitNL t with
        | ln :: rest => (d :: ln) :: rest
        | [] => [[d]]

/-- The re-fenced sub-block `f"```{language}\n{chunk}\n```"`. -/
def fenceWrap (language content : List Char) : List Char :=
  "```".data ++ language ++ '\n' :: content ++ "\n```".data

/-- The line-accumulation step of `split_code_block`: flush the pending
sub-block content when the next line would overflow the content budget,
otherwise append the line to it. -/
def splitStep (language : List Char) (maxContentLength : Nat)
    (acc : List (List Char) × List Char) (line : List Char) : List (List Char) × List Char :=
  if maxContentLength < acc.2.length + line.length + 1 then
    ((if acc.2.isEmpty then acc.1 else acc.1 ++ [fenceWrap language acc.2]), line)
  else
    (acc.1, if acc.2.isEmpty then line else acc.2 ++ '\n' :: line)

/-- `split_code_block` inside `send_discord_safe`: strip the fence, split the
content into lines, and re-accumulate lines into re-fenced sub-blocks whose
content stays within `2000 - len("```" + language + "\n\n```")`. -/
def split_code_block (code_block language : List Char) : List (List Char) :=
  let inner := code_block.drop (3 + language.length)
  let content := pyStrip (inner.take (inner.length - 3))
  let maxContentLength := 2000 - (8 + language.length)
  let res := (splitNL content).foldl (splitStep language maxContentLength) ([], [])
  if res.2.isEmpty then res.1 else res.1 ++ [fenceWrap language res.2]

/-- `a` occurs contiguously inside `b` (an unsplit occurrence). -/
def isSegmentOf (a b : List Char) : Prop := ∃ u v, b = u ++ a ++ v

/-- `if current_chunk.strip(): chunks.append(current_chunk.strip())`. -/
def flushChunk (chunks : List (List Char)) (cc : List Char) : List (List Char) :=
  if (pyStrip cc).isEmpty then chunks else chunks ++ [pyStrip cc]

/-- The recurring append pattern of `send_discord_safe`'s chunk loop: when
adding `x` would push the running chunk past 2000 characters, flush the
running chunk and start over from `x`; otherwise append `x` to it. -/
def appendOrFlush (st : List (List Char) × List Char) (x : List Char) :
    List (List Char) × List Char :=
  if 2000 < st.2.length + x.length then (flushChunk st.1 st.2, x) else (st.1, st.2 ++ x)

/-- One iteration of the range loop of `send_discord_safe`: append the text
before the block, then the block itself (split first when it exceeds 2000
characters), flushing the running chunk whenever an append would push it
past 2000 characters. -/
def processRange (fixedText : List Char) (st : List (List Char) × List Char × Nat)
    (r : Nat × Nat × List Char) : List (List Char) × List Char × Nat :=
  let lastEnd := st.2.2
  let start := r.1
  let stop := r.2.1
  let language := r.2.2
  let preCode := (fixedText.drop lastEnd).take (start - lastEnd)
  let st1 := appendOrFlush (st.1, st.2.1) preCode
  let codeBlock := (fixedText.drop start).take (stop - start)
  let st2 :=
    if 2000 < codeBlock.length then
      (split_code_block codeBlock language).foldl appendOrFlush st1
    else appendOrFlush st1 codeBlock
  (st2.1, st2.2, stop)

/-- The chunk list assembled by `send_discord_safe` before the send loop:
fold the range loop, append the remaining text, and flush the final chunk. -/
def buildChunks (fixedText : List Char) (ranges : List (Nat × Nat × List Char)) :
    List (List Char) :=
  let st := ranges.foldl (processRange fixedText) ([], [], 0)
  let remaining := fixedText.drop st.2.2
  let final := appendOrFlush (st.1, st.2.1) remaining
  flushChunk final.1 final.2

/-- `if wrap_in_markdown and not chunk.startswith("```"): msg = f"```markdown\n{chunk}\n```"`. -/
def wrapMsg (wrap : Bool) (c : List Char) : List Char :=
  if wrap && !(("```".data).isPrefixOf c) then
    "```markdown\n".data ++ c ++ "\n```".data
  else c

/-- `if len(msg) > 2000: msg = msg[:1997] + "..."` — the defensive hard cap. -/
def capMsg (m : List Char) : List Char :=
  if 2000 < m.length then m.take 1997 ++ "...".data else m

/-- The send loop of `send_discord_safe`: the message bodies handed to the
platform sink (`interaction.followup.send` / `message.reply`), in order. -/
def sendLoop (chunks : List (List Char)) (wrap : Bool) : List (List Char) :=
  match chunks with
  | [] => []
  | chunk :: rest =>
      let c := pyStrip chunk
      if c.isEmpty then sendLoop rest wrap
      else capMsg (wrapMsg wrap c) :: sendLoop rest wrap

/-- `send_discord_safe` as a pure function: the list of messages delivered
to the platform sink for the given text and wrap flag. -/
def send_discord_safe (full_text : List Char) (wrap_in_markdown : Bool) : List (List Char) :=
  if (pyStrip full_text).length = 0 then []
  else
    let extracted := extractBlocks full_text 0
    let fixed := restoreBlocks (fix_discord_formatting extracted.1) extracted.2 0
    let wrap := wrap_in_markdown && !looksLikeCleanMarkdown fixed
    sendLoop (buildChunks fixed (findCodeBlockRanges fixed)) wrap

/-- A small concrete conversation used to instantiate the serialization
round-trip. -/
def sampleConversation : Conversation :=
  { messages :=
      [{ role := "user".data, content := "hi".data, timestamp := "t0".data, metadata := [] }]
    context := [("k".data, "v".data)]
    metadata :=
      { settings := default_settings
        topic := none
        sentiment := none
        participants := {"user".data, "assistant".data} }
    created_at := "t0".data
    updated_at := "t1".data }

/-- A conversation holding seven messages under the default settings
(`max_history = 10`). -/
def sevenMessageConversation : Conversation :=
  { messages := (List.range 7).map (fun i =>
      { role := "user".data, content := (Nat.repr i).data, timestamp := "t".data, metadata := [] })
    context := []
    metadata :=
      { settings := default_settings
        topic := none
        sentiment := none
        participants := ∅ }
    created_at := "t".data
    updated_at := "t".data }

/-- A boolean test for unsplit containment: some suffix of `b` starts with
`a`. -/
def segB (a b : List Char) : Bool :=
  (List.range (b.length + 1)).any (fun i => a.isPrefixOf (b.drop i))

/-- One shrinking step relation for a marker character `c`: the second text
is the first with each maximal run of `c` replaced by a (still nonempty) run
of no greater length, all other characters kept verbatim.  Every collapsing
rule of `fix_discord_formatting` produces a text related to its input this
way. -/
inductive Shrinks (c : Char) : List Char → List Char → Prop where
  | nil : Shrinks c [] []
  | copy {d : Char} {x y : List Char} : d ≠ c → Shrinks c x y →
      Shrinks c (d :: x) (d :: y)
  | run {j k : Nat} {x y : List Char} : 1 ≤ k → k ≤ j →
      (x = [] ∨ ∃ d t, x = d :: t ∧ d ≠ c) → Shrinks c x y →
      Shrinks c (List.replicate j c ++ x) (List.replicate k c ++ y)

/-- The firing scan of a collapsing rule: walk the text exactly as
`collapseRuns` does and report `false` precisely when a replacement would
fire (an opening run of at least `m` markers, a nonempty marker-free gap,
and a closing run of at least `m` markers). -/
def noSiteScan (c : Char) (m : Nat) (s : List Char) : Bool :=
  match s with
  | [] => true
  | d :: t =>
      let r1 := countRun c (d :: t)
      if r1 = 0 then
        let g := (d :: t).takeWhile (fun x => x != c)
        noSiteScan c m (t.drop (g.length - 1))
      else if r1 < m then
        noSiteScan c m (t.drop (r1 - 1))
      else
        let afterRun := (d :: t).drop r1
        let g := afterRun.takeWhile (fun x => x != c)
        if g.length = 0 then true
        else
          let r2 := countRun c (afterRun.drop g.length)
          if m ≤ r2 then false
          else noSiteScan c m (t.drop (r1 + g.length - 1))
termination_by s.length
decreasing_by
  all_goals simp only [List.length_drop, List.length_cons]
  all_goals omega

/-- The heading-rule scan: `true` when the anchored heading pattern of
`fixHeadings` matches at no line start of the text. -/
def noHeadingSite (s : List Char) : Bool :=
  match s with
  | [] => true
  | d :: t =>
      match matchHeading4 (d :: t) with
      | some _ => false
      | none =>
          let ln := (d :: t).takeWhile (fun x => x != '\n')
          match (d :: t).drop ln.length with
          | [] => true
          | _ :: _ => noHeadingSite (t.drop ln.length)
termination_by s.length
decreasing_by
  simp only [List.length_drop, List.length_cons]
  omega

/-- The spacing-rule scan: `true` when `fixHashLine` fixes no line of the
text. -/
def noSpacingSite (s : List Char) : Bool :=
  match s with
  | [] => true
  | d :: t =>
      let ln := (d :: t).takeWhile (fun x => x != '\n')
      (fixHashLine ln == ln) &&
        (match (d :: t).drop ln.length with
         | [] => true
         | _ :: _ => noSpacingSite (t.drop ln.length))
termination_by s.length
decreasing_by
  simp only [List.length_drop, List.length_cons]
  omega

/-- claim C10: the keyword classifier only ever returns one of the seven
non-critical categories; in particular no analysis record logged by
`log_error` carries category `critical`. -/
theorem c10_classifier_never_critical (msg errType : List Char) (criticalOperation : Bool) :
    determine_error_category msg ≠ ErrorCategory.critical ∧
    determine_error_category msg ∈
      [ErrorCategory.api, ErrorCategory.network, ErrorCategory.database,
       ErrorCategory.permission, ErrorCategory.validation, ErrorCategory.rate_limit,
       ErrorCategory.unknown] ∧
    (analyze_error errType msg criticalOperation).category ≠ ErrorCategory.critical := by
  have h : determine_error_category msg ≠ ErrorCategory.critical ∧
      determine_error_category msg ∈
        [ErrorCategory.api, ErrorCategory.network, ErrorCategory.database,
         ErrorCategory.permission, ErrorCategory.validation, ErrorCategory.rate_limit,
         ErrorCategory.unknown] := by
    simp only [determine_error_category]
    split_ifs <;> simp
  exact ⟨h.1, h.2, by simpa [analyze_error] using h.1⟩

/-- claim C9: serializing then deserializing a conversation restores every
field, and the participants set is recovered from any enumeration order of
the stored list. -/
theorem c9_serialization_roundtrip (c : Conversation) :
    deserialize_conversation (serialize_conversation c) = c ∧
    ∀ l : List (List Char), l.Perm (serialize_conversation c).participants →
      deserialize_conversation { serialize_conversation c with participants := l } = c := by
  obtain ⟨msgs, ctx, ⟨st, tp, sn, ps⟩, ca, ua⟩ := c
  constructor
  · simp [serialize_conversation, deserialize_conversation, Finset.sort_toFinset]
  · intro l hl
    have hf : l.toFinset = ps := by
      rw [List.toFinset_eq_of_perm _ _ hl]
      simp [serialize_conversation, Finset.sort_toFinset (· ≤ ·) ps]
    simp [serialize_conversation, deserialize_conversation, hf]

/-- Witness for C9 at a concrete conversation, deserializing the reversed
participants list. -/
theorem c9_serialization_roundtrip_witness :
    deserialize_conversation (serialize_conversation sampleConversation) = sampleConversation ∧
    deserialize_conversation
      { serialize_conversation sampleConversation with
          participants := (serialize_conversation sampleConversation).participants.reverse } =
      sampleConversation :=
  ⟨(c9_serialization_roundtrip sampleConversation).1,
   (c9_serialization_roundtrip sampleConversation).2 _ (List.reverse_perm _)⟩

/-- claim C4 (code bug): one successful request appends three messages, not
two.  `Chat.ask` stores the user turn via `add_message`, and
`generate_response` then unconditionally appends the same user turn again
before the assistant reply. -/
theorem c4_duplicate_user_turn (stored : Option Conversation)
    (uid cid prompt sys reply now : List Char) :
    (chat_ask_flow stored uid cid prompt sys (Except.ok reply) now).1.messages =
      (stored.getD (newConversation now)).messages ++
        [{ role := "user".data, content := prompt, timestamp := now,
           metadata := [("user_id".data, uid), ("channel_id".data, cid),
                        ("message_type".data, "text".data)] },
         { role := "user".data, content := prompt, timestamp := now, metadata := [] },
         { role := "assistant".data, content := reply, timestamp := now, metadata := [] }] ∧
    (chat_ask_flow stored uid cid prompt sys (Except.ok reply) now).1.messages.length =
      (stored.getD (newConversation now)).messages.length + 3 := by
  have h : (chat_ask_flow stored uid cid prompt sys (Except.ok reply) now).1.messages =
      (stored.getD (newConversation now)).messages ++
        [{ role := "user".data, content := prompt, timestamp := now,
           metadata := [("user_id".data, uid), ("channel_id".data, cid),
                        ("message_type".data, "text".data)] },
         { role := "user".data, content := prompt, timestamp := now, metadata := [] },
         { role := "assistant".data, content := reply, timestamp := now, metadata := [] }] := by
    simp only [chat_ask_flow, add_message, generate_response, generate_ai_response]
    split_ifs <;> simp
  exact ⟨h, by rw [h]; simp⟩

/-- claim C5 counterexample: when the provider call raises, an
assistant-role message (the fixed apology) is appended and stored, and the
apology is returned as the delivered reply — contradicting "no
assistant-role message is appended or stored". -/
theorem c5_counterexample :
    ((generate_response (newConversation "t".data) "hi".data (Except.error ())
        "t".data).1.messages.map Message.role = ["user".data, "assistant".data]) ∧
    ((generate_response (newConversation "t".data) "hi".data (Except.error ())
        "t".data).1.messages.map Message.content = ["hi".data, apologyText]) ∧
    (generate_response (newConversation "t".data) "hi".data (Except.error ())
        "t".data).2 = some apologyText := by
  refine ⟨?_, ?_, ?_⟩ <;> simp [generate_response, newConversation, generate_ai_response]

/-- claim C5 amended: on provider failure the wrapper returns the fixed
apology string, which is stored as a normal assistant turn after the user
turn and handed back as the delivered reply. -/
theorem c5_amended_provider_failure (conversation : Conversation) (message now : List Char) :
    (generate_response conversation message (Except.error ()) now).1.messages =
      conversation.messages ++
        [{ role := "user".data, content := message, timestamp := now, metadata := [] },
         { role := "assistant".data, content := apologyText, timestamp := now, metadata := [] }] ∧
    (generate_response conversation message (Except.error ()) now).2 = some apologyText := by
  constructor <;> simp [generate_response, generate_ai_response]

/-- claim C6 counterexample: with the default `max_history = 10` and seven
stored messages the provider prompt holds the system entry plus only five
messages (the hardcoded `[-5:]` slice), not the most recent
`max_history`-many. -/
theorem c6_counterexample :
    sevenMessageConversation.metadata.settings.max_history = 10 ∧
    sevenMessageConversation.messages.length = 7 ∧
    (build_provider_request sevenMessageConversation).messages.length = 6 ∧
    (build_provider_request sevenMessageConversation).messages.length ≠
      1 + min sevenMessageConversation.metadata.settings.max_history
            sevenMessageConversation.messages.length := by
  refine ⟨rfl, by simp [sevenMessageConversation], ?_, ?_⟩
  · simp [build_provider_request, sevenMessageConversation, default_settings]
  · simp [build_provider_request, sevenMessageConversation, default_settings]

/-- claim C6 amended: the prompt is the (non-empty) system prompt followed by
exactly the last `min 5 n` stored messages — the constant 5 is hardcoded and
the `max_history` setting is not consulted — and the call passes the
configured temperature and max-token budget. -/
theorem c6_amended_prompt_window (conversation : Conversation)
    (h : conversation.metadata.settings.system_prompt ≠ []) :
    (build_provider_request conversation).messages =
      { role := "system".data, content := conversation.metadata.settings.system_prompt } ::
        ((conversation.messages.drop (conversation.messages.length - 5)).map
          (fun m => { role := m.role, content := m.content })) ∧
    (conversation.messages.drop (conversation.messages.length - 5)).length =
      min 5 conversation.messages.length ∧
    (build_provider_request conversation).temperature =
      conversation.metadata.settings.temperature ∧
    (build_provider_request conversation).max_tokens =
      conversation.metadata.settings.max_tokens := by
  refine ⟨?_, ?_, rfl, rfl⟩
  · simp [build_provider_request, h]
  · rw [List.length_drop]
    omega

/-- Witness for the amended C6 at the seven-message conversation: the prompt
window is the system entry plus five messages. -/
theorem c6_amended_witness :
    (build_provider_request sevenMessageConversation).messages.length = 6 := by
  have h := c6_amended_prompt_window sevenMessageConversation (by decide)
  rw [h.1]
  simp [sevenMessageConversation]

/-- `dropWhile` keeps a list whose head already fails the predicate; in
particular a list of characters none of which is whitespace. -/
theorem dropWhile_all_neg {p : Char → Bool} {l : List Char}
    (h : ∀ x ∈ l, p x = false) : l.dropWhile p = l := by
  cases l with
  | nil => rfl
  | cons d t =>
      rw [List.dropWhile_cons_of_neg]
      simp [h d (by simp)]

/-- Stripping a list of non-whitespace characters is the identity. -/
theorem pyStrip_of_nonspace {s : List Char} (h : ∀ x ∈ s, isPySpace x = false) :
    pyStrip s = s := by
  unfold pyStrip
  rw [dropWhile_all_neg h, dropWhile_all_neg (by simpa using fun x hx => h x hx),
    List.reverse_reverse]

/-- A strip result is empty exactly when every character is whitespace. -/
theorem pyStrip_eq_nil_iff {s : List Char} :
    pyStrip s = [] ↔ ∀ c ∈ s, isPySpace c = true := by
  unfold pyStrip
  constructor
  · intro h c hc
    rw [List.reverse_eq_nil_iff, List.dropWhile_eq_nil_iff] at h
    have hsplit : s.takeWhile isPySpace ++ s.dropWhile isPySpace = s :=
      List.takeWhile_append_dropWhile isPySpace s
    rw [← hsplit] at hc
    rcases List.mem_append.mp hc with h1 | h1
    · exact List.mem_takeWhile_imp h1
    · exact h c (List.mem_reverse.mpr h1)
  · intro h
    have h1 : s.dropWhile isPySpace = [] :=
      List.dropWhile_eq_nil_iff.mpr (fun x hx => h x hx)
    simp [h1]

/-- A non-empty strip result contains a non-whitespace character. -/
theorem pyStrip_has_nonspace {s : List Char} (h : pyStrip s ≠ []) :
    ∃ x ∈ pyStrip s, isPySpace x = false := by
  unfold pyStrip at *
  have hne : (s.dropWhile isPySpace).reverse.dropWhile isPySpace ≠ [] := by
    simpa using h
  have hlen : 0 < ((s.dropWhile isPySpace).reverse.dropWhile isPySpace).length :=
    List.length_pos.mpr hne
  refine ⟨((s.dropWhile isPySpace).reverse.dropWhile isPySpace).get ⟨0, hlen⟩, ?_, ?_⟩
  · exact List.mem_reverse.mpr (List.get_mem _ _ _)
  · have := List.dropWhile_get_zero_not isPySpace (s.dropWhile isPySpace).reverse hlen
    simpa using this

/-- If some character of `s` is not whitespace then stripping `s` is
non-empty. -/
theorem pyStrip_ne_nil_of_nonspace_mem {s : List Char} {x : Char} (hx : x ∈ s)
    (hns : isPySpace x = false) : pyStrip s ≠ [] := by
  intro h
  have := pyStrip_eq_nil_iff.mp h x hx
  rw [this] at hns
  cases hns

/-- Stripping an already stripped non-empty text stays non-empty. -/
theorem pyStrip_pyStrip_ne_nil {s : List Char} (h : pyStrip s ≠ []) :
    pyStrip (pyStrip s) ≠ [] := by
  obtain ⟨x, hx, hns⟩ := pyStrip_has_nonspace h
  exact pyStrip_ne_nil_of_nonspace_mem hx hns

/-- The wrapped message still contains a non-whitespace character. -/
theorem wrapMsg_strip_ne_nil {c : List Char} (wrap : Bool) (h : pyStrip c ≠ []) :
    pyStrip (wrapMsg wrap c) ≠ [] := by
  unfold wrapMsg
  split
  · have hmem : '`' ∈ "```markdown\n".data ++ c ++ "\n```".data :=
      List.mem_append_left _ (List.mem_append_left _ (by decide))
    exact pyStrip_ne_nil_of_nonspace_mem hmem (by decide)
  · exact h

/-- The capped message fits the hard limit. -/
theorem capMsg_length_le (m : List Char) : (capMsg m).length ≤ 2000 := by
  unfold capMsg
  split
  · rw [List.length_append, List.length_take]
    have h3 : ("...".data : List Char).length = 3 := by decide
    omega
  · omega

/-- The capped message still contains a non-whitespace character. -/
theorem capMsg_strip_ne_nil {m : List Char} (h : pyStrip m ≠ []) :
    pyStrip (capMsg m) ≠ [] := by
  unfold capMsg
  split
  · have hmem : '.' ∈ m.take 1997 ++ "...".data :=
      List.mem_append_right _ (by decide)
    exact pyStrip_ne_nil_of_nonspace_mem hmem (by decide)
  · exact h

/-- Every message the send loop produces strips to something non-empty and
fits the 2000-character hard limit. -/
theorem sendLoop_messages_sound (chunks : List (List Char)) (wrap : Bool) :
    ∀ m ∈ sendLoop chunks wrap, pyStrip m ≠ [] ∧ m.length ≤ 2000 := by
  induction chunks with
  | nil => intro m hm; simp [sendLoop] at hm
  | cons chunk rest ih =>
      intro m hm
      simp only [sendLoop] at hm
      by_cases h1 : (pyStrip chunk).isEmpty = true
      · rw [if_pos h1] at hm
        exact ih m hm
      · rw [if_neg h1] at hm
        rcases List.mem_cons.mp hm with rfl | hmem
        · have hne : pyStrip chunk ≠ [] := by
            intro hnil
            rw [hnil] at h1
            exact h1 rfl
          exact ⟨capMsg_strip_ne_nil (wrapMsg_strip_ne_nil wrap (pyStrip_pyStrip_ne_nil hne)),
                 capMsg_length_le _⟩
        · exact ih m hmem

/-- claim C1: every message `send_discord_safe` hands to the platform sink is
non-empty after stripping and at most 2000 characters long, and a
whitespace-only input produces no message at all. -/
theorem c1_sent_messages_bounded (full_text : List Char) (wrap_in_markdown : Bool) :
    (∀ m ∈ send_discord_safe full_text wrap_in_markdown,
        pyStrip m ≠ [] ∧ m.length ≤ 2000) ∧
    ((pyStrip full_text).length = 0 →
        send_discord_safe full_text wrap_in_markdown = []) := by
  constructor
  · intro m hm
    unfold send_discord_safe at hm
    split at hm
    · simp at hm
    · exact sendLoop_messages_sound _ _ m hm
  · intro h
    simp [send_discord_safe, h]

/-- A leading run is empty when the head differs from the run character. -/
theorem countRun_eq_zero_of_head {c d : Char} {t : List Char} (h : d ≠ c) :
    countRun c (d :: t) = 0 := by
  simp [countRun, h]

/-- A collapsing rule leaves a text without its marker character unchanged. -/
theorem collapseRuns_of_not_mem {c : Char} {minRun repLen : Nat} {s : List Char}
    (h : c ∉ s) : collapseRuns c minRun repLen s = s := by
  cases s with
  | nil => rw [collapseRuns]
  | cons d t =>
      have hd : d ≠ c := fun he => h (he ▸ List.mem_cons_self d t)
      have h0 : countRun c (d :: t) = 0 := countRun_eq_zero_of_head hd
      have htw : (d :: t).takeWhile (fun x => x != c) = d :: t := by
        rw [List.takeWhile_eq_self_iff]
        intro x hx
        simp only [bne_iff_ne, ne_eq]
        exact fun he => h (he ▸ hx)
      rw [collapseRuns]
      simp [h0, htw, List.drop_length, collapseRuns]

/-- The heading match fails on a text without a hash. -/
theorem matchHeading4_eq_none_of_no_hash {s : List Char} (h : '#' ∉ s) :
    matchHeading4 s = none := by
  unfold matchHeading4
  have h0 : countRun '#' s = 0 := by
    cases s with
    | nil => rfl
    | cons d t => exact countRun_eq_zero_of_head (fun he => h (he ▸ List.mem_cons_self d t))
  simp [h0]

/-- The heading rule leaves a single hash-free line unchanged. -/
theorem fixHeadings_of_plain {s : List Char} (h1 : '#' ∉ s) (h2 : '\n' ∉ s) :
    fixHeadings s = s := by
  cases s with
  | nil => rw [fixHeadings]
  | cons d t =>
      have htw : (d :: t).takeWhile (fun x => x != '\n') = d :: t := by
        rw [List.takeWhile_eq_self_iff]
        intro x hx
        simp only [bne_iff_ne, ne_eq]
        exact fun he => h2 (he ▸ hx)
      rw [fixHeadings, matchHeading4_eq_none_of_no_hash h1]
      simp [htw, List.drop_length]

/-- The hash-spacing rule leaves a hash-free line unchanged. -/
theorem fixHashLine_of_no_hash {ln : List Char} (h : '#' ∉ ln) : fixHashLine ln = ln := by
  unfold fixHashLine
  have h0 : countRun '#' ln = 0 := by
    cases ln with
    | nil => rfl
    | cons d t => exact countRun_eq_zero_of_head (fun he => h (he ▸ List.mem_cons_self d t))
  simp [h0]

/-- The hash-spacing pass leaves a single hash-free line unchanged. -/
theorem fixHashSpacing_of_plain {s : List Char} (h1 : '#' ∉ s) (h2 : '\n' ∉ s) :
    fixHashSpacing s = s := by
  cases s with
  | nil => rw [fixHashSpacing]
  | cons d t =>
      have htw : (d :: t).takeWhile (fun x => x != '\n') = d :: t := by
        rw [List.takeWhile_eq_self_iff]
        intro x hx
        simp only [bne_iff_ne, ne_eq]
        exact fun he => h2 (he ▸ hx)
      rw [fixHashSpacing]
      simp [htw, List.drop_length, fixHashLine_of_no_hash h1]

/-- Markdown repair leaves a text without markers or newlines unchanged. -/
theorem fix_discord_formatting_of_plain {s : List Char} (h1 : '#' ∉ s) (h2 : '*' ∉ s)
    (h3 : '_' ∉ s) (h4 : '~' ∉ s) (h5 : '\n' ∉ s) :
    fix_discord_formatting s = s := by
  unfold fix_discord_formatting
  rw [fixHeadings_of_plain h1 h5, fixHashSpacing_of_plain h1 h5,
    collapseRuns_of_not_mem h2, collapseRuns_of_not_mem h3, collapseRuns_of_not_mem h4]

/-- The fence match fails on a text without a backtick. -/
theorem matchFenceAt_eq_none_of_no_backtick {s : List Char} (h : '`' ∉ s) :
    matchFenceAt s = none := by
  unfold matchFenceAt
  have hdata : ("```".data : List Char) = ['`', '`', '`'] := rfl
  have hpre : ("```".data).isPrefixOf s = false := by
    rw [hdata]
    cases s with
    | nil => rfl
    | cons d t =>
        have hd : d ≠ '`' := fun he => h (he ▸ List.mem_cons_self d t)
        simp [List.isPrefixOf, Ne.symm hd]
  simp [hpre]

/-- Extraction is the identity on a text without backticks. -/
theorem extractBlocks_of_no_backtick {s : List Char} (k : Nat) (h : '`' ∉ s) :
    extractBlocks s k = (s, []) := by
  induction s generalizing k with
  | nil => rw [extractBlocks]
  | cons d t ih =>
      rw [extractBlocks]
      simp [matchFenceAt_eq_none_of_no_backtick h,
        ih k (fun hm => h (List.mem_cons_of_mem _ hm))]

/-- No ranges are found in a text without backticks. -/
theorem findRangesFrom_of_no_backtick {s : List Char} (pos : Nat) (h : '`' ∉ s) :
    findRangesFrom s pos = [] := by
  induction s generalizing pos with
  | nil => rw [findRangesFrom]
  | cons d t ih =>
      rw [findRangesFrom]
      simp [matchFenceAt_eq_none_of_no_backtick h,
        ih (pos + 1) (fun hm => h (List.mem_cons_of_mem _ hm))]

/-- With no code-block ranges the chunk builder just flushes the whole
text as one chunk. -/
theorem buildChunks_nil_ranges (s : List Char) : buildChunks s [] = flushChunk [] s := by
  unfold buildChunks
  simp only [List.foldl_nil, List.drop_zero]
  unfold appendOrFlush
  split
  · simp [flushChunk, pyStrip]
  · simp

/-- On a non-empty text made of plain non-whitespace characters (no hashes,
markers, backticks) the whole pipeline delivers the text as a single capped
message. -/
theorem send_discord_safe_plain {s : List Char}
    (hns : ∀ x ∈ s, isPySpace x = false) (hne : s ≠ [])
    (h1 : '#' ∉ s) (h2 : '*' ∉ s) (h3 : '_' ∉ s) (h4 : '~' ∉ s) (h5 : '`' ∉ s) :
    send_discord_safe s false = [capMsg s] := by
  have h6 : '\n' ∉ s := fun hm => by
    have := hns '\n' hm
    cases this
  have hstrip : pyStrip s = s := pyStrip_of_nonspace hns
  unfold send_discord_safe
  rw [if_neg (by simp [hstrip, hne])]
  simp only [extractBlocks_of_no_backtick 0 h5,
    fix_discord_formatting_of_plain h1 h2 h3 h4 h6]
  rw [restoreBlocks]
  unfold findCodeBlockRanges
  rw [findRangesFrom_of_no_backtick 0 h5, buildChunks_nil_ranges]
  unfold flushChunk
  rw [if_neg (by simp [hstrip, hne])]
  rw [hstrip]
  simp [sendLoop, hstrip, hne, wrapMsg]

/-- Witness for C1: at the concrete input "hi" with wrap disabled the sink
receives exactly the message "hi", non-empty after stripping and within the
limit. -/
theorem c1_sent_messages_bounded_witness :
    pyStrip "hi".data ≠ [] ∧ ("hi".data : List Char).length ≤ 2000 := by
  have heq : send_discord_safe "hi".data false = [capMsg "hi".data] :=
    send_discord_safe_plain (by decide) (by decide) (by decide) (by decide) (by decide)
      (by decide) (by decide)
  have hcap : capMsg "hi".data = "hi".data := by decide
  exact (c1_sent_messages_bounded "hi".data false).1 "hi".data
    (by rw [heq, hcap]; exact List.mem_singleton.mpr rfl)

/-- A 5000-character plain reply with no code blocks is emitted as a single
message: the first 1997 characters followed by the ellipsis marker. -/
theorem send_replicate5000 :
    send_discord_safe (List.replicate 5000 'a') false =
      [List.replicate 1997 'a' ++ "...".data] := by
  have hmem : ∀ x ∈ List.replicate 5000 'a', x = 'a' :=
    fun x hx => List.eq_of_mem_replicate hx
  have heq : send_discord_safe (List.replicate 5000 'a') false =
      [capMsg (List.replicate 5000 'a')] :=
    send_discord_safe_plain
      (fun x hx => by rw [hmem x hx]; decide)
      (List.length_pos.mp (by rw [List.length_replicate]; omega))
      (fun hx => absurd (hmem _ hx) (by decide))
      (fun hx => absurd (hmem _ hx) (by decide))
      (fun hx => absurd (hmem _ hx) (by decide))
      (fun hx => absurd (hmem _ hx) (by decide))
      (fun hx => absurd (hmem _ hx) (by decide))
  have hcap : capMsg (List.replicate 5000 'a') = List.replicate 1997 'a' ++ "...".data := by
    unfold capMsg
    rw [if_pos (by rw [List.length_replicate]; omega), List.take_replicate]
    norm_num
  rw [heq, hcap]

/-- claim C3 counterexample: a 5000-character plain-text reply with no code
blocks and no markers is NOT split into three chunks of at most 1800
characters; the pipeline emits exactly one message, hard-truncated to 1997
characters plus "...", losing content. -/
theorem c3_counterexample :
    send_discord_safe (List.replicate 5000 'a') false =
      [List.replicate 1997 'a' ++ "...".data] ∧
    (send_discord_safe (List.replicate 5000 'a') false).length ≠ 3 := by
  refine ⟨send_replicate5000, ?_⟩
  rw [send_replicate5000]
  simp only [List.length_singleton]
  omega

/-- claim C3 amended: the chunker never splits non-code text, so an
over-long plain reply is delivered as exactly one hard-truncated
2000-character message ending in "...", and concatenation does not
reproduce the original content. -/
theorem c3_amended_truncation :
    send_discord_safe (List.replicate 5000 'a') false =
      [List.replicate 1997 'a' ++ "...".data] ∧
    (List.replicate 1997 'a' ++ "...".data : List Char).length = 2000 ∧
    List.replicate 1997 'a' ++ "...".data ≠ List.replicate 5000 'a' := by
  refine ⟨send_replicate5000, ?_, ?_⟩
  · rw [List.length_append, List.length_replicate]
    rfl
  · intro h
    have := congrArg List.length h
    rw [List.length_append, List.length_replicate, List.length_replicate] at this
    simp at this

/-- Splitting a newline-free text gives the single line itself. -/
theorem splitNL_no_newline {s : List Char} (h : '\n' ∉ s) : splitNL s = [s] := by
  induction s with
  | nil => rfl
  | cons d t ih =>
      have hd : (d == '\n') = false := by
        simp only [beq_eq_false_iff_ne, ne_eq]
        exact fun he => h (he ▸ List.mem_cons_self d t)
      rw [splitNL]
      rw [ih (fun hm => h (List.mem_cons_of_mem _ hm))]
      simp [hd]

/-- A code block whose stripped content is one newline-free line too long
for the content budget is re-fenced as a single over-long sub-block. -/
theorem split_code_block_single_long_line (code_block language ln : List Char)
    (hcontent : pyStrip ((code_block.drop (3 + language.length)).take
        ((code_block.drop (3 + language.length)).length - 3)) = ln)
    (hnl : '\n' ∉ ln) (hne : ln ≠ [])
    (hlong : 2000 - (8 + language.length) < ln.length + 1) :
    split_code_block code_block language = [fenceWrap language ln] := by
  simp only [split_code_block]
  rw [hcontent, splitNL_no_newline hnl, List.foldl_cons, List.foldl_nil]
  have hstep : splitStep language (2000 - (8 + language.length)) ([], []) ln = ([], ln) := by
    unfold splitStep
    rw [if_pos (by simpa using hlong)]
    simp
  rw [hstep]
  have hE : ln.isEmpty = false := by
    cases ln with
    | nil => exact absurd rfl hne
    | cons a b => rfl
  simp [hE]

/-- claim C2 counterexample: a code block whose single content line has 2500
characters is returned by `split_code_block` as one re-fenced sub-block of
2508 characters, exceeding the 2000-character budget (the claim says every
emitted sub-block fits the budget). -/
theorem c2_counterexample :
    split_code_block ("```\n".data ++ (List.replicate 2500 'a' ++ "\n```".data)) [] =
      [fenceWrap [] (List.replicate 2500 'a')] ∧
    2000 < (fenceWrap [] (List.replicate 2500 'a')).length := by
  have h3 : ("```".data : List Char).length = 3 := rfl
  have h4 : ("\n```".data : List Char).length = 4 := rfl
  have hrep : List.replicate 2500 'a' = 'a' :: List.replicate 2499 'a' := by
    rw [show (2500 : Nat) = 2499 + 1 from rfl, List.replicate_succ]
  constructor
  · apply split_code_block_single_long_line
    · have hdrop : (("```\n".data ++ (List.replicate 2500 'a' ++ "\n```".data)) : List Char).drop
          (3 + ([] : List Char).length) =
          '\n' :: (List.replicate 2500 'a' ++ "\n```".data) := rfl
      rw [hdrop]
      have hlen : ('\n' :: (List.replicate 2500 'a' ++ "\n```".data) : List Char).length =
          2505 := by
        rw [List.length_cons, List.length_append, List.length_replicate, h4]
      rw [hlen]
      have htake : ('\n' :: (List.replicate 2500 'a' ++ "\n```".data) : List Char).take
          (2505 - 3) = '\n' :: (List.replicate 2500 'a' ++ ['\n']) := by
        show ('\n' :: (List.replicate 2500 'a' ++ "\n```".data) : List Char).take 2502 = _
        rw [show (2502 : Nat) = 2501 + 1 from rfl, List.take_succ_cons,
          List.take_append_eq_append_take,
          List.take_of_length_le (by rw [List.length_replicate]; omega),
          List.length_replicate]
        rfl
      rw [htake]
      unfold pyStrip
      rw [List.dropWhile_cons_of_pos (by decide)]
      rw [hrep, List.cons_append, List.dropWhile_cons_of_neg (by decide), ← List.cons_append,
        ← hrep]
      rw [List.reverse_append]
      show ((['\n'].reverse ++ (List.replicate 2500 'a').reverse).dropWhile isPySpace).reverse = _
      rw [List.reverse_singleton, List.singleton_append,
        List.dropWhile_cons_of_pos (by decide), List.reverse_replicate,
        hrep, List.dropWhile_cons_of_neg (by decide), ← hrep, List.reverse_replicate]
    · exact fun hm => by cases List.eq_of_mem_replicate hm
    · rw [hrep]
      exact List.cons_ne_nil _ _
    · rw [List.length_replicate, List.length_nil]
      omega
  · unfold fenceWrap
    simp only [List.length_append, List.length_cons, List.length_replicate, List.length_nil,
      h3, h4]
    omega

/-- Length of a re-fenced sub-block. -/
theorem fenceWrap_length (language content : List Char) :
    (fenceWrap language content).length = content.length + language.length + 8 := by
  unfold fenceWrap
  have h3 : ("```".data : List Char).length = 3 := rfl
  have h4 : ("\n```".data : List Char).length = 4 := rfl
  simp only [List.length_append, List.length_cons, h3, h4]
  omega

/-- Invariant of the line-accumulation fold of `split_code_block`: when every
line fits the content budget, every flushed sub-block is a re-fenced block
whose content fits the budget, and the pending content also fits. -/
theorem splitStep_foldl_invariant (language : List Char) (maxC : Nat)
    (lines : List (List Char)) (hlines : ∀ ln ∈ lines, ln.length + 1 ≤ maxC) :
    ∀ acc : List (List Char) × List Char,
      (∀ ch ∈ acc.1, ∃ content, ch = fenceWrap language content ∧ content.length ≤ maxC) →
      acc.2.length ≤ maxC →
      (∀ ch ∈ (lines.foldl (splitStep language maxC) acc).1,
          ∃ content, ch = fenceWrap language content ∧ content.length ≤ maxC) ∧
      (lines.foldl (splitStep language maxC) acc).2.length ≤ maxC := by
  induction lines with
  | nil => exact fun acc h1 h2 => ⟨h1, h2⟩
  | cons ln rest ih =>
      intro acc h1 h2
      rw [List.foldl_cons]
      have hln : ln.length + 1 ≤ maxC := hlines ln (List.mem_cons_self _ _)
      apply ih (fun l hl => hlines l (List.mem_cons_of_mem _ hl))
      · unfold splitStep
        split
        · split
          · exact h1
          · intro ch hch
            rcases List.mem_append.mp hch with hch | hch
            · exact h1 ch hch
            · rw [List.mem_singleton.mp hch]
              exact ⟨acc.2, rfl, h2⟩
        · exact h1
      · unfold splitStep
        split
        · simp only
          omega
        · rename_i hcond
          split
          · simp only
            omega
          · simp only [List.length_append, List.length_cons]
            omega

/-- Oversized-split soundness: when every content line fits the budget,
every sub-block emitted by `split_code_block` is a block re-fenced with the
original language tag whose total length is at most 2000. -/
theorem split_code_block_sound (code_block language : List Char)
    (hlang : language.length ≤ 1992)
    (hlines : ∀ ln ∈ splitNL (pyStrip ((code_block.drop (3 + language.length)).take
        ((code_block.drop (3 + language.length)).length - 3))),
      ln.length + 1 ≤ 2000 - (8 + language.length)) :
    ∀ sb ∈ split_code_block code_block language,
      (∃ content, sb = fenceWrap language content) ∧ sb.length ≤ 2000 := by
  intro sb hsb
  simp only [split_code_block] at hsb
  have hinv := splitStep_foldl_invariant language (2000 - (8 + language.length)) _ hlines
    ([], []) (by simp) (by simp)
  have hsb2 : (∃ content, sb = fenceWrap language content ∧
      content.length ≤ 2000 - (8 + language.length)) := by
    split at hsb
    · exact hinv.1 sb hsb
    · rcases List.mem_append.mp hsb with hch | hch
      · exact hinv.1 sb hch
      · exact ⟨_, List.mem_singleton.mp hch, hinv.2⟩
  obtain ⟨content, hc, hcl⟩ := hsb2
  refine ⟨⟨content, hc⟩, ?_⟩
  rw [hc, fenceWrap_length]
  omega

/-- Appending on the right preserves unsplit containment. -/
theorem isSegmentOf_append_right {a b : List Char} (c : List Char) (h : isSegmentOf a b) :
    isSegmentOf a (b ++ c) := by
  obtain ⟨u, v, rfl⟩ := h
  exact ⟨u, v ++ c, by simp⟩

/-- Appending on the left preserves unsplit containment. -/
theorem isSegmentOf_append_left {a b : List Char} (c : List Char) (h : isSegmentOf a b) :
    isSegmentOf a (c ++ b) := by
  obtain ⟨u, v, rfl⟩ := h
  exact ⟨c ++ u, v, by simp⟩

/-- Every list contains itself unsplit. -/
theorem isSegmentOf_refl (a : List Char) : isSegmentOf a a := ⟨[], [], by simp⟩

/-- Unsplit containment transfers to the reversed lists. -/
theorem isSegmentOf_reverse {a b : List Char} (h : isSegmentOf a b) :
    isSegmentOf a.reverse b.reverse := by
  obtain ⟨u, v, rfl⟩ := h
  exact ⟨v.reverse, u.reverse, by simp⟩

/-- The first character of an unsplit occurrence belongs to the text. -/
theorem isSegmentOf_mem {a b : List Char} {x : Char} (hx : x ∈ a) (h : isSegmentOf a b) :
    x ∈ b := by
  obtain ⟨u, v, rfl⟩ := h
  exact List.mem_append_left _ (List.mem_append_right _ hx)

/-- `dropWhile` preserves a segment whose first character fails the
predicate. -/
theorem isSegmentOf_dropWhile {p : Char → Bool} {a b : List Char} {h0 : Char} {t0 : List Char}
    (ha : a = h0 :: t0) (hh : p h0 = false) (h : isSegmentOf a b) :
    isSegmentOf a (b.dropWhile p) := by
  obtain ⟨u, v, rfl⟩ := h
  have hb : (u ++ a ++ v) = u ++ (a ++ v) := by simp
  rw [hb, List.dropWhile_append]
  split
  · rw [ha, List.cons_append, List.dropWhile_cons_of_neg (by simp [hh]), ← List.cons_append,
      ← ha]
    exact ⟨[], v, by simp⟩
  · exact ⟨u.dropWhile p, v, by simp⟩

/-- Stripping preserves a segment whose endpoints are not whitespace. -/
theorem isSegmentOf_pyStrip {a b : List Char} {h0 l0 : Char} {t0 : List Char}
    (ha : a = h0 :: t0) (hh : isPySpace h0 = false)
    (hl : a.getLast? = some l0) (hls : isPySpace l0 = false)
    (h : isSegmentOf a b) : isSegmentOf a (pyStrip b) := by
  unfold pyStrip
  have s1 : isSegmentOf a (b.dropWhile isPySpace) := isSegmentOf_dropWhile ha hh h
  have s2 : isSegmentOf a.reverse (b.dropWhile isPySpace).reverse := isSegmentOf_reverse s1
  have har : ∃ tr, a.reverse = l0 :: tr := by
    have hhead : a.reverse.head? = some l0 := by rw [List.head?_reverse]; exact hl
    cases hr : a.reverse with
    | nil => rw [hr] at hhead; cases hhead
    | cons x tr =>
        rw [hr] at hhead
        simp only [List.head?_cons, Option.some.injEq] at hhead
        exact ⟨tr, by rw [hhead]⟩
  obtain ⟨tr, htr⟩ := har
  have s3 : isSegmentOf a.reverse ((b.dropWhile isPySpace).reverse.dropWhile isPySpace) :=
    isSegmentOf_dropWhile htr hls s2
  have s4 := isSegmentOf_reverse s3
  rw [List.reverse_reverse] at s4
  exact s4

/-- Flushing keeps every already-flushed chunk. -/
theorem flushChunk_subset {chunks : List (List Char)} {cc : List Char} :
    ∀ ch ∈ chunks, ch ∈ flushChunk chunks cc := by
  intro ch hch
  unfold flushChunk
  split
  · exact hch
  · exact List.mem_append_left _ hch

/-- Flushing a chunk with non-whitespace content records its strip. -/
theorem flushChunk_mem_strip {chunks : List (List Char)} {cc : List Char}
    (hne : pyStrip cc ≠ []) : pyStrip cc ∈ flushChunk chunks cc := by
  unfold flushChunk
  have hE : (pyStrip cc).isEmpty = false := by
    cases hcc : pyStrip cc with
    | nil => exact absurd hcc hne
    | cons a b => rfl
  simp [hE]

/-- `appendOrFlush` preserves unsplit containment of a block with
non-whitespace endpoints: the block stays in the running chunk or moves,
stripped around but not inside, into the flushed chunk list. -/
theorem appendOrFlush_preserves {h0 l0 : Char} {t0 blk : List Char}
    (ha : blk = h0 :: t0) (hh : isPySpace h0 = false)
    (hl : blk.getLast? = some l0) (hls : isPySpace l0 = false)
    (st : List (List Char) × List Char) (x : List Char)
    (hP : isSegmentOf blk st.2 ∨ ∃ ch ∈ st.1, isSegmentOf blk ch) :
    isSegmentOf blk (appendOrFlush st x).2 ∨
      ∃ ch ∈ (appendOrFlush st x).1, isSegmentOf blk ch := by
  unfold appendOrFlush
  split
  · rcases hP with hP | ⟨ch, hch, hseg⟩
    · right
      have hmem : h0 ∈ st.2 := isSegmentOf_mem (by rw [ha]; exact List.mem_cons_self _ _) hP
      have hne : pyStrip st.2 ≠ [] := pyStrip_ne_nil_of_nonspace_mem hmem hh
      exact ⟨pyStrip st.2, flushChunk_mem_strip hne, isSegmentOf_pyStrip ha hh hl hls hP⟩
    · exact Or.inr ⟨ch, flushChunk_subset ch hch, hseg⟩
  · rcases hP with hP | ⟨ch, hch, hseg⟩
    · exact Or.inl (isSegmentOf_append_right x hP)
    · exact Or.inr ⟨ch, hch, hseg⟩

/-- Folding `appendOrFlush` over any list preserves unsplit containment. -/
theorem appendOrFlush_foldl_preserves {h0 l0 : Char} {t0 blk : List Char}
    (ha : blk = h0 :: t0) (hh : isPySpace h0 = false)
    (hl : blk.getLast? = some l0) (hls : isPySpace l0 = false)
    (xs : List (List Char)) :
    ∀ st : List (List Char) × List Char,
      (isSegmentOf blk st.2 ∨ ∃ ch ∈ st.1, isSegmentOf blk ch) →
      (isSegmentOf blk (xs.foldl appendOrFlush st).2 ∨
        ∃ ch ∈ (xs.foldl appendOrFlush st).1, isSegmentOf blk ch) := by
  induction xs with
  | nil => exact fun st h => h
  | cons x rest ih =>
      intro st hP
      rw [List.foldl_cons]
      exact ih _ (appendOrFlush_preserves ha hh hl hls st x hP)

/-- `processRange` preserves unsplit containment of a block with
non-whitespace endpoints. -/
theorem processRange_preserves {h0 l0 : Char} {t0 blk : List Char}
    (ha : blk = h0 :: t0) (hh : isPySpace h0 = false)
    (hl : blk.getLast? = some l0) (hls : isPySpace l0 = false)
    (fixedText : List Char) (st : List (List Char) × List Char × Nat)
    (r : Nat × Nat × List Char)
    (hP : isSegmentOf blk st.2.1 ∨ ∃ ch ∈ st.1, isSegmentOf blk ch) :
    isSegmentOf blk (processRange fixedText st r).2.1 ∨
      ∃ ch ∈ (processRange fixedText st r).1, isSegmentOf blk ch := by
  simp only [processRange]
  split
  · exact appendOrFlush_foldl_preserves ha hh hl hls _ _
      (appendOrFlush_preserves ha hh hl hls (st.1, st.2.1) _ hP)
  · exact appendOrFlush_preserves ha hh hl hls _ _
      (appendOrFlush_preserves ha hh hl hls (st.1, st.2.1) _ hP)

/-- Folding `processRange` preserves unsplit containment. -/
theorem processRange_foldl_preserves {h0 l0 : Char} {t0 blk : List Char}
    (ha : blk = h0 :: t0) (hh : isPySpace h0 = false)
    (hl : blk.getLast? = some l0) (hls : isPySpace l0 = false)
    (fixedText : List Char) (rs : List (Nat × Nat × List Char)) :
    ∀ st : List (List Char) × List Char × Nat,
      (isSegmentOf blk st.2.1 ∨ ∃ ch ∈ st.1, isSegmentOf blk ch) →
      (isSegmentOf blk (rs.foldl (processRange fixedText) st).2.1 ∨
        ∃ ch ∈ (rs.foldl (processRange fixedText) st).1, isSegmentOf blk ch) := by
  induction rs with
  | nil => exact fun st h => h
  | cons r rest ih =>
      intro st hP
      rw [List.foldl_cons]
      exact ih _ (processRange_preserves ha hh hl hls fixedText st r hP)

/-- Soundness of the leftmost-substring search: a hit decomposes the text. -/
theorem findSubIdx_sound {pat hay : List Char} {i : Nat}
    (h : findSubIdx pat hay = some i) : ∃ u v, hay = u ++ pat ++ v ∧ u.length = i := by
  induction hay generalizing i with
  | nil =>
      rw [findSubIdx] at h
      split at h
      · rename_i hp
        have hpat : pat = [] := by
          cases pat with
          | nil => rfl
          | cons a b => cases hp
        have hi : i = 0 := by cases h; rfl
        subst hi
        exact ⟨[], [], by simp [hpat], rfl⟩
      · cases h
  | cons d t ih =>
      rw [findSubIdx] at h
      split at h
      · rename_i hp
        obtain ⟨v, hv⟩ := List.isPrefixOf_iff_prefix.mp hp
        have hi : i = 0 := by cases h; rfl
        subst hi
        exact ⟨[], v, by rw [← hv]; simp, rfl⟩
      · cases hfind : findSubIdx pat t with
        | none => rw [hfind] at h; cases h
        | some j =>
            rw [hfind] at h
            simp only [Option.map_some'] at h
            obtain ⟨u, v, ht, hu⟩ := ih hfind
            refine ⟨d :: u, v, by rw [ht]; simp, ?_⟩
            rw [List.length_cons, hu]
            exact Option.some_injective _ h

/-- Dropping the matched prefix of `takeWhile` leaves `dropWhile`. -/
theorem drop_length_takeWhile (p : Char → Bool) (l : List Char) :
    l.drop (l.takeWhile p).length = l.dropWhile p := by
  induction l with
  | nil => rfl
  | cons d t ih =>
      by_cases hd : p d
      · rw [List.takeWhile_cons_of_pos hd, List.dropWhile_cons_of_pos hd, List.length_cons,
          List.drop_succ_cons, ih]
      · rw [List.takeWhile_cons_of_neg hd, List.dropWhile_cons_of_neg hd]
        rfl

/-- Soundness of the anchored fence match: the matched span is a fully
fenced block opened with the language tag. -/
theorem matchFenceAt_sound {s lang : List Char} {len : Nat}
    (h : matchFenceAt s = some (lang, len)) :
    7 ≤ len ∧ len ≤ s.length ∧
    ∃ u, s.take len = "```".data ++ lang ++ '\n' :: (u ++ "```".data) := by
  simp only [matchFenceAt] at h
  split at h
  · rename_i hp
    obtain ⟨rest, hrest⟩ := List.isPrefixOf_iff_prefix.mp hp
    have hdrop3 : s.drop 3 = rest := by
      rw [← hrest]
      exact List.drop_left "```".data rest
    split at h
    · rename_i body hbody
      split at h
      · rename_i i hfind
        obtain ⟨hlang, hlen⟩ : lang = (s.drop 3).takeWhile isWordChar ∧
            len = 3 + ((s.drop 3).takeWhile isWordChar).length + 1 + i + 3 := by
          cases h
          exact ⟨rfl, rfl⟩
        obtain ⟨u, v, hbodyeq, hu⟩ := findSubIdx_sound hfind
        have hWdrop : s.drop (3 + ((s.drop 3).takeWhile isWordChar).length) =
            rest.dropWhile isWordChar := by
          rw [← List.drop_drop, hdrop3, drop_length_takeWhile]
        have h2 : rest.dropWhile isWordChar = '\n' :: body := by
          rw [← hWdrop]
          exact hbody
        have hsplit : rest = lang ++ ('\n' :: body) := by
          have h1 : rest.takeWhile isWordChar ++ rest.dropWhile isWordChar = rest :=
            List.takeWhile_append_dropWhile isWordChar rest
          rw [← h1, h2, hlang, hdrop3]
        have hs : s = ("```".data ++ lang ++ '\n' :: (u ++ "```".data)) ++ v := by
          rw [← hrest, hsplit, hbodyeq]
          simp
        have hlenP : ("```".data ++ lang ++ '\n' :: (u ++ "```".data)).length = len := by
          have h3 : ("```".data : List Char).length = 3 := rfl
          simp only [List.length_append, List.length_cons, h3]
          rw [hlen, hlang, hdrop3, hu]
          have h4 : lang.length = (rest.takeWhile isWordChar).length := by
            rw [hlang, hdrop3]
          rw [← hdrop3, ← hlang]
          omega
        refine ⟨by omega, ?_, ⟨u, ?_⟩⟩
        · rw [hs, List.length_append, hlenP]
          omega
        · rw [hs, ← hlenP, List.take_left]
      · cases h
    · cases h
  · cases h

/-- Soundness of the range scan, strengthened for induction on a length
bound: every reported range comes from a fence match at its start offset. -/
theorem findRangesFrom_sound_aux :
    ∀ (n : Nat) (s : List Char), s.length ≤ n → ∀ (pos st en : Nat) (lang : List Char),
      (st, en, lang) ∈ findRangesFrom s pos →
      pos ≤ st ∧ st ≤ en ∧ matchFenceAt (s.drop (st - pos)) = some (lang, en - st) := by
  intro n
  induction n with
  | zero =>
      intro s hs pos st en lang h
      have hnil : s = [] := List.eq_nil_of_length_eq_zero (Nat.le_zero.mp hs)
      rw [hnil, findRangesFrom] at h
      exact absurd h (List.not_mem_nil _)
  | succ n ih =>
      intro s hs pos st en lang h
      cases s with
      | nil =>
          rw [findRangesFrom] at h
          exact absurd h (List.not_mem_nil _)
      | cons d t =>
          rw [findRangesFrom] at h
          split at h
          · rename_i lang0 len0 hm
            have h7 : 7 ≤ len0 := (matchFenceAt_sound hm).1
            rcases List.mem_cons.mp h with he | he
            · injection he with h1 h2
              injection h2 with h2 h3
              subst h1
              subst h2
              subst h3
              refine ⟨Nat.le_refl _, by omega, ?_⟩
              have hd : st - st = 0 := by omega
              rw [hd, List.drop_zero]
              have hl : st + len0 - st = len0 := by omega
              rw [hl]
              exact hm
            · have hlt : (t.drop (len0 - 1)).length ≤ n := by
                rw [List.length_drop]
                have := List.length_cons d t ▸ hs
                omega
              obtain ⟨hp, hse, hmatch⟩ := ih (t.drop (len0 - 1)) hlt (pos + len0) st en lang he
              refine ⟨by omega, hse, ?_⟩
              have heq : (d :: t).drop (st - pos) =
                  (t.drop (len0 - 1)).drop (st - (pos + len0)) := by
                rw [List.drop_drop]
                have h1 : st - pos = ((st - pos) - 1) + 1 := by omega
                rw [h1, List.drop_succ_cons]
                have h2 : len0 - 1 + (st - (pos + len0)) = st - pos - 1 := by omega
                rw [h2]
              rw [heq]
              exact hmatch
          · have hlt : t.length ≤ n := by
              have := List.length_cons d t ▸ hs
              omega
            obtain ⟨hp, hse, hmatch⟩ := ih t hlt (pos + 1) st en lang h
            refine ⟨by omega, hse, ?_⟩
            have heq : (d :: t).drop (st - pos) = t.drop (st - (pos + 1)) := by
              have h1 : st - pos = ((st - pos) - 1) + 1 := by omega
              rw [h1, List.drop_succ_cons]
              have h2 : st - (pos + 1) = st - pos - 1 := by omega
              rw [h2]
            rw [heq]
            exact hmatch

/-- Soundness of `findCodeBlockRanges`: every range is a fence match at its
absolute start position. -/
theorem findCodeBlockRanges_sound {s : List Char} {st en : Nat} {lang : List Char}
    (h : (st, en, lang) ∈ findCodeBlockRanges s) :
    st ≤ en ∧ matchFenceAt (s.drop st) = some (lang, en - st) := by
  obtain ⟨h1, h2, h3⟩ := findRangesFrom_sound_aux s.length s (Nat.le_refl _) 0 st en lang h
  refine ⟨h2, ?_⟩
  have : st - 0 = st := by omega
  rw [this] at h3
  exact h3

/-- The appended text always sits unsplit in the resulting running chunk. -/
theorem appendOrFlush_seg_self (st : List (List Char) × List Char) (x : List Char) :
    isSegmentOf x (appendOrFlush st x).2 := by
  unfold appendOrFlush
  split
  · exact isSegmentOf_refl x
  · exact isSegmentOf_append_left _ (isSegmentOf_refl x)

/-- The final flush keeps an unsplit block reachable in the chunk list. -/
theorem flushChunk_complete {h0 l0 : Char} {t0 blk : List Char}
    (ha : blk = h0 :: t0) (hh : isPySpace h0 = false)
    (hl : blk.getLast? = some l0) (hls : isPySpace l0 = false)
    (chunks : List (List Char)) (cc : List Char)
    (hP : isSegmentOf blk cc ∨ ∃ ch ∈ chunks, isSegmentOf blk ch) :
    ∃ ch ∈ flushChunk chunks cc, isSegmentOf blk ch := by
  rcases hP with hP | ⟨ch, hch, hseg⟩
  · have hmem : h0 ∈ cc := isSegmentOf_mem (by rw [ha]; exact List.mem_cons_self _ _) hP
    have hne : pyStrip cc ≠ [] := pyStrip_ne_nil_of_nonspace_mem hmem hh
    exact ⟨pyStrip cc, flushChunk_mem_strip hne, isSegmentOf_pyStrip ha hh hl hls hP⟩
  · exact ⟨ch, flushChunk_subset ch hch, hseg⟩

/-- Atomicity: a code block whose span fits the 2000-character budget ends up
unsplit inside one chunk produced by the chunk builder. -/
theorem buildChunks_block_atomic (fixedText : List Char) {st en : Nat} {language : List Char}
    (hr : (st, en, language) ∈ findCodeBlockRanges fixedText)
    (hlen : en - st ≤ 2000) :
    ∃ ch ∈ buildChunks fixedText (findCodeBlockRanges fixedText),
      isSegmentOf ((fixedText.drop st).take (en - st)) ch := by
  obtain ⟨hse, hmatch⟩ := findCodeBlockRanges_sound hr
  obtain ⟨h7, hlelen, u, hblk⟩ := matchFenceAt_sound hmatch
  have ha : (fixedText.drop st).take (en - st) =
      '`' :: ('`' :: '`' :: (language ++ '\n' :: (u ++ "```".data))) := by
    rw [hblk]
    rfl
  have hh : isPySpace '`' = false := by decide
  have hl : ((fixedText.drop st).take (en - st)).getLast? = some '`' := by
    rw [hblk]
    have hassoc : ("```".data : List Char) ++ language ++ '\n' :: (u ++ "```".data) =
        ("```".data ++ language ++ '\n' :: u) ++ "```".data := by
      simp
    rw [hassoc, List.getLast?_append_of_ne_nil _ (by decide)]
    rfl
  have hblklen : ((fixedText.drop st).take (en - st)).length = en - st := by
    rw [List.length_take]
    omega
  obtain ⟨l1, l2, hranges⟩ := List.append_of_mem hr
  have hbase : isSegmentOf ((fixedText.drop st).take (en - st))
      (processRange fixedText (l1.foldl (processRange fixedText) ([], [], 0))
        (st, en, language)).2.1 ∨
      ∃ ch ∈ (processRange fixedText (l1.foldl (processRange fixedText) ([], [], 0))
        (st, en, language)).1,
        isSegmentOf ((fixedText.drop st).take (en - st)) ch := by
    simp only [processRange]
    rw [if_neg (by rw [hblklen]; omega)]
    exact Or.inl (appendOrFlush_seg_self _ _)
  have hmid := processRange_foldl_preserves ha hh hl hh fixedText l2 _ hbase
  simp only [buildChunks]
  rw [hranges, List.foldl_append, List.foldl_cons]
  exact flushChunk_complete ha hh hl hh _ _
    (appendOrFlush_preserves ha hh hl hh _ _ hmid)

/-- claim C2 (amended): a code-block range whose span fits the 2000-character
budget is flushed atomically - the block text occurs unsplit inside one of the
assembled chunks; and whenever every content line of a code block fits the
per-sub-block content budget, `split_code_block` emits only validly re-fenced
sub-blocks carrying the original language tag, each of length at most 2000.
(The line-length proviso is necessary: a single over-long content line yields
an over-budget sub-block, see the counterexample.) -/
theorem c2_amended (fixedText : List Char) (st en : Nat) (language : List Char)
    (hr : (st, en, language) ∈ findCodeBlockRanges fixedText)
    (code_block lang2 : List Char) (hlang : lang2.length ≤ 1992)
    (hlines : ∀ ln ∈ splitNL (pyStrip ((code_block.drop (3 + lang2.length)).take
        ((code_block.drop (3 + lang2.length)).length - 3))),
      ln.length + 1 ≤ 2000 - (8 + lang2.length)) :
    (en - st ≤ 2000 →
      ∃ ch ∈ buildChunks fixedText (findCodeBlockRanges fixedText),
        isSegmentOf ((fixedText.drop st).take (en - st)) ch) ∧
    (∀ sb ∈ split_code_block code_block lang2,
      (∃ content, sb = fenceWrap lang2 content) ∧ sb.length ≤ 2000) :=
  ⟨fun hlen => buildChunks_block_atomic fixedText hr hlen,
    split_code_block_sound code_block lang2 hlang hlines⟩

/-- Witness for the amended C2 theorem at the concrete text
containing the single fitting block. -/
theorem c2_amended_witness :
    (10 - 0 ≤ 2000 →
      ∃ ch ∈ buildChunks ("```\nab\n```".data) (findCodeBlockRanges ("```\nab\n```".data)),
        isSegmentOf ((("```\nab\n```".data).drop 0).take (10 - 0)) ch) ∧
    (∀ sb ∈ split_code_block ("```\nab\n```".data) [],
      (∃ content, sb = fenceWrap [] content) ∧ sb.length ≤ 2000) := by
  apply c2_amended ("```\nab\n```".data) 0 10 []
  · have hm : matchFenceAt ("```\nab\n```".data) = some ([], 10) := by decide
    have hranges : findCodeBlockRanges ("```\nab\n```".data) = [(0, 10, [])] := by
      rw [findCodeBlockRanges,
        show ("```\nab\n```".data : List Char) = '`' :: "``\nab\n```".data from rfl,
        findRangesFrom]
      rw [show matchFenceAt ('`' :: "``\nab\n```".data) = some ([], 10) from hm]
      dsimp only
      rw [show ("``\nab\n```".data : List Char).drop (10 - 1) = ([] : List Char) from rfl,
        findRangesFrom]
    rw [hranges]
    exact List.mem_singleton.mpr rfl
  · decide
  · decide

/-- `segB` decides unsplit containment. -/
theorem isSegmentOf_iff_segB (a b : List Char) : isSegmentOf a b ↔ segB a b = true := by
  constructor
  · rintro ⟨u, v, rfl⟩
    rw [segB, List.any_eq_true]
    refine ⟨u.length, List.mem_range.mpr ?_, ?_⟩
    · simp only [List.length_append]
      omega
    · rw [List.append_assoc, List.drop_left]
      exact List.isPrefixOf_iff_prefix.mpr ⟨v, rfl⟩
  · intro h
    rw [segB, List.any_eq_true] at h
    obtain ⟨i, _, hp⟩ := h
    obtain ⟨v, hv⟩ := List.isPrefixOf_iff_prefix.mp hp
    exact ⟨b.take i, v, by rw [List.append_assoc, hv, List.take_append_drop]⟩

/-- The leading marker run really is a prefix of the text. -/
theorem replicate_countRun_append (c : Char) :
    ∀ s : List Char, List.replicate (countRun c s) c ++ s.drop (countRun c s) = s := by
  intro s
  induction s with
  | nil => rfl
  | cons d t ih =>
      by_cases hd : d = c
      · subst hd
        have hc : countRun d (d :: t) = countRun d t + 1 := by simp [countRun]
        rw [hc, List.replicate_succ, List.cons_append, List.drop_succ_cons, ih]
      · rw [countRun_eq_zero_of_head hd]
        rfl

/-- Counting the leading run through an explicit replicate prefix. -/
theorem countRun_replicate_append {c d : Char} (hd : d ≠ c) (t : List Char) :
    ∀ k : Nat, countRun c (List.replicate k c ++ d :: t) = k := by
  intro k
  induction k with
  | zero => simpa using countRun_eq_zero_of_head hd
  | succ k ih =>
      rw [List.replicate_succ, List.cons_append]
      simp [countRun, ih]

/-- Dropping exactly the replicated prefix. -/
theorem drop_replicate_append (c : Char) (r : List Char) (k : Nat) :
    (List.replicate k c ++ r).drop k = r := by
  have h := List.drop_left (List.replicate k c) r
  rwa [List.length_replicate] at h

/-- A collapsing rule is the identity on a text containing no run of
`minRun` consecutive marker characters. -/
theorem collapseRuns_eq_self_of_no_run (c : Char) (minRun repLen : Nat) :
    ∀ (n : Nat) (s : List Char), s.length ≤ n →
      ¬ isSegmentOf (List.replicate minRun c) s →
      collapseRuns c minRun repLen s = s := by
  intro n
  induction n with
  | zero =>
      intro s hs _
      have hnil : s = [] := List.eq_nil_of_length_eq_zero (Nat.le_zero.mp hs)
      rw [hnil, collapseRuns]
  | succ n ih =>
      intro s hs hshort
      cases s with
      | nil => rw [collapseRuns]
      | cons d t =>
          have hpre := replicate_countRun_append c (d :: t)
          have hlt : countRun c (d :: t) < minRun := by
            by_contra hge
            push_neg at hge
            apply hshort
            refine ⟨[], List.replicate (countRun c (d :: t) - minRun) c ++
              (d :: t).drop (countRun c (d :: t)), ?_⟩
            rw [List.nil_append, ← List.append_assoc, ← List.replicate_add,
              show minRun + (countRun c (d :: t) - minRun) = countRun c (d :: t) from by omega,
              hpre]
          rw [collapseRuns]
          dsimp only
          by_cases hr0 : countRun c (d :: t) = 0
          · rw [if_pos hr0]
            have hd : d ≠ c := by
              intro he
              rw [he] at hr0
              simp [countRun] at hr0
            have htw : (d :: t).takeWhile (fun x => x != c) =
                d :: t.takeWhile (fun x => x != c) :=
              List.takeWhile_cons_of_pos (by simp [hd])
            rw [htw, List.length_cons, Nat.add_sub_cancel, drop_length_takeWhile]
            have hrest : t.takeWhile (fun x => x != c) ++ t.dropWhile (fun x => x != c) = t :=
              List.takeWhile_append_dropWhile _ _
            have hlen2 : (t.dropWhile (fun x => x != c)).length ≤ n := by
              have h1 : (t.dropWhile (fun x => x != c)).length ≤ t.length := by
                rw [← drop_length_takeWhile]
                simp [List.length_drop]
              have h2 : t.length + 1 ≤ n + 1 := by simpa using hs
              omega
            have htail : ¬ isSegmentOf (List.replicate minRun c)
                (t.dropWhile (fun x => x != c)) := by
              intro hseg
              apply hshort
              have h2 := isSegmentOf_append_left (d :: t.takeWhile (fun x => x != c)) hseg
              rwa [List.cons_append, hrest] at h2
            rw [ih _ hlen2 htail, List.cons_append, hrest]
          · rw [if_neg hr0, if_pos hlt]
            obtain ⟨m, hm⟩ : ∃ m, countRun c (d :: t) = m + 1 :=
              ⟨countRun c (d :: t) - 1, by omega⟩
            rw [hm] at hpre ⊢
            simp only [List.drop_succ_cons] at hpre
            simp only [Nat.add_sub_cancel]
            have hlen2 : (t.drop m).length ≤ n := by
              simp only [List.length_drop]
              have h2 : t.length + 1 ≤ n + 1 := by simpa using hs
              omega
            have htail : ¬ isSegmentOf (List.replicate minRun c) (t.drop m) := by
              intro hseg
              apply hshort
              have h2 := isSegmentOf_append_left (List.replicate (m + 1) c) hseg
              rwa [hpre] at h2
            rw [ih _ hlen2 htail]
            exact hpre

/-- The boolean form of the run-free identity for a collapsing rule. -/
theorem collapseRuns_eq_self_of_segB {c : Char} {minRun repLen : Nat} {s : List Char}
    (h : segB (List.replicate minRun c) s = false) :
    collapseRuns c minRun repLen s = s := by
  apply collapseRuns_eq_self_of_no_run c minRun repLen s.length s (Nat.le_refl _)
  intro hseg
  rw [(isSegmentOf_iff_segB _ _).mp hseg] at h
  exact Bool.noConfusion h

/-- On a single line the heading rule acts exactly as its anchored match. -/
theorem fixHeadings_single_line {s : List Char} (hnl : '\n' ∉ s)
    (hm : matchHeading4 s = none) : fixHeadings s = s := by
  cases s with
  | nil => rw [fixHeadings]
  | cons d t =>
      have htw : (d :: t).takeWhile (fun x => x != '\n') = d :: t := by
        rw [List.takeWhile_eq_self_iff]
        intro x hx
        simp only [bne_iff_ne, ne_eq]
        exact fun he => hnl (he ▸ hx)
      rw [fixHeadings, hm]
      simp [htw, List.drop_length]

/-- On a single line the spacing rule is exactly `fixHashLine`. -/
theorem fixHashSpacing_single_line {s : List Char} (hnl : '\n' ∉ s) :
    fixHashSpacing s = fixHashLine s := by
  cases s with
  | nil =>
      rw [fixHashSpacing]
      rfl
  | cons d t =>
      have htw : (d :: t).takeWhile (fun x => x != '\n') = d :: t := by
        rw [List.takeWhile_eq_self_iff]
        intro x hx
        simp only [bne_iff_ne, ne_eq]
        exact fun he => hnl (he ▸ hx)
      rw [fixHashSpacing]
      simp [htw, List.drop_length]

/-- The spacing rule ignores a line that does not begin with a hash. -/
theorem fixHashLine_of_head_ne_hash {d : Char} {t : List Char} (hd : d ≠ '#') :
    fixHashLine (d :: t) = d :: t := by
  unfold fixHashLine
  rw [countRun_eq_zero_of_head hd]
  simp

/-- The anchored heading match on a canonical 4-plus-hash heading line. -/
theorem matchHeading4_heading {k : Nat} {h0 : Char} {t0 : List Char}
    (hk : 4 ≤ k) (hh : isPySpace h0 = false) (hnl : '\n' ∉ h0 :: t0) :
    matchHeading4 (List.replicate k '#' ++ ' ' :: h0 :: t0) =
      some (h0 :: t0, k + 1 + (h0 :: t0).length) := by
  have hcr : countRun '#' (List.replicate k '#' ++ ' ' :: h0 :: t0) = k :=
    countRun_replicate_append (by decide) (h0 :: t0) k
  have hdropk : (List.replicate k '#' ++ ' ' :: h0 :: t0).drop k = ' ' :: h0 :: t0 :=
    drop_replicate_append '#' (' ' :: h0 :: t0) k
  have htw0 : (h0 :: t0).takeWhile isPySpace = [] :=
    List.takeWhile_cons_of_neg (by simp [hh])
  have hw : (' ' :: h0 :: t0).takeWhile isPySpace = [' '] := by
    rw [List.takeWhile_cons_of_pos (by decide), htw0]
  have hct : (h0 :: t0).takeWhile (fun x => x != '\n') = h0 :: t0 := by
    rw [List.takeWhile_eq_self_iff]
    intro x hx
    simp only [bne_iff_ne, ne_eq]
    exact fun he => hnl (he ▸ hx)
  simp only [matchHeading4, hcr, hdropk, hw, hct]
  rw [if_neg (show ¬ k < 4 from by omega)]
  simp
  refine ⟨⟨fun he => hnl (he ▸ List.mem_cons_self _ _),
    fun a ha he => hnl (he ▸ List.mem_cons_of_mem _ ha)⟩, ?_⟩
  rw [hct]
  simp

/-- When the anchored heading match consumes the whole text the heading rule
returns just the bold replacement. -/
theorem fixHeadings_of_match_all {d : Char} {t g2 : List Char} {mlen : Nat}
    (hm : matchHeading4 (d :: t) = some (g2, mlen)) (hlen : (d :: t).length ≤ mlen) :
    fixHeadings (d :: t) = "**".data ++ g2 ++ "**".data := by
  rw [fixHeadings, hm]
  dsimp only
  have hdrop : (d :: t).drop mlen = [] := List.drop_eq_nil_of_le hlen
  rw [hdrop]
  simp

/-- The heading rule rewrites a canonical 4-plus-hash heading line to bold. -/
theorem fixHeadings_heading {k : Nat} {h0 : Char} {t0 : List Char}
    (hk : 4 ≤ k) (hh : isPySpace h0 = false) (hnl : '\n' ∉ h0 :: t0) :
    fixHeadings (List.replicate k '#' ++ ' ' :: h0 :: t0) =
      "**".data ++ (h0 :: t0) ++ "**".data := by
  have hm := matchHeading4_heading hk hh hnl
  obtain ⟨j, rfl⟩ : ∃ j, k = j + 1 := ⟨k - 1, by omega⟩
  rw [List.replicate_succ, List.cons_append] at hm ⊢
  apply fixHeadings_of_match_all hm
  simp only [List.length_cons, List.length_append, List.length_replicate]
  omega

/-- claim C8 counterexample: the repair pass leaves both a 1-3-hash heading
with only one character after the hashes ("##H") and a 4-plus-hash heading
with no space after the hashes ("####Title") completely unchanged, because
the spacing pattern needs at least two trailing characters and the bold
pattern requires whitespace after the hash run — contradicting "converts any
heading marker of 4 or more leading hashes" and "inserts a missing space
after a heading marker of 1-3 hashes". -/
theorem c8_counterexample :
    fix_discord_formatting ("##H".data) = "##H".data ∧
    fix_discord_formatting ("####Title".data) = "####Title".data := by
  constructor
  · unfold fix_discord_formatting
    rw [fixHeadings_single_line (by decide) (by decide),
      fixHashSpacing_single_line (by decide),
      show fixHashLine ("##H".data) = "##H".data from by decide,
      collapseRuns_of_not_mem (show '*' ∉ "##H".data from by decide),
      collapseRuns_of_not_mem (show '_' ∉ "##H".data from by decide),
      collapseRuns_of_not_mem (show '~' ∉ "##H".data from by decide)]
  · unfold fix_discord_formatting
    rw [fixHeadings_single_line (by decide) (by decide),
      fixHashSpacing_single_line (by decide),
      show fixHashLine ("####Title".data) = "####Title".data from by decide,
      collapseRuns_of_not_mem (show '*' ∉ "####Title".data from by decide),
      collapseRuns_of_not_mem (show '_' ∉ "####Title".data from by decide),
      collapseRuns_of_not_mem (show '~' ∉ "####Title".data from by decide)]

/-- claim C8 (amended): on a single line free of emphasis-marker runs, a
heading of 4 or more hashes followed by at least one whitespace character and
non-whitespace content becomes bold emphasis, and a heading of 1-3 hashes
directly followed by at least TWO characters, the first neither whitespace
nor a hash, gains the missing space.  (Both provisos are necessary: "##H" and
"####Title" are left unchanged, see the counterexample.) -/
theorem c8_amended :
    (∀ (k : Nat) (h0 : Char) (t0 : List Char),
      4 ≤ k → isPySpace h0 = false → '\n' ∉ h0 :: t0 →
      segB (List.replicate 4 '*') ("**".data ++ (h0 :: t0) ++ "**".data) = false →
      segB (List.replicate 3 '_') ("**".data ++ (h0 :: t0) ++ "**".data) = false →
      segB (List.replicate 3 '~') ("**".data ++ (h0 :: t0) ++ "**".data) = false →
      fix_discord_formatting (List.replicate k '#' ++ ' ' :: h0 :: t0) =
        "**".data ++ (h0 :: t0) ++ "**".data) ∧
    (∀ (k : Nat) (c0 e0 : Char) (r : List Char),
      1 ≤ k → k ≤ 3 → isPySpace c0 = false → c0 ≠ '#' → '\n' ∉ c0 :: e0 :: r →
      segB (List.replicate 4 '*') (List.replicate k '#' ++ ' ' :: c0 :: e0 :: r) = false →
      segB (List.replicate 3 '_') (List.replicate k '#' ++ ' ' :: c0 :: e0 :: r) = false →
      segB (List.replicate 3 '~') (List.replicate k '#' ++ ' ' :: c0 :: e0 :: r) = false →
      fix_discord_formatting (List.replicate k '#' ++ c0 :: e0 :: r) =
        List.replicate k '#' ++ ' ' :: c0 :: e0 :: r) := by
  constructor
  · intro k h0 t0 hk hh hnl hb4 hb3u hb3t
    unfold fix_discord_formatting
    rw [fixHeadings_heading hk hh hnl]
    have hnl2 : '\n' ∉ "**".data ++ (h0 :: t0) ++ "**".data := by
      intro hmem
      rcases List.mem_append.mp hmem with hmem | hmem
      · rcases List.mem_append.mp hmem with hmem | hmem
        · simp at hmem
        · exact hnl hmem
      · simp at hmem
    rw [fixHashSpacing_single_line hnl2]
    have hco : "**".data ++ (h0 :: t0) ++ "**".data =
        '*' :: ('*' :: ((h0 :: t0) ++ "**".data)) := rfl
    rw [hco, fixHashLine_of_head_ne_hash (by decide), ← hco,
      collapseRuns_eq_self_of_segB hb4, collapseRuns_eq_self_of_segB hb3u,
      collapseRuns_eq_self_of_segB hb3t]
  · intro k c0 e0 r hk1 hk3 hc hch hnl hb4 hb3u hb3t
    have hnlk : '\n' ∉ List.replicate k '#' ++ c0 :: e0 :: r := by
      intro hmem
      rcases List.mem_append.mp hmem with hmem | hmem
      · exact absurd (List.eq_of_mem_replicate hmem) (by decide)
      · exact hnl hmem
    have hm : matchHeading4 (List.replicate k '#' ++ c0 :: e0 :: r) = none := by
      simp only [matchHeading4, countRun_replicate_append hch (e0 :: r) k]
      rw [if_pos (show k < 4 from by omega)]
    unfold fix_discord_formatting
    rw [fixHeadings_single_line hnlk hm, fixHashSpacing_single_line hnlk]
    have hfl : fixHashLine (List.replicate k '#' ++ c0 :: e0 :: r) =
        List.replicate k '#' ++ ' ' :: c0 :: e0 :: r := by
      unfold fixHashLine
      rw [countRun_replicate_append hch (e0 :: r) k]
      rw [if_pos (⟨hk1, hk3⟩ : 1 ≤ k ∧ k ≤ 3),
        drop_replicate_append '#' (c0 :: e0 :: r) k]
      dsimp only
      rw [if_neg (by simp [hc, hch])]
    rw [hfl, collapseRuns_eq_self_of_segB hb4, collapseRuns_eq_self_of_segB hb3u,
      collapseRuns_eq_self_of_segB hb3t]

/-- Witness for the amended C8 theorem: the two spec scenarios
"#### Title" and "##Header" at concrete inputs. -/
theorem c8_amended_witness :
    fix_discord_formatting (List.replicate 4 '#' ++ ' ' :: 'T' :: "itle".data) =
      "**".data ++ ('T' :: "itle".data) ++ "**".data ∧
    fix_discord_formatting (List.replicate 2 '#' ++ 'H' :: 'e' :: "ader".data) =
      List.replicate 2 '#' ++ ' ' :: 'H' :: 'e' :: "ader".data := by
  constructor
  · exact c8_amended.1 4 'T' "itle".data (by decide) (by decide) (by decide)
      (by decide) (by decide) (by decide)
  · exact c8_amended.2 2 'H' 'e' "ader".data (by decide) (by decide) (by decide)
      (by decide) (by decide) (by decide) (by decide) (by decide)

/-- `countRun` on a pure marker run. -/
theorem countRun_replicate (c : Char) : ∀ k : Nat, countRun c (List.replicate k c) = k := by
  intro k
  induction k with
  | zero => rfl
  | succ k ih => simp [List.replicate_succ, countRun, ih]

/-- The head condition used by the `run` constructor of `Shrinks`. -/
def headNotC (c : Char) (x : List Char) : Prop :=
  x = [] ∨ ∃ d t, x = d :: t ∧ d ≠ c

/-- `countRun` through an explicit run prefix bounded by a head condition. -/
theorem countRun_replicate_append_cond {c : Char} {x : List Char} (hx : headNotC c x)
    (j : Nat) : countRun c (List.replicate j c ++ x) = j := by
  rcases hx with rfl | ⟨d, t, rfl, hd⟩
  · rw [List.append_nil]
    exact countRun_replicate c j
  · exact countRun_replicate_append hd t j

/-- Unique decomposition into a leading run and a tail with non-marker
head. -/
theorem replicate_append_inj {c : Char} {a b : Nat} {u v : List Char}
    (hu : headNotC c u) (hv : headNotC c v)
    (h : List.replicate a c ++ u = List.replicate b c ++ v) : a = b ∧ u = v := by
  have ha := countRun_replicate_append_cond hu a
  have hb := countRun_replicate_append_cond hv b
  rw [h] at ha
  have hab : a = b := by rw [ha] at hb; omega
  subst hab
  refine ⟨rfl, ?_⟩
  exact List.append_cancel_left h

/-- A related pair of texts is empty on both sides or on neither. -/
theorem Shrinks_nil_iff {c : Char} {x y : List Char} (h : Shrinks c x y) :
    x = [] ↔ y = [] := by
  induction h with
  | nil => simp
  | copy hd hr ih => simp
  | run hk hkj hx hr ih =>
      constructor
      · intro he
        rcases List.append_eq_nil.mp he with ⟨h1, _⟩
        have := congrArg List.length h1
        simp at this
        omega
      · intro he
        rcases List.append_eq_nil.mp he with ⟨h1, _⟩
        have := congrArg List.length h1
        simp at this
        omega

/-- Related texts start with the same character. -/
theorem Shrinks_head_eq {c : Char} {x y : List Char} (h : Shrinks c x y) :
    x.head? = y.head? := by
  induction h with
  | nil => rfl
  | copy hd hr ih => rfl
  | run hk hkj hx hr ih =>
      rename_i j k x' y'
      obtain ⟨j0, rfl⟩ : ∃ j0, j = j0 + 1 := ⟨j - 1, by omega⟩
      obtain ⟨k0, rfl⟩ : ∃ k0, k = k0 + 1 := ⟨k - 1, by omega⟩
      simp [List.replicate_succ]

/-- Shrinking never lengthens the text. -/
theorem Shrinks_length_le {c : Char} {x y : List Char} (h : Shrinks c x y) :
    y.length ≤ x.length := by
  induction h with
  | nil => exact Nat.le_refl _
  | copy hd hr ih => simpa using ih
  | run hk hkj hx hr ih =>
      simp only [List.length_append, List.length_replicate]
      omega

/-- A text without the marker shrinks only to itself. -/
theorem Shrinks_eq_of_not_mem {c : Char} {x y : List Char} (hc : c ∉ x)
    (h : Shrinks c x y) : y = x := by
  induction h with
  | nil => rfl
  | copy hd hr ih =>
      rw [ih (fun hm => hc (List.mem_cons_of_mem _ hm))]
  | run hk hkj hx hr ih =>
      rename_i j k x' y'
      exfalso
      apply hc
      apply List.mem_append_left
      obtain ⟨j0, rfl⟩ : ∃ j0, j = j0 + 1 := ⟨j - 1, by omega⟩
      rw [List.replicate_succ]
      exact List.mem_cons_self _ _

/-- Marker runs aside, character counts of other characters agree: the
leading run of any other character is preserved. -/
theorem Shrinks_countRun {c e : Char} (hec : e ≠ c) {x y : List Char}
    (h : Shrinks c x y) : countRun e x = countRun e y := by
  induction h with
  | nil => rfl
  | copy hd hr ih =>
      rename_i d x' y'
      by_cases hde : d = e
      · subst hde
        simp [countRun, ih]
      · rw [countRun_eq_zero_of_head hde, countRun_eq_zero_of_head hde]
  | run hk hkj hx hr ih =>
      rename_i j k x' y'
      obtain ⟨j0, rfl⟩ : ∃ j0, j = j0 + 1 := ⟨j - 1, by omega⟩
      obtain ⟨k0, rfl⟩ : ∃ k0, k = k0 + 1 := ⟨k - 1, by omega⟩
      rw [List.replicate_succ, List.cons_append, List.replicate_succ, List.cons_append,
        countRun_eq_zero_of_head (fun he => hec he.symm),
        countRun_eq_zero_of_head (fun he => hec he.symm)]

/-- Inversion of `Shrinks` at a non-marker head. -/
theorem Shrinks_cons_inv_aux {c : Char} {u y : List Char} (h : Shrinks c u y) :
    ∀ {d : Char} {x : List Char}, d ≠ c → u = d :: x →
      ∃ y', y = d :: y' ∧ Shrinks c x y' := by
  cases h with
  | nil =>
      intro d x hd he
      exact absurd he (by simp)
  | copy hd2 hr =>
      intro d x hd he
      injection he with h1 h2
      subst h1
      subst h2
      exact ⟨_, rfl, hr⟩
  | run hk hkj hx hr =>
      intro d x hd he
      rename_i j k x' y'
      obtain ⟨j0, rfl⟩ : ∃ j0, j = j0 + 1 := ⟨j - 1, by omega⟩
      rw [List.replicate_succ, List.cons_append] at he
      injection he with h1 h2
      exact absurd h1.symm hd

/-- Inversion of `Shrinks` at a non-marker head, applied form. -/
theorem Shrinks_cons_inv {c d : Char} {x y : List Char} (hd : d ≠ c)
    (h : Shrinks c (d :: x) y) : ∃ y', y = d :: y' ∧ Shrinks c x y' :=
  Shrinks_cons_inv_aux h hd rfl

/-- Inversion of `Shrinks` at a leading marker run. -/
theorem Shrinks_run_inv_aux {c : Char} {u y : List Char} (h : Shrinks c u y) :
    ∀ {j : Nat} {x : List Char}, 1 ≤ j → headNotC c x →
      u = List.replicate j c ++ x →
      ∃ k y', 1 ≤ k ∧ k ≤ j ∧ y = List.replicate k c ++ y' ∧ Shrinks c x y' ∧
        headNotC c y' := by
  cases h with
  | nil =>
      intro j x hj hx he
      have := congrArg List.length he
      simp at this
      omega
  | copy hd2 hr =>
      intro j x hj hx he
      obtain ⟨j0, rfl⟩ : ∃ j0, j = j0 + 1 := ⟨j - 1, by omega⟩
      rw [List.replicate_succ, List.cons_append] at he
      injection he with h1 h2
      exact absurd h1 hd2
  | run hk hkj hx2 hr =>
      intro j x hj hx he
      rename_i j' k' x' y'
      obtain ⟨hjj, hxx⟩ := replicate_append_inj hx2 hx he
      subst hjj
      subst hxx
      refine ⟨k', y', hk, hkj, rfl, hr, ?_⟩
      rcases hx2 with rfl | ⟨d, t, rfl, hd⟩
      · left
        exact (Shrinks_nil_iff hr).mp rfl
      · obtain ⟨y2, hy2, hr2⟩ := Shrinks_cons_inv hd hr
        exact Or.inr ⟨d, y2, hy2, hd⟩

/-- `takeWhile` passes a whole marker run the predicate accepts. -/
theorem takeWhile_replicate_append_pos {p : Char → Bool} {c : Char} (hp : p c = true) :
    ∀ (j : Nat) (x : List Char),
      (List.replicate j c ++ x).takeWhile p = List.replicate j c ++ x.takeWhile p := by
  intro j x
  induction j with
  | zero => simp
  | succ j ih =>
      rw [List.replicate_succ, List.cons_append, List.takeWhile_cons_of_pos hp, ih,
        List.cons_append]

/-- `dropWhile` skips a whole marker run the predicate accepts. -/
theorem dropWhile_replicate_append_pos {p : Char → Bool} {c : Char} (hp : p c = true) :
    ∀ (j : Nat) (x : List Char),
      (List.replicate j c ++ x).dropWhile p = x.dropWhile p := by
  intro j x
  induction j with
  | zero => simp
  | succ j ih =>
      rw [List.replicate_succ, List.cons_append, List.dropWhile_cons_of_pos hp, ih]

/-- Shrinking is preserved by splitting at any predicate boundary. -/
theorem Shrinks_takeWhile_dropWhile (p : Char → Bool) {c : Char} {x y : List Char}
    (h : Shrinks c x y) :
    Shrinks c (x.takeWhile p) (y.takeWhile p) ∧
      Shrinks c (x.dropWhile p) (y.dropWhile p) := by
  induction h with
  | nil => exact ⟨Shrinks.nil, Shrinks.nil⟩
  | copy hd hr ih =>
      rename_i d x' y'
      by_cases hp : p d
      · rw [List.takeWhile_cons_of_pos hp, List.takeWhile_cons_of_pos hp,
          List.dropWhile_cons_of_pos hp, List.dropWhile_cons_of_pos hp]
        exact ⟨Shrinks.copy hd ih.1, ih.2⟩
      · rw [List.takeWhile_cons_of_neg hp, List.takeWhile_cons_of_neg hp,
          List.dropWhile_cons_of_neg hp, List.dropWhile_cons_of_neg hp]
        exact ⟨Shrinks.nil, Shrinks.copy hd hr⟩
  | run hk hkj hx hr ih =>
      rename_i j k x' y'
      by_cases hp : p c
      · rw [takeWhile_replicate_append_pos hp, takeWhile_replicate_append_pos hp,
          dropWhile_replicate_append_pos hp, dropWhile_replicate_append_pos hp]
        refine ⟨Shrinks.run hk hkj ?_ ih.1, ih.2⟩
        rcases hx with rfl | ⟨d, t, rfl, hd⟩
        · left
          simp
        · by_cases hpd : p d
          · right
            exact ⟨d, t.takeWhile p, by rw [List.takeWhile_cons_of_pos hpd], hd⟩
          · left
            rw [List.takeWhile_cons_of_neg hpd]
      · have hj : 1 ≤ j := le_trans hk hkj
        obtain ⟨j0, rfl⟩ : ∃ j0, j = j0 + 1 := ⟨j - 1, by omega⟩
        obtain ⟨k0, rfl⟩ : ∃ k0, k = k0 + 1 := ⟨k - 1, by omega⟩
        rw [List.replicate_succ, List.cons_append, List.replicate_succ, List.cons_append,
          List.takeWhile_cons_of_neg hp, List.takeWhile_cons_of_neg hp,
          List.dropWhile_cons_of_neg hp, List.dropWhile_cons_of_neg hp,
          ← List.cons_append, ← List.replicate_succ, ← List.cons_append,
          ← List.replicate_succ]
        exact ⟨Shrinks.nil, Shrinks.run hk hkj hx hr⟩

/-- The leading-run count is the length of the matching `takeWhile`. -/
theorem countRun_eq_length_takeWhile (c : Char) :
    ∀ s : List Char, countRun c s = (s.takeWhile (fun a => a == c)).length := by
  intro s
  induction s with
  | nil => rfl
  | cons d t ih =>
      by_cases hd : d = c
      · subst hd
        rw [List.takeWhile_cons_of_pos (by simp)]
        simp [countRun, ih]
      · rw [countRun_eq_zero_of_head hd, List.takeWhile_cons_of_neg (by simp [hd])]
        rfl

/-- Dropping the leading run is a `dropWhile`. -/
theorem drop_countRun_eq_dropWhile (c : Char) (s : List Char) :
    s.drop (countRun c s) = s.dropWhile (fun a => a == c) := by
  rw [countRun_eq_length_takeWhile, drop_length_takeWhile]

/-- Shrinking is preserved by dropping the leading run of any character. -/
theorem Shrinks_drop_countRun {c e : Char} {x y : List Char} (h : Shrinks c x y) :
    Shrinks c (x.drop (countRun e x)) (y.drop (countRun e y)) := by
  rw [drop_countRun_eq_dropWhile, drop_countRun_eq_dropWhile]
  exact (Shrinks_takeWhile_dropWhile _ h).2

/-- Copying a marker-free prefix preserves shrinking. -/
theorem Shrinks_append_copies {c : Char} {g x y : List Char} (hg : c ∉ g)
    (h : Shrinks c x y) : Shrinks c (g ++ x) (g ++ y) := by
  induction g with
  | nil => simpa using h
  | cons d g' ih =>
      rw [List.cons_append, List.cons_append]
      exact Shrinks.copy (fun he => hg (he ▸ List.mem_cons_self _ _))
        (ih (fun hm => hg (List.mem_cons_of_mem _ hm)))

/-- The marker does not occur in the marker-free prefix. -/
theorem not_mem_takeWhile_ne (c : Char) (l : List Char) :
    c ∉ l.takeWhile (fun x => x != c) := by
  intro hm
  have := List.mem_takeWhile_imp hm
  simp at this

/-- After the marker-free prefix the text is empty or starts with the
marker. -/
theorem dropWhile_ne_head (c : Char) (l : List Char) :
    l.dropWhile (fun x => x != c) = [] ∨
      ∃ t', l.dropWhile (fun x => x != c) = c :: t' := by
  induction l with
  | nil => exact Or.inl rfl
  | cons d t ih =>
      rw [List.dropWhile_cons]
      by_cases hd : ((fun x => x != c) d) = true
      · rw [if_pos hd]
        exact ih
      · rw [if_neg hd]
        right
        refine ⟨t, ?_⟩
        have hdc : d = c := by simpa using hd
        rw [hdc]

/-- After the leading marker run the text is empty or starts with a
non-marker character. -/
theorem headNotC_drop_countRun (c : Char) (s : List Char) :
    headNotC c (s.drop (countRun c s)) := by
  rw [drop_countRun_eq_dropWhile]
  induction s with
  | nil => exact Or.inl rfl
  | cons d t ih =>
      rw [List.dropWhile_cons]
      by_cases hd : ((fun a => a == c) d) = true
      · rw [if_pos hd]
        exact ih
      · rw [if_neg hd]
        right
        exact ⟨d, t, rfl, by simpa using hd⟩

/-- Dropping one less than a positive count from the tail. -/
theorem drop_pred_cons {a : Nat} (ha : 1 ≤ a) (d : Char) (t : List Char) :
    t.drop (a - 1) = (d :: t).drop a := by
  obtain ⟨a0, rfl⟩ : ∃ a0, a = a0 + 1 := ⟨a - 1, by omega⟩
  rw [Nat.add_sub_cancel, List.drop_succ_cons]

/-- Every text shrinks to itself. -/
theorem Shrinks_refl (c : Char) : ∀ (n : Nat) (s : List Char), s.length ≤ n →
    Shrinks c s s := by
  intro n
  induction n with
  | zero =>
      intro s hs
      have hnil : s = [] := List.eq_nil_of_length_eq_zero (Nat.le_zero.mp hs)
      rw [hnil]
      exact Shrinks.nil
  | succ n ih =>
      intro s hs
      cases s with
      | nil => exact Shrinks.nil
      | cons d t =>
          by_cases hd : d = c
          · subst hd
            have hpre := replicate_countRun_append d (d :: t)
            have hk : 1 ≤ countRun d (d :: t) := by
              simp [countRun]
            have hrel : Shrinks d
                (List.replicate (countRun d (d :: t)) d ++ (d :: t).drop (countRun d (d :: t)))
                (List.replicate (countRun d (d :: t)) d ++
                  (d :: t).drop (countRun d (d :: t))) := by
              apply Shrinks.run hk (Nat.le_refl _) (headNotC_drop_countRun d (d :: t))
              apply ih
              have h1 : ((d :: t).drop (countRun d (d :: t))).length ≤ t.length := by
                simp only [List.length_drop, List.length_cons]
                omega
              have h2 : t.length + 1 ≤ n + 1 := by simpa using hs
              omega
            rwa [hpre] at hrel
          · apply Shrinks.copy hd
            apply ih
            have h2 : t.length + 1 ≤ n + 1 := by simpa using hs
            omega

/-- A collapsing rule's output shrinks its input: every maximal marker run
is kept or replaced by a shorter nonempty run, all else verbatim. -/
theorem Shrinks_collapseRuns (c : Char) (m r : Nat) (hr1 : 1 ≤ r) (hrm : r < m) :
    ∀ (n : Nat) (s : List Char), s.length ≤ n → Shrinks c s (collapseRuns c m r s) := by
  intro n
  induction n with
  | zero =>
      intro s hs
      have hnil : s = [] := List.eq_nil_of_length_eq_zero (Nat.le_zero.mp hs)
      rw [hnil, collapseRuns]
      exact Shrinks.nil
  | succ n ih =>
      intro s hs
      cases s with
      | nil =>
          rw [collapseRuns]
          exact Shrinks.nil
      | cons d t =>
          have hlen : t.length + 1 ≤ n + 1 := by simpa using hs
          rw [collapseRuns]
          dsimp only
          by_cases hr0 : countRun c (d :: t) = 0
          · rw [if_pos hr0]
            have hd : d ≠ c := by
              intro he
              rw [he] at hr0
              simp [countRun] at hr0
            have htw : (d :: t).takeWhile (fun x => x != c) =
                d :: t.takeWhile (fun x => x != c) :=
              List.takeWhile_cons_of_pos (by simp [hd])
            rw [htw, List.length_cons, Nat.add_sub_cancel, drop_length_takeWhile]
            have hgc : c ∉ d :: t.takeWhile (fun x => x != c) := by
              intro hm
              rcases List.mem_cons.mp hm with he | hm2
              · exact hd he.symm
              · exact not_mem_takeWhile_ne c t hm2
            have hlen2 : (t.dropWhile (fun x => x != c)).length ≤ n := by
              have h1 : (t.dropWhile (fun x => x != c)).length ≤ t.length := by
                rw [← drop_length_takeWhile]
                simp [List.length_drop]
              omega
            have hrel := Shrinks_append_copies hgc (ih _ hlen2)
            have hsplit : (d :: t.takeWhile (fun x => x != c)) ++
                t.dropWhile (fun x => x != c) = d :: t := by
              rw [List.cons_append, List.takeWhile_append_dropWhile]
            rwa [hsplit] at hrel
          · by_cases hlt : countRun c (d :: t) < m
            · rw [if_neg hr0, if_pos hlt]
              obtain ⟨m1, hm1⟩ : ∃ m1, countRun c (d :: t) = m1 + 1 :=
                ⟨countRun c (d :: t) - 1, by omega⟩
              have hpre := replicate_countRun_append c (d :: t)
              have hhead := headNotC_drop_countRun c (d :: t)
              rw [hm1] at hpre hhead ⊢
              simp only [Nat.add_sub_cancel, List.drop_succ_cons] at hpre hhead ⊢
              have hlen2 : (t.drop m1).length ≤ n := by
                simp only [List.length_drop]
                omega
              have hrel : Shrinks c (List.replicate (m1 + 1) c ++ t.drop m1)
                  (List.replicate (m1 + 1) c ++ collapseRuns c m r (t.drop m1)) :=
                Shrinks.run (by omega) (Nat.le_refl _) hhead (ih _ hlen2)
              rwa [hpre] at hrel
            · rw [if_neg hr0, if_neg hlt]
              have hm1 : m ≤ countRun c (d :: t) := by omega
              have hk1 : 1 ≤ countRun c (d :: t) := by omega
              set AR := (d :: t).drop (countRun c (d :: t)) with hAR_def
              set G := AR.takeWhile (fun x => x != c) with hG_def
              by_cases hg0 : G.length = 0
              · rw [if_pos hg0]
                exact Shrinks_refl c (d :: t).length (d :: t) (Nat.le_refl _)
              · rw [if_neg hg0]
                have hGc : c ∉ G := by
                  rw [hG_def]
                  exact not_mem_takeWhile_ne c AR
                have hGhead : ∀ X : List Char, headNotC c (G ++ X) := by
                  intro X
                  cases hGe : G with
                  | nil => exact absurd (by rw [hGe]; rfl) hg0
                  | cons g0 G' =>
                      right
                      refine ⟨g0, G' ++ X, by rw [List.cons_append], ?_⟩
                      intro he
                      apply hGc
                      rw [hGe, he]
                      exact List.mem_cons_self _ _
                have hdropG : AR.drop G.length = AR.dropWhile (fun x => x != c) := by
                  rw [hG_def, drop_length_takeWhile]
                have hsplitAR : G ++ AR.drop G.length = AR := by
                  rw [hdropG, hG_def, List.takeWhile_append_dropWhile]
                have hpre := replicate_countRun_append c (d :: t)
                have hpre2 := replicate_countRun_append c (AR.drop G.length)
                have hrest2_head := headNotC_drop_countRun c (AR.drop G.length)
                have hAR_toDrop : ∀ X : Nat, t.drop (countRun c (d :: t) + X - 1) =
                    AR.drop X := by
                  intro X
                  rw [drop_pred_cons (by omega) d t, hAR_def, List.drop_drop, Nat.add_comm]
                by_cases hr2 : m ≤ countRun c (AR.drop G.length)
                · rw [if_pos hr2]
                  have hdrop1 : t.drop (countRun c (d :: t) + G.length +
                      countRun c (AR.drop G.length) - 1) =
                      (AR.drop G.length).drop (countRun c (AR.drop G.length)) := by
                    have h2 : countRun c (d :: t) + G.length +
                        countRun c (AR.drop G.length) - 1 =
                        countRun c (d :: t) +
                          (G.length + countRun c (AR.drop G.length)) - 1 := by omega
                    rw [h2, hAR_toDrop, ← List.drop_drop]
                  rw [hdrop1]
                  have hlen3 : ((AR.drop G.length).drop
                      (countRun c (AR.drop G.length))).length ≤ n := by
                    have h3 : AR.length ≤ t.length := by
                      rw [hAR_def]
                      simp only [List.length_drop, List.length_cons]
                      omega
                    simp only [List.length_drop]
                    omega
                  have hinner : Shrinks c
                      (List.replicate (countRun c (AR.drop G.length)) c ++
                        (AR.drop G.length).drop (countRun c (AR.drop G.length)))
                      (List.replicate r c ++ collapseRuns c m r
                        ((AR.drop G.length).drop (countRun c (AR.drop G.length)))) :=
                    Shrinks.run hr1 (by omega) hrest2_head (ih _ hlen3)
                  rw [hpre2] at hinner
                  have hmid := Shrinks_append_copies hGc hinner
                  rw [hsplitAR] at hmid
                  have houter : Shrinks c
                      (List.replicate (countRun c (d :: t)) c ++ AR)
                      (List.replicate r c ++ (G ++ (List.replicate r c ++ collapseRuns c m r
                        ((AR.drop G.length).drop (countRun c (AR.drop G.length)))))) :=
                    Shrinks.run hr1 (by omega) (hsplitAR ▸ hGhead (AR.drop G.length)) hmid
                  rw [hpre] at houter
                  simpa [List.append_assoc] using houter
                · rw [if_neg hr2]
                  rw [hAR_toDrop G.length]
                  have hlen3 : (AR.drop G.length).length ≤ n := by
                    have h3 : AR.length ≤ t.length := by
                      rw [hAR_def]
                      simp only [List.length_drop, List.length_cons]
                      omega
                    simp only [List.length_drop]
                    omega
                  have hmid := Shrinks_append_copies hGc (ih _ hlen3)
                  have houter : Shrinks c
                      (List.replicate (countRun c (d :: t)) c ++ (G ++ AR.drop G.length))
                      (List.replicate (countRun c (d :: t)) c ++
                        (G ++ collapseRuns c m r (AR.drop G.length))) :=
                    Shrinks.run hk1 (Nat.le_refl _) (hGhead (AR.drop G.length)) hmid
                  rw [hsplitAR, hpre] at houter
                  simpa [List.append_assoc] using houter

/-- The marker-free prefix of a marker-free text glued to a marker-headed
tail. -/
theorem takeWhile_ne_append_eq {c : Char} {g x : List Char} (hgc : c ∉ g)
    (hx : x = [] ∨ ∃ t', x = c :: t') :
    (g ++ x).takeWhile (fun y => y != c) = g := by
  induction g with
  | nil =>
      rcases hx with rfl | ⟨t', rfl⟩
      · rfl
      · rw [List.nil_append, List.takeWhile_cons_of_neg (by simp)]
  | cons a g' ih =>
      have ha : a ≠ c := fun he => hgc (he ▸ List.mem_cons_self _ _)
      rw [List.cons_append, List.takeWhile_cons_of_pos (by simp [ha]),
        ih (fun hm => hgc (List.mem_cons_of_mem _ hm))]

/-- Transfer of the non-marker head condition along equal heads. -/
theorem headNotC_transfer {c : Char} {x y : List Char} (h : x.head? = y.head?)
    (hx : headNotC c x) : headNotC c y := by
  rcases hx with rfl | ⟨d, t, rfl, hd⟩
  · left
    cases y with
    | nil => rfl
    | cons a b => simp at h
  · cases y with
    | nil => simp at h
    | cons a b =>
        simp only [List.head?_cons, Option.some.injEq] at h
        exact Or.inr ⟨a, b, rfl, h ▸ hd⟩

/-- Transfer of the marker-or-empty head condition along equal heads. -/
theorem headC_transfer {c : Char} {x y : List Char} (h : x.head? = y.head?)
    (hx : x = [] ∨ ∃ t', x = c :: t') : y = [] ∨ ∃ t', y = c :: t' := by
  rcases hx with rfl | ⟨t', rfl⟩
  · left
    cases y with
    | nil => rfl
    | cons a b => simp at h
  · cases y with
    | nil => simp at h
    | cons a b =>
        simp only [List.head?_cons, Option.some.injEq] at h
        exact Or.inr ⟨b, by rw [h]⟩

/-- A collapsing rule keeps a short leading run intact. -/
theorem collapseRuns_countRun_short {c : Char} {m r : Nat} (hr1 : 1 ≤ r) (hrm : r < m)
    {s : List Char} (hlt : countRun c s < m) :
    countRun c (collapseRuns c m r s) = countRun c s := by
  cases s with
  | nil => rw [collapseRuns]
  | cons d t =>
      rw [collapseRuns]
      dsimp only
      by_cases hr0 : countRun c (d :: t) = 0
      · rw [if_pos hr0]
        have hd : d ≠ c := by
          intro he
          rw [he] at hr0
          simp [countRun] at hr0
        have htw : (d :: t).takeWhile (fun x => x != c) =
            d :: t.takeWhile (fun x => x != c) :=
          List.takeWhile_cons_of_pos (by simp [hd])
        rw [htw, List.cons_append, countRun_eq_zero_of_head hd, hr0]
      · rw [if_neg hr0, if_pos hlt]
        have hhead := headNotC_drop_countRun c (d :: t)
        have hhead2 : headNotC c (collapseRuns c m r ((d :: t).drop (countRun c (d :: t)))) :=
          headNotC_transfer
            (Shrinks_head_eq (Shrinks_collapseRuns c m r hr1 hrm _ _ (Nat.le_refl _)))
            hhead
        obtain ⟨m1, hm1⟩ : ∃ m1, countRun c (d :: t) = m1 + 1 :=
          ⟨countRun c (d :: t) - 1, by omega⟩
        rw [hm1, List.drop_succ_cons] at hhead2
        rw [hm1, Nat.add_sub_cancel]
        exact countRun_replicate_append_cond hhead2 (m1 + 1)

/-- The firing scan over a marker-free prefix glued to a marker-headed
tail. -/
theorem noSiteScan_copies {c : Char} {m : Nat} {g x : List Char} (hg : g ≠ [])
    (hgc : c ∉ g) (hx : x = [] ∨ ∃ t', x = c :: t') :
    noSiteScan c m (g ++ x) = noSiteScan c m x := by
  cases g with
  | nil => exact absurd rfl hg
  | cons d g' =>
      have hd : d ≠ c := fun he => hgc (he ▸ List.mem_cons_self _ _)
      have hgc' : c ∉ g' := fun hm => hgc (List.mem_cons_of_mem _ hm)
      rw [List.cons_append, noSiteScan]
      dsimp only
      rw [if_pos (countRun_eq_zero_of_head hd),
        List.takeWhile_cons_of_pos (by simp [hd]), takeWhile_ne_append_eq hgc' hx,
        List.length_cons, Nat.add_sub_cancel, List.drop_left]

/-- The firing scan over a short leading run. -/
theorem noSiteScan_short {c : Char} {m j : Nat} {x : List Char} (hj1 : 1 ≤ j)
    (hjm : j < m) (hx : headNotC c x) :
    noSiteScan c m (List.replicate j c ++ x) = noSiteScan c m x := by
  obtain ⟨j0, rfl⟩ : ∃ j0, j = j0 + 1 := ⟨j - 1, by omega⟩
  have hcr := countRun_replicate_append_cond hx (j0 + 1)
  rw [List.replicate_succ, List.cons_append] at hcr ⊢
  rw [noSiteScan]
  dsimp only
  rw [if_neg (by omega : ¬ countRun c (c :: (List.replicate j0 c ++ x)) = 0)]
  rw [hcr, if_pos hjm, Nat.add_sub_cancel, drop_replicate_append]

/-- The firing scan accepts a bare run. -/
theorem noSiteScan_fail {c : Char} {m j : Nat} (hm1 : 1 ≤ m) (hj : m ≤ j) :
    noSiteScan c m (List.replicate j c) = true := by
  obtain ⟨j0, rfl⟩ : ∃ j0, j = j0 + 1 := ⟨j - 1, by have := le_trans hm1 hj; omega⟩
  have hcr : countRun c (List.replicate (j0 + 1) c) = j0 + 1 := countRun_replicate c (j0 + 1)
  rw [List.replicate_succ] at hcr ⊢
  rw [noSiteScan]
  dsimp only
  rw [hcr, if_neg (by omega : ¬ j0 + 1 = 0), if_neg (by omega : ¬ j0 + 1 < m)]
  have hdrop : (c :: List.replicate j0 c).drop (j0 + 1) = [] := by
    rw [← List.replicate_succ]
    have h := drop_replicate_append c [] (j0 + 1)
    rwa [List.append_nil] at h
  rw [hdrop]
  simp

/-- The firing scan skips a near miss: a big opening run whose closing run
is too short. -/
theorem noSiteScan_nearMiss {c : Char} {m j : Nat} {g Y : List Char} (hm1 : 1 ≤ m)
    (hj : m ≤ j) (hg : g ≠ []) (hgc : c ∉ g) (hY : Y = [] ∨ ∃ t', Y = c :: t')
    (hr2 : countRun c Y < m) :
    noSiteScan c m (List.replicate j c ++ (g ++ Y)) = noSiteScan c m Y := by
  obtain ⟨j0, rfl⟩ : ∃ j0, j = j0 + 1 := ⟨j - 1, by have := le_trans hm1 hj; omega⟩
  have hGhead : headNotC c (g ++ Y) := by
    cases hGe : g with
    | nil => exact absurd hGe hg
    | cons g0 G' =>
        right
        refine ⟨g0, G' ++ Y, by rw [List.cons_append], ?_⟩
        intro he
        apply hgc
        rw [hGe, he]
        exact List.mem_cons_self _ _
  have hcr := countRun_replicate_append_cond hGhead (j0 + 1)
  rw [List.replicate_succ, List.cons_append] at hcr ⊢
  rw [noSiteScan]
  dsimp only
  rw [hcr, if_neg (by omega : ¬ j0 + 1 = 0), if_neg (by omega : ¬ j0 + 1 < m)]
  have hdropj : (c :: (List.replicate j0 c ++ (g ++ Y))).drop (j0 + 1) = g ++ Y := by
    rw [← List.cons_append, ← List.replicate_succ, drop_replicate_append]
  rw [hdropj, takeWhile_ne_append_eq hgc hY]
  rw [if_neg (by simpa using hg : ¬ g.length = 0)]
  rw [List.drop_left, if_neg (by omega : ¬ m ≤ countRun c Y)]
  rw [show j0 + 1 + g.length - 1 = j0 + g.length from by omega]
  have hdd : (List.replicate j0 c ++ (g ++ Y)).drop (j0 + g.length) = Y := by
    have h1 : (List.replicate j0 c ++ (g ++ Y)).drop (j0 + g.length) =
        ((List.replicate j0 c ++ (g ++ Y)).drop j0).drop g.length := by
      rw [List.drop_drop, Nat.add_comm]
    rw [h1, drop_replicate_append, List.drop_left]
  rw [hdd]

/-- A text the firing scan accepts is a fixed point of the collapsing
rule. -/
theorem collapseRuns_eq_self_of_noSiteScan (c : Char) (m r : Nat) :
    ∀ (n : Nat) (s : List Char), s.length ≤ n → noSiteScan c m s = true →
      collapseRuns c m r s = s := by
  intro n
  induction n with
  | zero =>
      intro s hs _
      have hnil : s = [] := List.eq_nil_of_length_eq_zero (Nat.le_zero.mp hs)
      rw [hnil, collapseRuns]
  | succ n ih =>
      intro s hs hscan
      cases s with
      | nil => rw [collapseRuns]
      | cons d t =>
          have hlen : t.length + 1 ≤ n + 1 := by simpa using hs
          rw [noSiteScan] at hscan
          dsimp only at hscan
          rw [collapseRuns]
          dsimp only
          by_cases hr0 : countRun c (d :: t) = 0
          · rw [if_pos hr0] at hscan ⊢
            have hd : d ≠ c := by
              intro he
              rw [he] at hr0
              simp [countRun] at hr0
            have htw : (d :: t).takeWhile (fun x => x != c) =
                d :: t.takeWhile (fun x => x != c) :=
              List.takeWhile_cons_of_pos (by simp [hd])
            rw [htw, List.length_cons, Nat.add_sub_cancel, drop_length_takeWhile] at hscan ⊢
            have hlen2 : (t.dropWhile (fun x => x != c)).length ≤ n := by
              have h1 : (t.dropWhile (fun x => x != c)).length ≤ t.length := by
                rw [← drop_length_takeWhile]
                simp [List.length_drop]
              omega
            rw [ih _ hlen2 hscan, List.cons_append, List.takeWhile_append_dropWhile]
          · by_cases hlt : countRun c (d :: t) < m
            · rw [if_neg hr0, if_pos hlt] at hscan ⊢
              obtain ⟨m1, hm1⟩ : ∃ m1, countRun c (d :: t) = m1 + 1 :=
                ⟨countRun c (d :: t) - 1, by omega⟩
              have hpre := replicate_countRun_append c (d :: t)
              rw [hm1] at hpre hscan ⊢
              simp only [Nat.add_sub_cancel, List.drop_succ_cons] at hpre hscan ⊢
              have hlen2 : (t.drop m1).length ≤ n := by
                simp only [List.length_drop]
                omega
              rw [ih _ hlen2 hscan]
              exact hpre
            · rw [if_neg hr0, if_neg hlt] at hscan ⊢
              set AR := (d :: t).drop (countRun c (d :: t)) with hAR_def
              set G := AR.takeWhile (fun x => x != c) with hG_def
              by_cases hg0 : G.length = 0
              · rw [if_pos hg0]
              · rw [if_neg hg0] at hscan ⊢
                by_cases hr2 : m ≤ countRun c (AR.drop G.length)
                · rw [if_pos hr2] at hscan
                  exact absurd hscan (by simp)
                · rw [if_neg hr2] at hscan ⊢
                  have hAR_toDrop : t.drop (countRun c (d :: t) + G.length - 1) =
                      AR.drop G.length := by
                    rw [drop_pred_cons (by omega) d t, hAR_def, List.drop_drop, Nat.add_comm]
                  rw [hAR_toDrop] at hscan ⊢
                  have hlen3 : (AR.drop G.length).length ≤ n := by
                    have h3 : AR.length ≤ t.length := by
                      rw [hAR_def]
                      simp only [List.length_drop, List.length_cons]
                      omega
                    simp only [List.length_drop]
                    omega
                  rw [ih _ hlen3 hscan]
                  have hdropG : AR.drop G.length = AR.dropWhile (fun x => x != c) := by
                    rw [hG_def, drop_length_takeWhile]
                  have hsplitAR : G ++ AR.drop G.length = AR := by
                    rw [hdropG, hG_def, List.takeWhile_append_dropWhile]
                  have hpre := replicate_countRun_append c (d :: t)
                  rw [List.append_assoc, hsplitAR, hpre]

/-- The firing scan accepts every output of the collapsing rule: one pass
leaves no firing site behind. -/
theorem noSiteScan_collapseRuns (c : Char) (m r : Nat) (hm1 : 1 ≤ m) (hr1 : 1 ≤ r)
    (hrm : r < m) : ∀ (n : Nat) (s : List Char), s.length ≤ n →
      noSiteScan c m (collapseRuns c m r s) = true := by
  intro n
  induction n with
  | zero =>
      intro s hs
      have hnil : s = [] := List.eq_nil_of_length_eq_zero (Nat.le_zero.mp hs)
      rw [hnil, collapseRuns, noSiteScan]
  | succ n ih =>
      intro s hs
      cases s with
      | nil => rw [collapseRuns, noSiteScan]
      | cons d t =>
          have hlen : t.length + 1 ≤ n + 1 := by simpa using hs
          rw [collapseRuns]
          dsimp only
          by_cases hr0 : countRun c (d :: t) = 0
          · rw [if_pos hr0]
            have hd : d ≠ c := by
              intro he
              rw [he] at hr0
              simp [countRun] at hr0
            have htw : (d :: t).takeWhile (fun x => x != c) =
                d :: t.takeWhile (fun x => x != c) :=
              List.takeWhile_cons_of_pos (by simp [hd])
            rw [htw, List.length_cons, Nat.add_sub_cancel, drop_length_takeWhile]
            have hgc : c ∉ d :: t.takeWhile (fun x => x != c) := by
              intro hm
              rcases List.mem_cons.mp hm with he | hm2
              · exact hd he.symm
              · exact not_mem_takeWhile_ne c t hm2
            have hlen2 : (t.dropWhile (fun x => x != c)).length ≤ n := by
              have h1 : (t.dropWhile (fun x => x != c)).length ≤ t.length := by
                rw [← drop_length_takeWhile]
                simp [List.length_drop]
              omega
            have hx : collapseRuns c m r (t.dropWhile (fun x => x != c)) = [] ∨
                ∃ t', collapseRuns c m r (t.dropWhile (fun x => x != c)) = c :: t' :=
              headC_transfer
                (Shrinks_head_eq (Shrinks_collapseRuns c m r hr1 hrm _ _ (Nat.le_refl _)))
                (dropWhile_ne_head c t)
            rw [noSiteScan_copies (by simp) hgc hx]
            exact ih _ hlen2
          · by_cases hlt : countRun c (d :: t) < m
            · rw [if_neg hr0, if_pos hlt]
              obtain ⟨m1, hm1'⟩ : ∃ m1, countRun c (d :: t) = m1 + 1 :=
                ⟨countRun c (d :: t) - 1, by omega⟩
              have hhead := headNotC_drop_countRun c (d :: t)
              rw [hm1'] at hhead hlt ⊢
              simp only [Nat.add_sub_cancel, List.drop_succ_cons] at hhead ⊢
              have hlen2 : (t.drop m1).length ≤ n := by
                simp only [List.length_drop]
                omega
              have hhead2 : headNotC c (collapseRuns c m r (t.drop m1)) :=
                headNotC_transfer
                  (Shrinks_head_eq (Shrinks_collapseRuns c m r hr1 hrm _ _ (Nat.le_refl _)))
                  hhead
              rw [noSiteScan_short (by omega) hlt hhead2]
              exact ih _ hlen2
            · rw [if_neg hr0, if_neg hlt]
              have hm2 : m ≤ countRun c (d :: t) := by omega
              set AR := (d :: t).drop (countRun c (d :: t)) with hAR_def
              set G := AR.takeWhile (fun x => x != c) with hG_def
              have hARhead : headNotC c AR := by
                rw [hAR_def]
                exact headNotC_drop_countRun c (d :: t)
              by_cases hg0 : G.length = 0
              · rw [if_pos hg0]
                have hARnil : AR = [] := by
                  rcases hARhead with hnil | ⟨d0, t0, he, hd0⟩
                  · exact hnil
                  · rw [hG_def, he, List.takeWhile_cons_of_pos (by simp [hd0])] at hg0
                    simp at hg0
                have hpre := replicate_countRun_append c (d :: t)
                rw [← hAR_def] at hpre
                rw [hARnil, List.append_nil] at hpre
                rw [← hpre]
                exact noSiteScan_fail hm1 hm2
              · rw [if_neg hg0]
                have hGc : c ∉ G := by
                  rw [hG_def]
                  exact not_mem_takeWhile_ne c AR
                have hGne : G ≠ [] := by
                  intro he
                  rw [he] at hg0
                  exact hg0 rfl
                have hGhead : ∀ X : List Char, headNotC c (G ++ X) := by
                  intro X
                  cases hGe : G with
                  | nil => exact absurd hGe hGne
                  | cons g0 G' =>
                      right
                      refine ⟨g0, G' ++ X, by rw [List.cons_append], ?_⟩
                      intro he
                      apply hGc
                      rw [hGe, he]
                      exact List.mem_cons_self _ _
                have hdropG : AR.drop G.length = AR.dropWhile (fun x => x != c) := by
                  rw [hG_def, drop_length_takeWhile]
                have hrest_head : AR.drop G.length = [] ∨
                    ∃ t', AR.drop G.length = c :: t' := by
                  rw [hdropG]
                  exact dropWhile_ne_head c AR
                have hAR_toDrop : ∀ X : Nat, t.drop (countRun c (d :: t) + X - 1) =
                    AR.drop X := by
                  intro X
                  rw [drop_pred_cons (by omega) d t, hAR_def, List.drop_drop, Nat.add_comm]
                have hARlen : AR.length ≤ t.length := by
                  rw [hAR_def]
                  simp only [List.length_drop, List.length_cons]
                  omega
                by_cases hr2 : m ≤ countRun c (AR.drop G.length)
                · rw [if_pos hr2]
                  have hdrop1 : t.drop (countRun c (d :: t) + G.length +
                      countRun c (AR.drop G.length) - 1) =
                      (AR.drop G.length).drop (countRun c (AR.drop G.length)) := by
                    have h2 : countRun c (d :: t) + G.length +
                        countRun c (AR.drop G.length) - 1 =
                        countRun c (d :: t) +
                          (G.length + countRun c (AR.drop G.length)) - 1 := by omega
                    rw [h2, hAR_toDrop, ← List.drop_drop]
                  rw [hdrop1]
                  have hlen3 : ((AR.drop G.length).drop
                      (countRun c (AR.drop G.length))).length ≤ n := by
                    simp only [List.length_drop]
                    omega
                  have hrest2_head : headNotC c ((AR.drop G.length).drop
                      (countRun c (AR.drop G.length))) :=
                    headNotC_drop_countRun c (AR.drop G.length)
                  have hhead3 : headNotC c (collapseRuns c m r
                      ((AR.drop G.length).drop (countRun c (AR.drop G.length)))) :=
                    headNotC_transfer
                      (Shrinks_head_eq
                        (Shrinks_collapseRuns c m r hr1 hrm _ _ (Nat.le_refl _)))
                      hrest2_head
                  obtain ⟨r0, hr0'⟩ : ∃ r0, r = r0 + 1 := ⟨r - 1, by omega⟩
                  have hx2 : (List.replicate r c ++ collapseRuns c m r
                      ((AR.drop G.length).drop (countRun c (AR.drop G.length)))) = [] ∨
                      ∃ t', (List.replicate r c ++ collapseRuns c m r
                        ((AR.drop G.length).drop (countRun c (AR.drop G.length)))) =
                          c :: t' := by
                    right
                    refine ⟨List.replicate r0 c ++ collapseRuns c m r
                      ((AR.drop G.length).drop (countRun c (AR.drop G.length))), ?_⟩
                    rw [hr0', List.replicate_succ, List.cons_append]
                  have hassoc : List.replicate r c ++ G ++ List.replicate r c ++
                      collapseRuns c m r
                        ((AR.drop G.length).drop (countRun c (AR.drop G.length))) =
                      List.replicate r c ++ (G ++ (List.replicate r c ++
                        collapseRuns c m r
                          ((AR.drop G.length).drop (countRun c (AR.drop G.length))))) := by
                    simp [List.append_assoc]
                  rw [hassoc, noSiteScan_short hr1 hrm (hGhead _),
                    noSiteScan_copies hGne hGc hx2, noSiteScan_short hr1 hrm hhead3]
                  exact ih _ hlen3
                · rw [if_neg hr2]
                  rw [hAR_toDrop G.length]
                  have hlen3 : (AR.drop G.length).length ≤ n := by
                    simp only [List.length_drop]
                    omega
                  have hYc : collapseRuns c m r (AR.drop G.length) = [] ∨
                      ∃ t', collapseRuns c m r (AR.drop G.length) = c :: t' :=
                    headC_transfer
                      (Shrinks_head_eq
                        (Shrinks_collapseRuns c m r hr1 hrm _ _ (Nat.le_refl _)))
                      hrest_head
                  have hr2' : countRun c (collapseRuns c m r (AR.drop G.length)) < m := by
                    rw [collapseRuns_countRun_short hr1 hrm (by omega)]
                    omega
                  have hassoc : List.replicate (countRun c (d :: t)) c ++ G ++
                      collapseRuns c m r (AR.drop G.length) =
                      List.replicate (countRun c (d :: t)) c ++
                        (G ++ collapseRuns c m r (AR.drop G.length)) := by
                    simp [List.append_assoc]
                  rw [hassoc, noSiteScan_nearMiss hm1 hm2 hGne hGc hYc hr2']
                  exact ih _ hlen3

/-- Shrinking runs of a DIFFERENT marker never creates a firing site: the
scanned marker's runs and the emptiness of the gaps between them are
untouched. -/
theorem noSiteScan_of_Shrinks {c e : Char} (hec : e ≠ c) {m : Nat} :
    ∀ (n : Nat) (x y : List Char), x.length ≤ n → Shrinks e x y →
      noSiteScan c m x = true → noSiteScan c m y = true := by
  intro n
  induction n with
  | zero =>
      intro x y hx hshr hscan
      have hnil : x = [] := List.eq_nil_of_length_eq_zero (Nat.le_zero.mp hx)
      subst hnil
      have hynil : y = [] := (Shrinks_nil_iff hshr).mp rfl
      rw [hynil, noSiteScan]
  | succ n ih =>
      intro x y hx hshr hscan
      cases x with
      | nil =>
          have hynil : y = [] := (Shrinks_nil_iff hshr).mp rfl
          rw [hynil, noSiteScan]
      | cons d t =>
          cases y with
          | nil =>
              exact absurd ((Shrinks_nil_iff hshr).mpr rfl) (by simp)
          | cons d' ty =>
              have hdd : d = d' := by
                have h := Shrinks_head_eq hshr
                simpa using h
              subst hdd
              have hlen : t.length + 1 ≤ n + 1 := by simpa using hx
              have hcount : countRun c (d :: t) = countRun c (d :: ty) :=
                Shrinks_countRun (fun h => hec h.symm) hshr
              have hAR : Shrinks e ((d :: t).drop (countRun c (d :: t)))
                  ((d :: ty).drop (countRun c (d :: ty))) :=
                Shrinks_drop_countRun hshr
              rw [← hcount] at hAR
              rw [noSiteScan] at hscan ⊢
              dsimp only at hscan ⊢
              rw [← hcount]
              by_cases hr0 : countRun c (d :: t) = 0
              · rw [if_pos hr0] at hscan ⊢
                have hd : d ≠ c := by
                  intro he
                  rw [he] at hr0
                  simp [countRun] at hr0
                have htwx : (d :: t).takeWhile (fun x => x != c) =
                    d :: t.takeWhile (fun x => x != c) :=
                  List.takeWhile_cons_of_pos (by simp [hd])
                have htwy : (d :: ty).takeWhile (fun x => x != c) =
                    d :: ty.takeWhile (fun x => x != c) :=
                  List.takeWhile_cons_of_pos (by simp [hd])
                rw [htwx, List.length_cons, Nat.add_sub_cancel,
                  drop_length_takeWhile] at hscan
                rw [htwy, List.length_cons, Nat.add_sub_cancel, drop_length_takeWhile]
                have hrel : Shrinks e (t.dropWhile (fun x => x != c))
                    (ty.dropWhile (fun x => x != c)) := by
                  have h1 := (Shrinks_takeWhile_dropWhile (fun x => x != c) hshr).2
                  rwa [List.dropWhile_cons_of_pos (by simp [hd]),
                    List.dropWhile_cons_of_pos (by simp [hd])] at h1
                have hlen2 : (t.dropWhile (fun x => x != c)).length ≤ n := by
                  have h1 : (t.dropWhile (fun x => x != c)).length ≤ t.length := by
                    rw [← drop_length_takeWhile]
                    simp [List.length_drop]
                  omega
                exact ih _ _ hlen2 hrel hscan
              · by_cases hlt : countRun c (d :: t) < m
                · rw [if_neg hr0, if_pos hlt] at hscan ⊢
                  obtain ⟨m1, hm1⟩ : ∃ m1, countRun c (d :: t) = m1 + 1 :=
                    ⟨countRun c (d :: t) - 1, by omega⟩
                  rw [hm1, Nat.add_sub_cancel] at hscan ⊢
                  have hrel : Shrinks e (t.drop m1) (ty.drop m1) := by
                    have h1 := hAR
                    rw [hm1, List.drop_succ_cons, List.drop_succ_cons] at h1
                    exact h1
                  have hlen2 : (t.drop m1).length ≤ n := by
                    simp only [List.length_drop]
                    omega
                  exact ih _ _ hlen2 hrel hscan
                · rw [if_neg hr0, if_neg hlt] at hscan ⊢
                  have hG : Shrinks e
                      (((d :: t).drop (countRun c (d :: t))).takeWhile (fun x => x != c))
                      (((d :: ty).drop (countRun c (d :: t))).takeWhile (fun x => x != c)) :=
                    (Shrinks_takeWhile_dropWhile _ hAR).1
                  have hRest : Shrinks e
                      (((d :: t).drop (countRun c (d :: t))).dropWhile (fun x => x != c))
                      (((d :: ty).drop (countRun c (d :: t))).dropWhile (fun x => x != c)) :=
                    (Shrinks_takeWhile_dropWhile _ hAR).2
                  by_cases hg0 :
                      (((d :: t).drop (countRun c (d :: t))).takeWhile
                        (fun x => x != c)).length = 0
                  · have hgx : ((d :: t).drop (countRun c (d :: t))).takeWhile
                        (fun x => x != c) = [] := List.length_eq_zero.mp hg0
                    have hgy : ((d :: ty).drop (countRun c (d :: t))).takeWhile
                        (fun x => x != c) = [] := by
                      rw [hgx] at hG
                      exact (Shrinks_nil_iff hG).mp rfl
                    rw [if_pos (by rw [hgy]; rfl)]
                  · have hgyne : ((d :: ty).drop (countRun c (d :: t))).takeWhile
                        (fun x => x != c) ≠ [] := by
                      intro he
                      apply hg0
                      rw [(Shrinks_nil_iff hG).mpr he]
                      rfl
                    rw [if_neg hg0] at hscan
                    rw [if_neg (by simpa using hgyne)]
                    have hdropGx : ((d :: t).drop (countRun c (d :: t))).drop
                        ((((d :: t).drop (countRun c (d :: t))).takeWhile
                          (fun x => x != c)).length) =
                        ((d :: t).drop (countRun c (d :: t))).dropWhile (fun x => x != c) :=
                      drop_length_takeWhile _ _
                    have hdropGy : ((d :: ty).drop (countRun c (d :: t))).drop
                        ((((d :: ty).drop (countRun c (d :: t))).takeWhile
                          (fun x => x != c)).length) =
                        ((d :: ty).drop (countRun c (d :: t))).dropWhile (fun x => x != c) :=
                      drop_length_takeWhile _ _
                    rw [hdropGx] at hscan
                    rw [hdropGy]
                    have hr2eq : countRun c
                        (((d :: t).drop (countRun c (d :: t))).dropWhile (fun x => x != c)) =
                        countRun c
                        (((d :: ty).drop (countRun c (d :: t))).dropWhile
                          (fun x => x != c)) :=
                      Shrinks_countRun (fun h => hec h.symm) hRest
                    rw [← hr2eq]
                    by_cases hr2 : m ≤ countRun c
                        (((d :: t).drop (countRun c (d :: t))).dropWhile (fun x => x != c))
                    · rw [if_pos hr2] at hscan
                      exact absurd hscan (by simp)
                    · rw [if_neg hr2] at hscan ⊢
                      have hARdx : ∀ X : Nat, t.drop (countRun c (d :: t) + X - 1) =
                          ((d :: t).drop (countRun c (d :: t))).drop X := by
                        intro X
                        rw [drop_pred_cons (by omega) d t, List.drop_drop, Nat.add_comm]
                      have hARdy : ∀ X : Nat, ty.drop (countRun c (d :: t) + X - 1) =
                          ((d :: ty).drop (countRun c (d :: t))).drop X := by
                        intro X
                        rw [drop_pred_cons (by omega) d ty, List.drop_drop, Nat.add_comm]
                      have hdx : t.drop (countRun c (d :: t) +
                          (((d :: t).drop (countRun c (d :: t))).takeWhile
                            (fun x => x != c)).length - 1) =
                          ((d :: t).drop (countRun c (d :: t))).dropWhile
                            (fun x => x != c) := by
                        rw [hARdx, hdropGx]
                      have hdy : ty.drop (countRun c (d :: t) +
                          (((d :: ty).drop (countRun c (d :: t))).takeWhile
                            (fun x => x != c)).length - 1) =
                          ((d :: ty).drop (countRun c (d :: t))).dropWhile
                            (fun x => x != c) := by
                        rw [hARdy, hdropGy]
                      rw [hdx] at hscan
                      rw [hdy]
                      have hlen2 : (((d :: t).drop (countRun c (d :: t))).dropWhile
                          (fun x => x != c)).length ≤ n := by
                        have h1 : (((d :: t).drop (countRun c (d :: t))).dropWhile
                            (fun x => x != c)).length ≤
                            ((d :: t).drop (countRun c (d :: t))).length := by
                          rw [← drop_length_takeWhile]
                          simp only [List.length_drop]
                          omega
                        have h2 : ((d :: t).drop (countRun c (d :: t))).length ≤
                            t.length := by
                          simp only [List.length_drop, List.length_cons]
                          omega
                        omega
                      exact ih _ _ hlen2 hRest hscan

/-- Dropping a prefix of the tail after one dropped head. -/
theorem tail_drop_eq {d c0 : Char} {t rest : List Char} {L : Nat}
    (h : (d :: t).drop L = c0 :: rest) : t.drop L = rest := by
  have h2 := congrArg (List.drop 1) h
  rw [List.drop_drop] at h2
  rw [List.drop_succ_cons] at h2
  simpa using h2

/-- Reassembling a text from its predicate prefix and the rest. -/
theorem takeWhile_append_drop_length (p : Char → Bool) (l : List Char) :
    l.takeWhile p ++ l.drop (l.takeWhile p).length = l := by
  rw [drop_length_takeWhile, List.takeWhile_append_dropWhile]

/-- When nothing remains after the predicate prefix, it is the whole
text. -/
theorem takeWhile_eq_self_of_drop_nil {p : Char → Bool} {l : List Char}
    (h : l.drop (l.takeWhile p).length = []) : l.takeWhile p = l := by
  have h2 := takeWhile_append_drop_length p l
  rw [h, List.append_nil] at h2
  exact h2

/-- The heading pattern fails on a short hash run. -/
theorem matchHeading4_eq_none_of_short {s : List Char} (h : countRun '#' s < 4) :
    matchHeading4 s = none := by
  simp only [matchHeading4]
  rw [if_pos h]

/-- The heading pattern fails when no whitespace follows the hashes. -/
theorem matchHeading4_eq_none_of_w0 {s : List Char}
    (h : ((s.drop (countRun '#' s)).takeWhile isPySpace).length = 0) :
    matchHeading4 s = none := by
  simp only [matchHeading4]
  by_cases h4 : countRun '#' s < 4
  · rw [if_pos h4]
  · rw [if_neg h4, if_pos h]

/-- The leading run is blind to what follows the first stopper. -/
theorem countRun_append_two_tails {c d : Char} (hd : d ≠ c) (a b1 b2 : List Char) :
    countRun c (a ++ d :: b1) = countRun c (a ++ d :: b2) := by
  induction a with
  | nil =>
      rw [List.nil_append, List.nil_append, countRun_eq_zero_of_head hd,
        countRun_eq_zero_of_head hd]
  | cons a0 a' ih =>
      rw [List.cons_append, List.cons_append]
      by_cases ha : a0 = c
      · subst ha
        simp [countRun, ih]
      · rw [countRun_eq_zero_of_head ha, countRun_eq_zero_of_head ha]

/-- The leading run ends within the prefix before a stopper. -/
theorem countRun_append_le {c d : Char} (hd : d ≠ c) (a b : List Char) :
    countRun c (a ++ d :: b) ≤ a.length := by
  induction a with
  | nil =>
      rw [List.nil_append, countRun_eq_zero_of_head hd]
      exact Nat.le_refl _
  | cons a0 a' ih =>
      rw [List.cons_append]
      by_cases ha : a0 = c
      · subst ha
        have h1 : countRun a0 (a0 :: (a' ++ d :: b)) =
            countRun a0 (a' ++ d :: b) + 1 := by
          simp [countRun]
        rw [h1, List.length_cons]
        omega
      · rw [countRun_eq_zero_of_head ha]
        exact Nat.zero_le _

/-- The heading rule is the identity on hash-free text. -/
theorem fixHeadings_of_no_hash :
    ∀ (n : Nat) (s : List Char), s.length ≤ n → '#' ∉ s → fixHeadings s = s := by
  intro n
  induction n with
  | zero =>
      intro s hs _
      have hnil : s = [] := List.eq_nil_of_length_eq_zero (Nat.le_zero.mp hs)
      rw [hnil, fixHeadings]
  | succ n ih =>
      intro s hs hh
      cases s with
      | nil => rw [fixHeadings]
      | cons d t =>
          rw [fixHeadings, matchHeading4_eq_none_of_no_hash hh]
          dsimp only
          cases hdrop : (d :: t).drop
              (((d :: t).takeWhile (fun x => x != '\n')).length) with
          | nil =>
              dsimp only
              exact takeWhile_eq_self_of_drop_nil hdrop
          | cons c0 rest =>
              dsimp only
              have hlen2 : rest.length ≤ n := by
                have h1 := congrArg List.length hdrop
                simp only [List.length_drop, List.length_cons] at h1 hs ⊢
                omega
              have hsub : '#' ∉ rest := by
                intro hm
                apply hh
                have h2 : rest ⊆ (d :: t) := by
                  intro a ha
                  have h3 : a ∈ (d :: t).drop
                      (((d :: t).takeWhile (fun x => x != '\n')).length) := by
                    rw [hdrop]
                    exact List.mem_cons_of_mem _ ha
                  exact List.drop_subset _ _ h3
                exact h2 hm
              rw [tail_drop_eq hdrop, ih rest hlen2 hsub, ← hdrop,
                takeWhile_append_drop_length]

/-- The spacing rule is the identity on hash-free text. -/
theorem fixHashSpacing_of_no_hash :
    ∀ (n : Nat) (s : List Char), s.length ≤ n → '#' ∉ s → fixHashSpacing s = s := by
  intro n
  induction n with
  | zero =>
      intro s hs _
      have hnil : s = [] := List.eq_nil_of_length_eq_zero (Nat.le_zero.mp hs)
      rw [hnil, fixHashSpacing]
  | succ n ih =>
      intro s hs hh
      cases s with
      | nil => rw [fixHashSpacing]
      | cons d t =>
          rw [fixHashSpacing]
          have hln : fixHashLine ((d :: t).takeWhile (fun x => x != '\n')) =
              (d :: t).takeWhile (fun x => x != '\n') := by
            apply fixHashLine_of_no_hash
            intro hm
            exact hh (List.takeWhile_subset _ hm)
          cases hdrop : (d :: t).drop
              (((d :: t).takeWhile (fun x => x != '\n')).length) with
          | nil =>
              dsimp only
              rw [hln]
              exact takeWhile_eq_self_of_drop_nil hdrop
          | cons c0 rest =>
              dsimp only
              have hlen2 : rest.length ≤ n := by
                have h1 := congrArg List.length hdrop
                simp only [List.length_drop, List.length_cons] at h1 hs ⊢
                omega
              have hsub : '#' ∉ rest := by
                intro hm
                apply hh
                have h4 : rest ⊆ (d :: t) := by
                  intro a ha
                  have h5 : a ∈ (d :: t).drop
                      (((d :: t).takeWhile (fun x => x != '\n')).length) := by
                    rw [hdrop]
                    exact List.mem_cons_of_mem _ ha
                  exact List.drop_subset _ _ h5
                exact h4 hm
              rw [hln, tail_drop_eq hdrop, ih rest hlen2 hsub, ← hdrop,
                takeWhile_append_drop_length]

/-- A text the heading scan accepts is a fixed point of the heading rule. -/
theorem fixHeadings_eq_self_of_noHeadingSite :
    ∀ (n : Nat) (s : List Char), s.length ≤ n → noHeadingSite s = true →
      fixHeadings s = s := by
  intro n
  induction n with
  | zero =>
      intro s hs _
      have hnil : s = [] := List.eq_nil_of_length_eq_zero (Nat.le_zero.mp hs)
      rw [hnil, fixHeadings]
  | succ n ih =>
      intro s hs hscan
      cases s with
      | nil => rw [fixHeadings]
      | cons d t =>
          rw [noHeadingSite] at hscan
          cases hm : matchHeading4 (d :: t) with
          | some v =>
              rw [hm] at hscan
              simp at hscan
          | none =>
              rw [hm] at hscan
              rw [fixHeadings, hm]
              dsimp only at hscan ⊢
              cases hdrop : (d :: t).drop
                  (((d :: t).takeWhile (fun x => x != '\n')).length) with
              | nil =>
                  dsimp only
                  exact takeWhile_eq_self_of_drop_nil hdrop
              | cons c0 rest =>
                  rw [hdrop] at hscan
                  dsimp only at hscan ⊢
                  have hlen2 : rest.length ≤ n := by
                    have h1 := congrArg List.length hdrop
                    simp only [List.length_drop, List.length_cons] at h1 hs ⊢
                    omega
                  rw [tail_drop_eq hdrop] at hscan ⊢
                  rw [ih rest hlen2 hscan, ← hdrop, takeWhile_append_drop_length]

/-- Why an anchored heading match fails: too few hashes, a non-whitespace
character right after them, or whitespace running to the end of the text. -/
theorem matchHeading4_none_inv {s : List Char} (h : matchHeading4 s = none) :
    countRun '#' s < 4 ∨
    ((s.drop (countRun '#' s)).takeWhile isPySpace).length = 0 ∨
    (s.drop (countRun '#' s)).takeWhile isPySpace = s.drop (countRun '#' s) := by
  simp only [matchHeading4] at h
  by_cases h4 : countRun '#' s < 4
  · exact Or.inl h4
  · rw [if_neg h4] at h
    by_cases hw : ((s.drop (countRun '#' s)).takeWhile isPySpace).length = 0
    · exact Or.inr (Or.inl hw)
    · rw [if_neg hw] at h
      right
      right
      by_cases ha : ((s.drop (countRun '#' s)).drop
          (((s.drop (countRun '#' s)).takeWhile isPySpace).length)).length = 0
      · exact takeWhile_eq_self_of_drop_nil (List.length_eq_zero.mp ha)
      · rw [if_neg ha] at h
        exact absurd h (by simp)

/-- An anchored heading non-match at a line survives any change of the text
beyond the following newline, provided an all-whitespace tail stays put. -/
theorem matchHeading4_none_line_transfer {ln rest1 rest2 : List Char}
    (h : matchHeading4 (ln ++ '\n' :: rest1) = none)
    (hws : ((ln ++ '\n' :: rest1).drop
        (countRun '#' (ln ++ '\n' :: rest1))).takeWhile isPySpace =
        (ln ++ '\n' :: rest1).drop (countRun '#' (ln ++ '\n' :: rest1)) →
        rest2 = rest1) :
    matchHeading4 (ln ++ '\n' :: rest2) = none := by
  have hcnt : countRun '#' (ln ++ '\n' :: rest2) =
      countRun '#' (ln ++ '\n' :: rest1) :=
    countRun_append_two_tails (by decide) ln rest2 rest1
  have hkle : countRun '#' (ln ++ '\n' :: rest1) ≤ ln.length :=
    countRun_append_le (by decide) ln rest1
  rcases matchHeading4_none_inv h with h4 | hw0 | hall
  · apply matchHeading4_eq_none_of_short
    rw [hcnt]
    exact h4
  · apply matchHeading4_eq_none_of_w0
    rw [hcnt]
    have hd1 : (ln ++ '\n' :: rest1).drop (countRun '#' (ln ++ '\n' :: rest1)) =
        ln.drop (countRun '#' (ln ++ '\n' :: rest1)) ++ '\n' :: rest1 :=
      List.drop_append_of_le_length hkle
    have hd2 : (ln ++ '\n' :: rest2).drop (countRun '#' (ln ++ '\n' :: rest1)) =
        ln.drop (countRun '#' (ln ++ '\n' :: rest1)) ++ '\n' :: rest2 :=
      List.drop_append_of_le_length hkle
    rw [hd1] at hw0
    rw [hd2]
    cases hlnk : ln.drop (countRun '#' (ln ++ '\n' :: rest1)) with
    | nil =>
        rw [hlnk, List.nil_append, List.takeWhile_cons_of_pos (by decide)] at hw0
        simp at hw0
    | cons h0 u =>
        rw [hlnk] at hw0
        by_cases hp : isPySpace h0 = true
        · rw [List.cons_append, List.takeWhile_cons_of_pos hp] at hw0
          simp at hw0
        · rw [List.cons_append, List.takeWhile_cons_of_neg hp]
          rfl
  · rw [hws hall]
    exact h

/-- The element right after a `dropWhile` fails the predicate. -/
theorem dropWhile_head_not (p : Char → Bool) (l : List Char) :
    l.dropWhile p = [] ∨ ∃ d t', l.dropWhile p = d :: t' ∧ p d = false := by
  induction l with
  | nil => exact Or.inl rfl
  | cons d t ih =>
      rw [List.dropWhile_cons]
      by_cases hd : p d = true
      · rw [if_pos hd]
        exact ih
      · rw [if_neg hd]
        exact Or.inr ⟨d, t, rfl, by simpa using hd⟩

/-- Splitting one drop into two. -/
theorem drop_add (a b : Nat) (l : List Char) : l.drop (a + b) = (l.drop a).drop b := by
  rw [List.drop_drop, Nat.add_comm]

/-- What a successful anchored heading match guarantees: the captured group
has no newline and the match ends exactly at a line end. -/
theorem matchHeading4_some_inv {s g2 : List Char} {mlen : Nat}
    (h : matchHeading4 s = some (g2, mlen)) :
    '\n' ∉ g2 ∧ (s.drop mlen = [] ∨ ∃ rest', s.drop mlen = '\n' :: rest') := by
  simp only [matchHeading4] at h
  set k := countRun '#' s with hk
  set R := s.drop k with hRdef
  set W := R.takeWhile isPySpace with hWdef
  by_cases h4 : k < 4
  · rw [if_pos h4] at h
    exact absurd h (by simp)
  · rw [if_neg h4] at h
    by_cases hw : W.length = 0
    · rw [if_pos hw] at h
      exact absurd h (by simp)
    · rw [if_neg hw] at h
      by_cases ha : (R.drop W.length).length = 0
      · rw [if_pos ha] at h
        have hweq : W = R := takeWhile_eq_self_of_drop_nil (List.length_eq_zero.mp ha)
        set T := W.reverse.takeWhile (fun x => x == '\n') with hTdef
        have hTD := takeWhile_append_drop_length (fun x => x == '\n') W.reverse
        rw [drop_length_takeWhile, ← hTdef] at hTD
        by_cases h2 : 2 ≤ (W.take (W.length - T.length)).length
        · rw [if_pos h2] at h
          injection h with h
          injection h with hg hm
          rcases dropWhile_head_not (fun x => x == '\n') W.reverse with hD | ⟨r0, D', hD, hr0⟩
          · exfalso
            rw [hD, List.append_nil] at hTD
            rw [show W.length - T.length = 0 from by rw [hTD]; simp] at h2
            simp at h2
          · rw [hD] at hTD
            have hWsplit : W = (r0 :: D').reverse ++ T.reverse := by
              rw [← List.reverse_append, hTD, List.reverse_reverse]
            have hlenW : W.length = T.length + (D'.length + 1) := by
              rw [hWsplit]
              simp [List.length_append, List.length_reverse]
              omega
            have hwKeep : W.take (W.length - T.length) = (r0 :: D').reverse := by
              rw [hWsplit]
              rw [show ((r0 :: D').reverse ++ T.reverse).length - T.length =
                  ((r0 :: D').reverse).length from by
                simp only [List.length_append, List.length_reverse, List.length_cons]
                omega]
              exact List.take_left _ _
            have hg2 : g2 = [r0] := by
              rw [← hg, hwKeep]
              have hrev : (r0 :: D').reverse = D'.reverse ++ [r0] := by
                simp [List.reverse_cons]
              rw [hrev]
              rw [show (D'.reverse ++ [r0]).length - 1 = D'.reverse.length from by
                simp [List.length_append]]
              exact List.drop_left _ _
            constructor
            · rw [hg2]
              intro hm2
              rcases List.mem_cons.mp hm2 with he | he
              · rw [he] at hr0
                simp at hr0
              · simp at he
            · rw [← hm, drop_add, ← hRdef, ← hweq, hwKeep, hWsplit]
              rw [show ((r0 :: D').reverse ++ T.reverse).drop ((r0 :: D').reverse.length) =
                T.reverse from List.drop_left _ _]
              cases hTrev : T.reverse with
              | nil => exact Or.inl rfl
              | cons a z =>
                  right
                  refine ⟨z, ?_⟩
                  have ha2 : a ∈ T := by
                    rw [← List.mem_reverse, hTrev]
                    exact List.mem_cons_self _ _
                  have ha3 : a = '\n' := by
                    have := List.mem_takeWhile_imp ha2
                    simpa using this
                  rw [ha3]
        · rw [if_neg h2] at h
          exact absurd h (by simp)
      · rw [if_neg ha] at h
        injection h with h
        injection h with hg hm
        constructor
        · rw [← hg]
          exact not_mem_takeWhile_ne '\n' _
        · rw [← hm]
          rw [show k + W.length + ((R.drop W.length).takeWhile
              (fun x => x != '\n')).length =
              k + (W.length + ((R.drop W.length).takeWhile
                (fun x => x != '\n')).length) from by omega]
          rw [drop_add, ← hRdef, drop_add, hWdef, drop_length_takeWhile]
          exact dropWhile_ne_head '\n' _

/-- The heading scan accepts a newline-free text whose anchored match
fails. -/
theorem noHeadingSite_single_line {u : List Char} (hnl : '\n' ∉ u)
    (hm : matchHeading4 u = none) : noHeadingSite u = true := by
  cases u with
  | nil => rw [noHeadingSite]
  | cons d t =>
      rw [noHeadingSite, hm]
      dsimp only
      have htw : (d :: t).takeWhile (fun x => x != '\n') = d :: t := by
        rw [List.takeWhile_eq_self_iff]
        intro x hx
        simp only [bne_iff_ne, ne_eq]
        exact fun he => hnl (he ▸ hx)
      rw [htw, List.drop_length]

/-- The heading scan accepts a line glued onto an accepted tail when the
anchored match fails at the line start. -/
theorem noHeadingSite_line_append {g X : List Char}
    (hnl : '\n' ∉ g) (hm : matchHeading4 (g ++ '\n' :: X) = none)
    (hX : noHeadingSite X = true) : noHeadingSite (g ++ '\n' :: X) = true := by
  cases g with
  | nil =>
      rw [List.nil_append] at hm ⊢
      rw [noHeadingSite, hm]
      dsimp only
      rw [List.takeWhile_cons_of_neg (by simp), List.length_nil, List.drop_zero]
      dsimp only
      rw [List.drop_zero]
      exact hX
  | cons g0 g' =>
      rw [List.cons_append] at hm ⊢
      rw [noHeadingSite, hm]
      dsimp only
      have hnl' : '\n' ∉ g0 :: g' := hnl
      have htw : (g0 :: (g' ++ '\n' :: X)).takeWhile (fun x => x != '\n') =
          g0 :: g' := by
        rw [← List.cons_append]
        exact takeWhile_ne_append_eq hnl' (Or.inr ⟨X, rfl⟩)
      rw [htw]
      have hdrop : (g0 :: (g' ++ '\n' :: X)).drop (g0 :: g').length = '\n' :: X := by
        rw [← List.cons_append]
        exact List.drop_left _ _
      rw [hdrop]
      dsimp only
      rw [tail_drop_eq hdrop]
      exact hX

/-- One pass of the heading rule leaves no anchored heading match at any
line start. -/
theorem noHeadingSite_fixHeadings :
    ∀ (n : Nat) (s : List Char), s.length ≤ n →
      noHeadingSite (fixHeadings s) = true := by
  intro n
  induction n with
  | zero =>
      intro s hs
      have hnil : s = [] := List.eq_nil_of_length_eq_zero (Nat.le_zero.mp hs)
      rw [hnil, fixHeadings, noHeadingSite]
  | succ n ih =>
      intro s hs
      cases s with
      | nil => rw [fixHeadings, noHeadingSite]
      | cons d t =>
          rw [fixHeadings]
          cases hm : matchHeading4 (d :: t) with
          | some v =>
              obtain ⟨g2, mlen⟩ := v
              dsimp only
              obtain ⟨hg2, hrest⟩ := matchHeading4_some_inv hm
              have hnlg : '\n' ∉ ("**".data ++ g2) ++ "**".data := by
                intro hmem
                rcases List.mem_append.mp hmem with hmem | hmem
                · rcases List.mem_append.mp hmem with hmem | hmem
                  · simp at hmem
                  · exact hg2 hmem
                · simp at hmem
              cases hdrop : (d :: t).drop mlen with
              | nil =>
                  dsimp only
                  rw [List.append_nil]
                  apply noHeadingSite_single_line hnlg
                  apply matchHeading4_eq_none_of_short
                  rw [show ("**".data ++ g2) ++ "**".data =
                    '*' :: ('*' :: (g2 ++ "**".data)) from by simp]
                  rw [countRun_eq_zero_of_head (by decide)]
                  omega
              | cons c0 rest =>
                  dsimp only
                  have hc0 : c0 = '\n' := by
                    rcases hrest with hnil2 | ⟨rest', hr⟩
                    · rw [hdrop] at hnil2
                      exact absurd hnil2 (by simp)
                    · rw [hdrop] at hr
                      injection hr with h1 h2
                  subst hc0
                  have hlen2 : rest.length ≤ n := by
                    have h1 := congrArg List.length hdrop
                    simp only [List.length_drop, List.length_cons] at h1 hs ⊢
                    omega
                  rw [tail_drop_eq hdrop]
                  apply noHeadingSite_line_append hnlg
                  · apply matchHeading4_eq_none_of_short
                    rw [show "**".data ++ g2 ++ "**".data ++ '\n' :: fixHeadings rest =
                      '*' :: ('*' :: (g2 ++ "**".data ++ '\n' :: fixHeadings rest))
                      from by simp]
                    rw [countRun_eq_zero_of_head (by decide)]
                    omega
                  · exact ih rest hlen2
          | none =>
              dsimp only
              cases hdrop : (d :: t).drop
                  (((d :: t).takeWhile (fun x => x != '\n')).length) with
              | nil =>
                  dsimp only
                  have hlne : (d :: t).takeWhile (fun x => x != '\n') = d :: t :=
                    takeWhile_eq_self_of_drop_nil hdrop
                  apply noHeadingSite_single_line
                  · intro hmem
                    have h2 := List.mem_takeWhile_imp hmem
                    simp at h2
                  · rw [hlne]
                    exact hm
              | cons c0 rest =>
                  dsimp only
                  have hc0 : c0 = '\n' := by
                    have h2 := dropWhile_ne_head '\n' (d :: t)
                    rw [← drop_length_takeWhile, hdrop] at h2
                    rcases h2 with h2 | ⟨t', h2⟩
                    · exact absurd h2 (by simp)
                    · injection h2 with h3 h4
                  subst hc0
                  have hreste : rest = t.drop
                      (((d :: t).takeWhile (fun x => x != '\n')).length) :=
                    (tail_drop_eq hdrop).symm
                  have hre : (d :: t).takeWhile (fun x => x != '\n') ++
                      '\n' :: rest = d :: t := by
                    have h0 := takeWhile_append_drop_length (fun x => x != '\n') (d :: t)
                    rw [hdrop] at h0
                    exact h0
                  have hnlln : '\n' ∉ (d :: t).takeWhile (fun x => x != '\n') := by
                    intro hmem
                    have h2 := List.mem_takeWhile_imp hmem
                    simp at h2
                  have hlen2 : rest.length ≤ n := by
                    have h1 := congrArg List.length hdrop
                    simp only [List.length_drop, List.length_cons] at h1 hs ⊢
                    omega
                  rw [tail_drop_eq hdrop]
                  apply noHeadingSite_line_append hnlln
                  · apply matchHeading4_none_line_transfer
                    · rw [hre]
                      exact hm
                    · intro hall
                      apply fixHeadings_of_no_hash _ _ (Nat.le_refl _)
                      intro hmem
                      have hk := countRun_append_le (show '\n' ≠ '#' from by decide)
                        ((d :: t).takeWhile (fun x => x != '\n')) rest
                      have hdropS : ((d :: t).takeWhile (fun x => x != '\n') ++
                          '\n' :: rest).drop
                          (((d :: t).takeWhile (fun x => x != '\n')).length + 1) =
                          rest := by
                        rw [drop_add, List.drop_left]
                        simp
                      have hsub2 : rest = (((d :: t).takeWhile (fun x => x != '\n') ++
                          '\n' :: rest).drop
                          (countRun '#' ((d :: t).takeWhile (fun x => x != '\n') ++
                            '\n' :: rest))).drop
                          ((((d :: t).takeWhile (fun x => x != '\n')).length + 1) -
                            countRun '#' ((d :: t).takeWhile (fun x => x != '\n') ++
                              '\n' :: rest)) := by
                        rw [← drop_add, show countRun '#'
                            ((d :: t).takeWhile (fun x => x != '\n') ++ '\n' :: rest) +
                            ((((d :: t).takeWhile (fun x => x != '\n')).length + 1) -
                              countRun '#' ((d :: t).takeWhile (fun x => x != '\n') ++
                                '\n' :: rest)) =
                            (((d :: t).takeWhile (fun x => x != '\n')).length + 1)
                          from by omega, hdropS]
                      rw [hsub2] at hmem
                      have hmem2 := List.drop_subset _ _ hmem
                      rw [← hall] at hmem2
                      have h3 := List.mem_takeWhile_imp hmem2
                      exact absurd h3 (by decide)
                  · exact ih rest hlen2

/-- The spacing fix of a single line: either untouched, or a short hash run
followed by a two-plus-character remainder gains a space. -/
theorem fixHashLine_cases (ln : List Char) :
    fixHashLine ln = ln ∨
    ∃ (k : Nat) (c0 e0 : Char) (r : List Char), 1 ≤ k ∧ k ≤ 3 ∧
      ln = List.replicate k '#' ++ c0 :: e0 :: r ∧
      isPySpace c0 = false ∧ c0 ≠ '#' ∧
      fixHashLine ln = List.replicate k '#' ++ ' ' :: c0 :: e0 :: r := by
  unfold fixHashLine
  by_cases h13 : 1 ≤ countRun '#' ln ∧ countRun '#' ln ≤ 3
  · rw [if_pos h13]
    cases hdrop : ln.drop (countRun '#' ln) with
    | nil => exact Or.inl rfl
    | cons c0 tl =>
        cases tl with
        | nil => exact Or.inl rfl
        | cons e0 r =>
            dsimp only
            by_cases hc : (isPySpace c0 || c0 = '#') = true
            · rw [if_pos hc]
              exact Or.inl rfl
            · rw [if_neg hc]
              right
              simp only [Bool.or_eq_true, decide_eq_true_eq, not_or] at hc
              refine ⟨countRun '#' ln, c0, e0, r, h13.1, h13.2, ?_,
                by simpa using hc.1, hc.2, rfl⟩
              rw [← hdrop, replicate_countRun_append]
  · rw [if_neg h13]
    exact Or.inl rfl

/-- The spacing fix never introduces a newline. -/
theorem fixHashLine_no_newline {ln : List Char} (h : '\n' ∉ ln) :
    '\n' ∉ fixHashLine ln := by
  rcases fixHashLine_cases ln with he | ⟨k, c0, e0, r, hk1, hk3, hdecomp, hc0, hch, he⟩
  · rw [he]
    exact h
  · rw [he]
    intro hmem
    rcases List.mem_append.mp hmem with hmem | hmem
    · exact absurd (List.eq_of_mem_replicate hmem) (by decide)
    · rcases List.mem_cons.mp hmem with he2 | hmem2
      · exact absurd he2 (by decide)
      · apply h
        rw [hdecomp]
        exact List.mem_append_right _ hmem2

/-- The spacing pass never creates an anchored heading match: the heading
scan is preserved. -/
theorem noHeadingSite_fixHashSpacing :
    ∀ (n : Nat) (s : List Char), s.length ≤ n → noHeadingSite s = true →
      noHeadingSite (fixHashSpacing s) = true := by
  intro n
  induction n with
  | zero =>
      intro s hs _
      have hnil : s = [] := List.eq_nil_of_length_eq_zero (Nat.le_zero.mp hs)
      rw [hnil, fixHashSpacing, noHeadingSite]
  | succ n ih =>
      intro s hs hscan
      cases s with
      | nil => rw [fixHashSpacing, noHeadingSite]
      | cons d t =>
          rw [noHeadingSite] at hscan
          cases hm : matchHeading4 (d :: t) with
          | some v =>
              rw [hm] at hscan
              simp at hscan
          | none =>
              rw [hm] at hscan
              dsimp only at hscan
              rw [fixHashSpacing]
              have hnlln : '\n' ∉ (d :: t).takeWhile (fun x => x != '\n') := by
                intro hmem
                have h2 := List.mem_takeWhile_imp hmem
                simp at h2
              cases hdrop : (d :: t).drop
                  (((d :: t).takeWhile (fun x => x != '\n')).length) with
              | nil =>
                  dsimp only
                  have hlne : (d :: t).takeWhile (fun x => x != '\n') = d :: t :=
                    takeWhile_eq_self_of_drop_nil hdrop
                  apply noHeadingSite_single_line (fixHashLine_no_newline hnlln)
                  rcases fixHashLine_cases ((d :: t).takeWhile (fun x => x != '\n')) with
                    he | ⟨k, c0, e0, r, hk1, hk3, hdecomp, hc0, hch, he⟩
                  · rw [he, hlne]
                    exact hm
                  · rw [he]
                    apply matchHeading4_eq_none_of_short
                    rw [countRun_replicate_append_cond
                      (Or.inr ⟨' ', c0 :: e0 :: r, rfl, by decide⟩) k]
                    omega
              | cons c0 rest =>
                  dsimp only
                  have hc0 : c0 = '\n' := by
                    have h2 := dropWhile_ne_head '\n' (d :: t)
                    rw [← drop_length_takeWhile, hdrop] at h2
                    rcases h2 with h2 | ⟨t', h2⟩
                    · exact absurd h2 (by simp)
                    · injection h2 with h3 h4
                  subst hc0
                  have hre : (d :: t).takeWhile (fun x => x != '\n') ++
                      '\n' :: rest = d :: t := by
                    have h0 := takeWhile_append_drop_length (fun x => x != '\n') (d :: t)
                    rw [hdrop] at h0
                    exact h0
                  have hlen2 : rest.length ≤ n := by
                    have h1 := congrArg List.length hdrop
                    simp only [List.length_drop, List.length_cons] at h1 hs ⊢
                    omega
                  rw [hdrop] at hscan
                  dsimp only at hscan
                  rw [tail_drop_eq hdrop] at hscan ⊢
                  have hXscan : noHeadingSite (fixHashSpacing rest) = true :=
                    ih rest hlen2 hscan
                  have hnlfix : '\n' ∉ fixHashLine
                      ((d :: t).takeWhile (fun x => x != '\n')) :=
                    fixHashLine_no_newline hnlln
                  apply noHeadingSite_line_append hnlfix _ hXscan
                  rcases fixHashLine_cases ((d :: t).takeWhile (fun x => x != '\n')) with
                    he | ⟨k, c0', e0, r, hk1, hk3, hdecomp, hc0', hch, he⟩
                  · rw [he]
                    apply matchHeading4_none_line_transfer
                    · rw [hre]
                      exact hm
                    · intro hall
                      apply fixHashSpacing_of_no_hash _ _ (Nat.le_refl _)
                      intro hmem
                      have hk := countRun_append_le (show '\n' ≠ '#' from by decide)
                        ((d :: t).takeWhile (fun x => x != '\n')) rest
                      have hdropS : ((d :: t).takeWhile (fun x => x != '\n') ++
                          '\n' :: rest).drop
                          (((d :: t).takeWhile (fun x => x != '\n')).length + 1) =
                          rest := by
                        rw [drop_add, List.drop_left]
                        simp
                      have hsub2 : rest = (((d :: t).takeWhile (fun x => x != '\n') ++
                          '\n' :: rest).drop
                          (countRun '#' ((d :: t).takeWhile (fun x => x != '\n') ++
                            '\n' :: rest))).drop
                          ((((d :: t).takeWhile (fun x => x != '\n')).length + 1) -
                            countRun '#' ((d :: t).takeWhile (fun x => x != '\n') ++
                              '\n' :: rest)) := by
                        rw [← drop_add, show countRun '#'
                            ((d :: t).takeWhile (fun x => x != '\n') ++ '\n' :: rest) +
                            ((((d :: t).takeWhile (fun x => x != '\n')).length + 1) -
                              countRun '#' ((d :: t).takeWhile (fun x => x != '\n') ++
                                '\n' :: rest)) =
                            (((d :: t).takeWhile (fun x => x != '\n')).length + 1)
                          from by omega, hdropS]
                      rw [hsub2] at hmem
                      have hmem2 := List.drop_subset _ _ hmem
                      rw [← hall] at hmem2
                      have h3 := List.mem_takeWhile_imp hmem2
                      exact absurd h3 (by decide)
                  · rw [he]
                    apply matchHeading4_eq_none_of_short
                    rw [List.append_assoc, List.cons_append]
                    rw [countRun_replicate_append_cond
                      (Or.inr ⟨' ', _, rfl, by decide⟩) k]
                    omega

/-- Shrinking marker runs (the marker being no hash, no whitespace) cannot
turn a failing anchored heading match into a success. -/
theorem matchHeading4_none_of_Shrinks {c : Char} (hch : c ≠ '#')
    (hcw : isPySpace c = false) {u v : List Char} (h : Shrinks c u v)
    (hm : matchHeading4 u = none) : matchHeading4 v = none := by
  rcases matchHeading4_none_inv hm with h4 | hw0 | hall
  · apply matchHeading4_eq_none_of_short
    rw [← Shrinks_countRun (fun he => hch he.symm) h]
    exact h4
  · apply matchHeading4_eq_none_of_w0
    have hAR := @Shrinks_drop_countRun c '#' u v h
    have hrel := (Shrinks_takeWhile_dropWhile isPySpace hAR).1
    have hu0 : (u.drop (countRun '#' u)).takeWhile isPySpace = [] :=
      List.length_eq_zero.mp hw0
    rw [hu0] at hrel
    have hv0 : (v.drop (countRun '#' v)).takeWhile isPySpace = [] :=
      (Shrinks_nil_iff hrel).mp rfl
    rw [hv0]
    rfl
  · have hcu : c ∉ u := by
      intro hmem
      rw [← replicate_countRun_append '#' u] at hmem
      rcases List.mem_append.mp hmem with hmem | hmem
      · exact hch (List.eq_of_mem_replicate hmem)
      · rw [← hall] at hmem
        have h2 := List.mem_takeWhile_imp hmem
        rw [hcw] at h2
        exact Bool.noConfusion h2
    rw [Shrinks_eq_of_not_mem hcu h]
    exact hm

/-- Shrinking marker runs of a non-hash, non-whitespace, non-newline marker
preserves the heading scan. -/
theorem noHeadingSite_of_Shrinks {c : Char} (hch : c ≠ '#')
    (hcw : isPySpace c = false) (hcn : c ≠ '\n') :
    ∀ (n : Nat) (x y : List Char), x.length ≤ n → Shrinks c x y →
      noHeadingSite x = true → noHeadingSite y = true := by
  intro n
  induction n with
  | zero =>
      intro x y hx hshr _
      have hnil : x = [] := List.eq_nil_of_length_eq_zero (Nat.le_zero.mp hx)
      subst hnil
      rw [(Shrinks_nil_iff hshr).mp rfl, noHeadingSite]
  | succ n ih =>
      intro x y hx hshr hscan
      cases x with
      | nil =>
          rw [(Shrinks_nil_iff hshr).mp rfl, noHeadingSite]
      | cons d t =>
          cases y with
          | nil => exact absurd ((Shrinks_nil_iff hshr).mpr rfl) (by simp)
          | cons d' ty =>
              have hdd : d = d' := by
                have h := Shrinks_head_eq hshr
                simpa using h
              subst hdd
              rw [noHeadingSite] at hscan
              cases hm : matchHeading4 (d :: t) with
              | some v =>
                  rw [hm] at hscan
                  simp at hscan
              | none =>
                  rw [hm] at hscan
                  dsimp only at hscan
                  have hmy := matchHeading4_none_of_Shrinks hch hcw hshr hm
                  rw [noHeadingSite, hmy]
                  dsimp only
                  have hrelLn := Shrinks_takeWhile_dropWhile (fun x => x != '\n') hshr
                  cases hdw : (d :: t).dropWhile (fun x => x != '\n') with
                  | nil =>
                      have hdwy : (d :: ty).dropWhile (fun x => x != '\n') = [] := by
                        have h2 := hrelLn.2
                        rw [hdw] at h2
                        exact (Shrinks_nil_iff h2).mp rfl
                      rw [show (d :: ty).drop
                          (((d :: ty).takeWhile (fun x => x != '\n')).length) =
                          (d :: ty).dropWhile (fun x => x != '\n')
                        from drop_length_takeWhile _ _, hdwy]
                  | cons c0 restx =>
                      have hc0 : c0 = '\n' := by
                        rcases dropWhile_ne_head '\n' (d :: t) with h2 | ⟨t', h2⟩
                        · rw [hdw] at h2
                          exact absurd h2 (by simp)
                        · rw [hdw] at h2
                          injection h2 with h3 h4
                      subst hc0
                      have h2 := hrelLn.2
                      rw [hdw] at h2
                      obtain ⟨resty, hdwy, hrelRest⟩ :=
                        Shrinks_cons_inv (fun he => hcn he.symm) h2
                      have hdx : (d :: t).drop
                          (((d :: t).takeWhile (fun x => x != '\n')).length) =
                          '\n' :: restx := by
                        rw [drop_length_takeWhile]
                        exact hdw
                      have hdy : (d :: ty).drop
                          (((d :: ty).takeWhile (fun x => x != '\n')).length) =
                          '\n' :: resty := by
                        rw [drop_length_takeWhile]
                        exact hdwy
                      rw [hdx] at hscan
                      dsimp only at hscan
                      rw [tail_drop_eq hdx] at hscan
                      rw [hdy]
                      dsimp only
                      rw [tail_drop_eq hdy]
                      have hlen2 : restx.length ≤ n := by
                        have h1 := congrArg List.length hdx
                        simp only [List.length_drop, List.length_cons] at h1 hx ⊢
                        omega
                      exact ih restx resty hlen2 hrelRest hscan

/-- A fixed line stays fixed: the spacing fix is idempotent per line. -/
theorem fixHashLine_fixHashLine (ln : List Char) :
    fixHashLine (fixHashLine ln) = fixHashLine ln := by
  rcases fixHashLine_cases ln with he | ⟨k, c0, e0, r, hk1, hk3, hdecomp, hc0, hch, he⟩
  · rw [he]
    exact he
  · rw [he]
    unfold fixHashLine
    rw [countRun_replicate_append_cond (Or.inr ⟨' ', c0 :: e0 :: r, rfl, by decide⟩) k,
      if_pos (⟨hk1, hk3⟩ : 1 ≤ k ∧ k ≤ 3), drop_replicate_append]
    dsimp only
    rw [if_pos (by decide : (isPySpace ' ' || decide (' ' = '#')) = true)]

/-- A line the spacing fix leaves alone stays untouched after shrinking a
non-hash, non-whitespace marker. -/
theorem fixHashLine_eq_self_of_Shrinks {c : Char} (hch : c ≠ '#')
    {lnx lny : List Char} (h : Shrinks c lnx lny)
    (hfix : fixHashLine lnx = lnx) : fixHashLine lny = lny := by
  rcases fixHashLine_cases lny with he | ⟨k, c0, e0, r, hk1, hk3, hdecomp, hc0, hc0h, he⟩
  · exact he
  · exfalso
    have hcnt : countRun '#' lnx = countRun '#' lny :=
      Shrinks_countRun (fun he2 => hch he2.symm) h
    have hcnty : countRun '#' lny = k := by
      rw [hdecomp]
      exact countRun_replicate_append_cond (Or.inr ⟨c0, e0 :: r, rfl, hc0h⟩) k
    have hAR := @Shrinks_drop_countRun c '#' lnx lny h
    rw [hcnt, hcnty] at hAR
    have hdropy : lny.drop k = c0 :: e0 :: r := by
      rw [hdecomp]
      exact drop_replicate_append '#' _ k
    rw [hdropy] at hAR
    cases hx : lnx.drop k with
    | nil =>
        rw [hx] at hAR
        exact absurd ((Shrinks_nil_iff hAR).mp rfl) (by simp)
    | cons c0' tx =>
        rw [hx] at hAR
        have hc0e : c0' = c0 := by
          have h3 := Shrinks_head_eq hAR
          simpa using h3
        subst hc0e
        cases tx with
        | nil =>
            have h4 := Shrinks_length_le hAR
            simp only [List.length_cons, List.length_nil] at h4
            omega
        | cons e0' rx =>
            have hxk : countRun '#' lnx = k := by rw [hcnt, hcnty]
            have hlnxdecomp : lnx = List.replicate k '#' ++ c0' :: e0' :: rx := by
              rw [← hx, ← hxk]
              exact (replicate_countRun_append '#' lnx).symm
            have hfires : fixHashLine lnx =
                List.replicate k '#' ++ ' ' :: c0' :: e0' :: rx := by
              unfold fixHashLine
              rw [hxk, if_pos (⟨hk1, hk3⟩ : 1 ≤ k ∧ k ≤ 3), hx]
              dsimp only
              rw [if_neg (by simp [hc0, hc0h])]
            rw [hfix] at hfires
            have h5 := congrArg List.length hfires
            rw [hlnxdecomp] at h5
            simp only [List.length_append, List.length_replicate, List.length_cons] at h5
            omega

/-- The spacing scan accepts a fixed newline-free line. -/
theorem noSpacingSite_single_line {u : List Char} (hnl : '\n' ∉ u)
    (hfix : fixHashLine u = u) : noSpacingSite u = true := by
  cases u with
  | nil => rw [noSpacingSite]
  | cons d t =>
      rw [noSpacingSite]
      have htw : (d :: t).takeWhile (fun x => x != '\n') = d :: t := by
        rw [List.takeWhile_eq_self_iff]
        intro x hx
        simp only [bne_iff_ne, ne_eq]
        exact fun he => hnl (he ▸ hx)
      rw [htw, List.drop_length]
      simp [hfix]

/-- The spacing scan accepts a fixed line glued onto an accepted tail. -/
theorem noSpacingSite_line_append {g X : List Char}
    (hnl : '\n' ∉ g) (hfix : fixHashLine g = g) (hX : noSpacingSite X = true) :
    noSpacingSite (g ++ '\n' :: X) = true := by
  cases g with
  | nil =>
      rw [List.nil_append, noSpacingSite]
      rw [List.takeWhile_cons_of_neg (by simp), List.length_nil, List.drop_zero]
      dsimp only
      rw [List.drop_zero]
      simp only [Bool.and_eq_true]
      refine ⟨?_, hX⟩
      rw [show fixHashLine [] = ([] : List Char) from by decide]
      rfl
  | cons g0 g' =>
      rw [List.cons_append, noSpacingSite]
      have hnl' : '\n' ∉ g0 :: g' := hnl
      have htw : (g0 :: (g' ++ '\n' :: X)).takeWhile (fun x => x != '\n') =
          g0 :: g' := by
        rw [← List.cons_append]
        exact takeWhile_ne_append_eq hnl' (Or.inr ⟨X, rfl⟩)
      rw [htw]
      have hdrop : (g0 :: (g' ++ '\n' :: X)).drop (g0 :: g').length = '\n' :: X := by
        rw [← List.cons_append]
        exact List.drop_left _ _
      rw [hdrop]
      dsimp only
      rw [tail_drop_eq hdrop]
      simp only [Bool.and_eq_true]
      exact ⟨by rw [hfix]; exact beq_self_eq_true _, hX⟩

/-- A text the spacing scan accepts is a fixed point of the spacing pass. -/
theorem fixHashSpacing_eq_self_of_noSpacingSite :
    ∀ (n : Nat) (s : List Char), s.length ≤ n → noSpacingSite s = true →
      fixHashSpacing s = s := by
  intro n
  induction n with
  | zero =>
      intro s hs _
      have hnil : s = [] := List.eq_nil_of_length_eq_zero (Nat.le_zero.mp hs)
      rw [hnil, fixHashSpacing]
  | succ n ih =>
      intro s hs hscan
      cases s with
      | nil => rw [fixHashSpacing]
      | cons d t =>
          rw [noSpacingSite] at hscan
          simp only [Bool.and_eq_true] at hscan
          obtain ⟨heq, hrest⟩ := hscan
          have heq2 : fixHashLine ((d :: t).takeWhile (fun x => x != '\n')) =
              (d :: t).takeWhile (fun x => x != '\n') := by
            exact beq_iff_eq.mp heq
          rw [fixHashSpacing]
          cases hdrop : (d :: t).drop
              (((d :: t).takeWhile (fun x => x != '\n')).length) with
          | nil =>
              dsimp only
              rw [heq2]
              exact takeWhile_eq_self_of_drop_nil hdrop
          | cons c0 rest =>
              dsimp only
              rw [hdrop] at hrest
              dsimp only at hrest
              have hlen2 : rest.length ≤ n := by
                have h1 := congrArg List.length hdrop
                simp only [List.length_drop, List.length_cons] at h1 hs ⊢
                omega
              rw [tail_drop_eq hdrop] at hrest ⊢
              rw [heq2, ih rest hlen2 hrest, ← hdrop, takeWhile_append_drop_length]

/-- One pass of the spacing rule leaves no line in need of fixing. -/
theorem noSpacingSite_fixHashSpacing :
    ∀ (n : Nat) (s : List Char), s.length ≤ n →
      noSpacingSite (fixHashSpacing s) = true := by
  intro n
  induction n with
  | zero =>
      intro s hs
      have hnil : s = [] := List.eq_nil_of_length_eq_zero (Nat.le_zero.mp hs)
      rw [hnil, fixHashSpacing, noSpacingSite]
  | succ n ih =>
      intro s hs
      cases s with
      | nil => rw [fixHashSpacing, noSpacingSite]
      | cons d t =>
          rw [fixHashSpacing]
          have hnlln : '\n' ∉ (d :: t).takeWhile (fun x => x != '\n') := by
            intro hmem
            have h2 := List.mem_takeWhile_imp hmem
            simp at h2
          cases hdrop : (d :: t).drop
              (((d :: t).takeWhile (fun x => x != '\n')).length) with
          | nil =>
              dsimp only
              exact noSpacingSite_single_line (fixHashLine_no_newline hnlln)
                (fixHashLine_fixHashLine _)
          | cons c0 rest =>
              dsimp only
              have hc0 : c0 = '\n' := by
                have h2 := dropWhile_ne_head '\n' (d :: t)
                rw [← drop_length_takeWhile, hdrop] at h2
                rcases h2 with h2 | ⟨t', h2⟩
                · exact absurd h2 (by simp)
                · injection h2 with h3 h4
              subst hc0
              have hlen2 : rest.length ≤ n := by
                have h1 := congrArg List.length hdrop
                simp only [List.length_drop, List.length_cons] at h1 hs ⊢
                omega
              rw [tail_drop_eq hdrop]
              exact noSpacingSite_line_append (fixHashLine_no_newline hnlln)
                (fixHashLine_fixHashLine _) (ih rest hlen2)

/-- Shrinking runs of a non-hash, non-whitespace, non-newline marker
preserves the spacing scan. -/
theorem noSpacingSite_of_Shrinks {c : Char} (hch : c ≠ '#') (hcn : c ≠ '\n') :
    ∀ (n : Nat) (x y : List Char), x.length ≤ n → Shrinks c x y →
      noSpacingSite x = true → noSpacingSite y = true := by
  intro n
  induction n with
  | zero =>
      intro x y hx hshr _
      have hnil : x = [] := List.eq_nil_of_length_eq_zero (Nat.le_zero.mp hx)
      subst hnil
      rw [(Shrinks_nil_iff hshr).mp rfl, noSpacingSite]
  | succ n ih =>
      intro x y hx hshr hscan
      cases x with
      | nil => rw [(Shrinks_nil_iff hshr).mp rfl, noSpacingSite]
      | cons d t =>
          cases y with
          | nil => exact absurd ((Shrinks_nil_iff hshr).mpr rfl) (by simp)
          | cons d' ty =>
              have hdd : d = d' := by
                have h := Shrinks_head_eq hshr
                simpa using h
              subst hdd
              rw [noSpacingSite] at hscan
              simp only [Bool.and_eq_true] at hscan
              obtain ⟨heq, hrest⟩ := hscan
              have heq2 : fixHashLine ((d :: t).takeWhile (fun x => x != '\n')) =
                  (d :: t).takeWhile (fun x => x != '\n') := beq_iff_eq.mp heq
              have hrelLn := Shrinks_takeWhile_dropWhile (fun x => x != '\n') hshr
              have heqy : fixHashLine ((d :: ty).takeWhile (fun x => x != '\n')) =
                  (d :: ty).takeWhile (fun x => x != '\n') :=
                fixHashLine_eq_self_of_Shrinks hch hrelLn.1 heq2
              rw [noSpacingSite]
              simp only [Bool.and_eq_true]
              refine ⟨by rw [heqy]; exact beq_self_eq_true _, ?_⟩
              cases hdw : (d :: t).dropWhile (fun x => x != '\n') with
              | nil =>
                  have hdwy : (d :: ty).dropWhile (fun x => x != '\n') = [] := by
                    have h2 := hrelLn.2
                    rw [hdw] at h2
                    exact (Shrinks_nil_iff h2).mp rfl
                  rw [show (d :: ty).drop
                      (((d :: ty).takeWhile (fun x => x != '\n')).length) =
                      (d :: ty).dropWhile (fun x => x != '\n')
                    from drop_length_takeWhile _ _, hdwy]
              | cons c0 restx =>
                  have hc0 : c0 = '\n' := by
                    rcases dropWhile_ne_head '\n' (d :: t) with h2 | ⟨t', h2⟩
                    · rw [hdw] at h2
                      exact absurd h2 (by simp)
                    · rw [hdw] at h2
                      injection h2 with h3 h4
                  subst hc0
                  have h2 := hrelLn.2
                  rw [hdw] at h2
                  obtain ⟨resty, hdwy, hrelRest⟩ :=
                    Shrinks_cons_inv (fun he => hcn he.symm) h2
                  have hdx : (d :: t).drop
                      (((d :: t).takeWhile (fun x => x != '\n')).length) =
                      '\n' :: restx := by
                    rw [drop_length_takeWhile]
                    exact hdw
                  have hdy : (d :: ty).drop
                      (((d :: ty).takeWhile (fun x => x != '\n')).length) =
                      '\n' :: resty := by
                    rw [drop_length_takeWhile]
                    exact hdwy
                  rw [hdx] at hrest
                  dsimp only at hrest
                  rw [tail_drop_eq hdx] at hrest
                  rw [hdy]
                  dsimp only
                  rw [tail_drop_eq hdy]
                  have hlen2 : restx.length ≤ n := by
                    have h1 := congrArg List.length hdx
                    simp only [List.length_drop, List.length_cons] at h1 hx ⊢
                    omega
                  exact ih restx resty hlen2 hrelRest hrest

/-- claim C7: the markdown repair of `fix_discord_formatting` is idempotent:
every pass of the pipeline (heading bolding, hash spacing, and the three
emphasis-collapsing rules) leaves its own output a fixed point of itself and
of every later pass, so a second full application changes nothing. -/
theorem c7_markdown_repair_idempotent (s : List Char) :
    fix_discord_formatting (fix_discord_formatting s) = fix_discord_formatting s := by
  unfold fix_discord_formatting
  set A := fixHashSpacing (fixHeadings s) with hA
  set B := collapseRuns '*' 4 3 A with hB
  set C2 := collapseRuns '_' 3 2 B with hC2
  set Y := collapseRuns '~' 3 2 C2 with hY
  have sAB : Shrinks '*' A B :=
    Shrinks_collapseRuns '*' 4 3 (by omega) (by omega) A.length A (Nat.le_refl _)
  have sBC : Shrinks '_' B C2 :=
    Shrinks_collapseRuns '_' 3 2 (by omega) (by omega) B.length B (Nat.le_refl _)
  have sCY : Shrinks '~' C2 Y :=
    Shrinks_collapseRuns '~' 3 2 (by omega) (by omega) C2.length C2 (Nat.le_refl _)
  have nhA : noHeadingSite A = true := by
    rw [hA]
    exact noHeadingSite_fixHashSpacing (fixHeadings s).length _ (Nat.le_refl _)
      (noHeadingSite_fixHeadings s.length s (Nat.le_refl _))
  have nhB : noHeadingSite B = true :=
    noHeadingSite_of_Shrinks (by decide) (by decide) (by decide)
      A.length A B (Nat.le_refl _) sAB nhA
  have nhC : noHeadingSite C2 = true :=
    noHeadingSite_of_Shrinks (by decide) (by decide) (by decide)
      B.length B C2 (Nat.le_refl _) sBC nhB
  have nhY : noHeadingSite Y = true :=
    noHeadingSite_of_Shrinks (by decide) (by decide) (by decide)
      C2.length C2 Y (Nat.le_refl _) sCY nhC
  have npA : noSpacingSite A = true := by
    rw [hA]
    exact noSpacingSite_fixHashSpacing (fixHeadings s).length _ (Nat.le_refl _)
  have npB : noSpacingSite B = true :=
    noSpacingSite_of_Shrinks (by decide) (by decide)
      A.length A B (Nat.le_refl _) sAB npA
  have npC : noSpacingSite C2 = true :=
    noSpacingSite_of_Shrinks (by decide) (by decide)
      B.length B C2 (Nat.le_refl _) sBC npB
  have npY : noSpacingSite Y = true :=
    noSpacingSite_of_Shrinks (by decide) (by decide)
      C2.length C2 Y (Nat.le_refl _) sCY npC
  have scsB : noSiteScan '*' 4 B = true := by
    rw [hB]
    exact noSiteScan_collapseRuns '*' 4 3 (by omega) (by omega) (by omega)
      A.length A (Nat.le_refl _)
  have scsC : noSiteScan '*' 4 C2 = true :=
    noSiteScan_of_Shrinks (by decide) B.length B C2 (Nat.le_refl _) sBC scsB
  have scsY : noSiteScan '*' 4 Y = true :=
    noSiteScan_of_Shrinks (by decide) C2.length C2 Y (Nat.le_refl _) sCY scsC
  have scuC : noSiteScan '_' 3 C2 = true := by
    rw [hC2]
    exact noSiteScan_collapseRuns '_' 3 2 (by omega) (by omega) (by omega)
      B.length B (Nat.le_refl _)
  have scuY : noSiteScan '_' 3 Y = true :=
    noSiteScan_of_Shrinks (by decide) C2.length C2 Y (Nat.le_refl _) sCY scuC
  have sctY : noSiteScan '~' 3 Y = true := by
    rw [hY]
    exact noSiteScan_collapseRuns '~' 3 2 (by omega) (by omega) (by omega)
      C2.length C2 (Nat.le_refl _)
  rw [fixHeadings_eq_self_of_noHeadingSite Y.length Y (Nat.le_refl _) nhY,
    fixHashSpacing_eq_self_of_noSpacingSite Y.length Y (Nat.le_refl _) npY,
    collapseRuns_eq_self_of_noSiteScan '*' 4 3 Y.length Y (Nat.le_refl _) scsY,
    collapseRuns_eq_self_of_noSiteScan '_' 3 2 Y.length Y (Nat.le_refl _) scuY,
    collapseRuns_eq_self_of_noSiteScan '~' 3 2 Y.length Y (Nat.le_refl _) sctY]
